import Mathlib

/-!
# Cello `Array`: a shallow embedding of `src/Array.c`

The container of `src/Array.c` is embedded with explicit state passing.

* `struct Array` is the structure `Cello.Array`; its `type` field is the Lean
  type parameter `α` of the elements, and the capabilities the dispatcher
  resolves on that type (`eq`, `lt`) are function arguments.
* The backing storage `data` is either `None` (the null pointer) or a block of
  slots. A slot is `none` while no element has been assigned into it and
  `some v` once `assign` copied `v` there. Sizes are counted in slots: the
  byte count `Array_Step(a) * n` of the source is `n` slots here.
* A `var` that points into the backing storage is a byte offset from
  `a->data` (`Var.ptr`), `Terminal` is the iteration sentinel.
* Every function returns the container state it leaves together with the way
  the call ended (`Res`): a normal return, a Cello exception, or an execution
  that leaves the behaviour C defines (an access outside the block or a use
  of a slot that holds no element).
* The source is embedded as compiled with `CELLO_BOUNDS_CHECK == 1`.
* An allocation request (`malloc`, `realloc`) is granted or refused by the
  environment; each operation makes at most one request and takes the answer
  as its first argument `m`.
* `size_t` and `int64_t` values are `Nat` and `Int`; the conversions between
  them and the `size_t` subtraction that can pass below zero are explicit.
-/

namespace Cello

/-- The exceptions `Array.c` throws. -/
inductive Exn where
  | OutOfMemoryError
  | IndexOutOfBoundsError
  | ValueError
  deriving DecidableEq, Repr

/-- How a call ends: `ok v` is a normal return of `v`, `throw e` a Cello
exception, `undef` an execution outside the behaviour C defines, `nofuel` the
exhaustion of the iteration bound of a loop or recursion of the embedding. -/
inductive Res (β : Type) where
  | ok (v : β)
  | throw (e : Exn)
  | undef
  | nofuel
  deriving DecidableEq, Repr

/-- A `var` as `Array.c` uses it for elements: `Terminal`, or a pointer `off`
bytes past `a->data`. -/
inductive Var where
  | Terminal
  | ptr (off : Nat)
  deriving DecidableEq, Repr

/-- The `struct Array` of the source: backing storage (`none` is the null
pointer), payload size, number of items and number of slots. -/
structure Array (α : Type) where
  data : Option (List (Option α))
  tsize : Nat
  nitems : Nat
  nslots : Nat
  deriving DecidableEq, Repr

variable {α : Type}

/-- Conversion of an `int64_t` to `size_t`: a negative value wraps by `2^64`. -/
def size_of_int64 (i : Int) : Nat :=
  if 0 ≤ i then i.toNat else (i + 2 ^ 64).toNat

/-- Conversion of a `size_t` to `int64_t`: values from `2^63` on wrap by `2^64`. -/
def int64_of_size (n : Nat) : Int :=
  if n < 2 ^ 63 then (n : Int) else (n : Int) - 2 ^ 64

/-- Subtraction of `size_t` values, wrapping by `2^64` below zero. -/
def size_sub (x y : Nat) : Nat :=
  if y ≤ x then x - y else x + 2 ^ 64 - y

/-- Modelled from the spec: `struct CelloHeader` is declared in `Cello.h`, which
is not among the sources. A slot is a header that records the occupying type
and an allocated marker, followed by the payload; `Array_Alloc` writes the two
pointer fields `type` and `flags`, eight bytes each. -/
def sizeof_CelloHeader : Nat := 16

/-- Sequencing of two steps: the second runs on the state the first leaves,
unless the first did not return normally. -/
def bind {β γ : Type} (x : Array α × Res β) (f : Array α → β → Array α × Res γ) :
    Array α × Res γ :=
  match x with
  | (a, .ok v) => f a v
  | (a, .throw e) => (a, .throw e)
  | (a, .undef) => (a, .undef)
  | (a, .nofuel) => (a, .nofuel)

/-- The slots of the backing block; the null pointer has none. -/
def block (a : Array α) : List (Option α) := a.data.getD []

def Array_Step (a : Array α) : Nat := a.tsize + sizeof_CelloHeader

def Array_Item (a : Array α) (i : Nat) : Var :=
  .ptr (Array_Step a * i + sizeof_CelloHeader)

/-- The slot a payload pointer addresses, when it is one. -/
def slot_index (a : Array α) : Var → Option Nat
  | .Terminal => none
  | .ptr off =>
    if sizeof_CelloHeader ≤ off ∧ (off - sizeof_CelloHeader) % Array_Step a = 0 then
      some ((off - sizeof_CelloHeader) / Array_Step a)
    else none

/-- The element a `var` points to; `none` when it points to no element. -/
def deref (a : Array α) (p : Var) : Option α :=
  match slot_index a p with
  | some i => (block a).getD i none
  | none => none

/-- The call `assign(p, v)` on a payload pointer of the block: the slot holds
`v` afterwards. -/
def assign (a : Array α) (p : Var) (v : α) : Array α × Res Unit :=
  match a.data, slot_index a p with
  | some b, some i =>
    if i < b.length then ({ a with data := some (b.set i (some v)) }, .ok ())
    else (a, .undef)
  | _, _ => (a, .undef)

/-- The call `destruct(p)`: the element is handed to the destructor of its
type; the bytes of the slot stay. -/
def destruct (a : Array α) (p : Var) : Array α × Res Unit :=
  match deref a p with
  | some _ => (a, .ok ())
  | none => (a, .undef)

/-- The call `malloc` for `n` slots, granted or not. -/
def malloc (m : Bool) (n : Nat) : Option (List (Option α)) :=
  if m then some (List.replicate n none) else none

/-- The call `realloc` to `n` slots, granted or not: the old contents are kept
up to the smaller of the two sizes. -/
def realloc (m : Bool) (p : Option (List (Option α))) (n : Nat) :
    Option (List (Option α)) :=
  if m then some ((p.getD []).take n ++ List.replicate (n - (p.getD []).length) none)
  else none

/-- The call `memmove` of `n` slots from slot `src` to slot `dst` of the block. -/
def memmove (a : Array α) (dst src n : Nat) : Array α × Res Unit :=
  match a.data with
  | some b =>
    if src + n ≤ b.length ∧ dst + n ≤ b.length then
      ({ a with data := some (b.take dst ++ (b.drop src).take n ++ b.drop (dst + n)) }, .ok ())
    else (a, .undef)
  | none => (a, .undef)

/-- The slot `i` is zeroed and its header written: it holds no element until
`assign` puts one there. -/
def Array_Alloc (a : Array α) (i : Nat) : Array α × Res Unit :=
  match a.data with
  | some b =>
    if i < b.length then ({ a with data := some (b.set i none) }, .ok ())
    else (a, .undef)
  | none => (a, .undef)

def Array_Len (a : Array α) : Nat := a.nitems

/-- The `key` is the `int64_t` the index object holds. Past the test `i < 0` the
conversion of `i` to `size_t` keeps its value, in the comparison with `nitems`
and in `Array_Item`. -/
def Array_Get (a : Array α) (key : Int) : Array α × Res Var :=
  let i := key
  if i < 0 ∨ i ≥ (a.nitems : Int) then (a, .throw .IndexOutOfBoundsError)
  else (a, .ok (Array_Item a i.toNat))

/-- The element `get(obj, i)` returns, read through the pointer. -/
def get_elem (obj : Array α) (i : Int) : Res α :=
  match Array_Get obj i with
  | (_, .ok p) =>
    match deref obj p with
    | some v => .ok v
    | none => .undef
  | (_, .throw e) => .throw e
  | (_, .undef) => .undef
  | (_, .nofuel) => .nofuel

/-- The `for` loop of `Array_New` over the values behind the type, `i` the
index of the next slot. -/
def Array_New_loop : List α → Array α → Nat → Array α × Res Unit
  | [], a, _ => (a, .ok ())
  | v :: vs, a, i =>
    bind (Array_Alloc a i) fun a _ =>
    bind (assign a (Array_Item a i) v) fun a _ =>
    Array_New_loop vs a (i + 1)

/-- The constructor: `tsize` is `size(type)` and `vals` are the arguments after
the type. -/
def Array_New (m : Bool) (tsize : Nat) (vals : List α) : Array α × Res Unit :=
  let a : Array α := { data := none, tsize := tsize, nitems := vals.length, nslots := vals.length }
  if a.nslots = 0 then ({ a with data := none }, .ok ())
  else
    let a := { a with data := malloc m a.nslots }
    if a.data.isNone then (a, .throw .OutOfMemoryError)
    else Array_New_loop vals a 0

/-- The `for` loop of `Array_Clear`: the first argument is the number of
iterations left, `i` the index. -/
def Array_Clear_loop : Nat → Array α → Nat → Array α × Res Unit
  | 0, a, _ => (a, .ok ())
  | n + 1, a, i =>
    bind (destruct a (Array_Item a i)) fun a _ => Array_Clear_loop n a (i + 1)

def Array_Clear (a : Array α) : Array α × Res Unit :=
  bind (Array_Clear_loop a.nitems a 0) fun a _ =>
  ({ a with data := none, nitems := 0, nslots := 0 }, .ok ())

/-- The `for` loop of `Array_Assign`: the first argument is the number of
iterations left, `i` the index. -/
def Array_Assign_loop (obj : Array α) : Nat → Array α → Nat → Array α × Res Unit
  | 0, a, _ => (a, .ok ())
  | n + 1, a, i =>
    bind (Array_Alloc a i) fun a _ =>
    bind (a, get_elem obj (i : Int)) fun a v =>
    bind (assign a (Array_Item a i) v) fun a _ =>
    Array_Assign_loop obj n a (i + 1)

/-- The source `obj` is a second container of this type, an object other than
`a`; `len` and `get` on it are `Array_Len` and `Array_Get`. -/
def Array_Assign (m : Bool) (a : Array α) (obj : Array α) : Array α × Res Unit :=
  bind (Array_Clear a) fun a _ =>
  let a := { a with nitems := Array_Len obj }
  let a := { a with nslots := a.nitems }
  if a.nslots = 0 then ({ a with data := none }, .ok ())
  else
    let a := { a with data := malloc m a.nslots }
    if a.data.isNone then (a, .throw .OutOfMemoryError)
    else Array_Assign_loop obj a.nitems a 0

def Array_Reserve_More (m : Bool) (a : Array α) : Array α × Res Unit :=
  if a.nitems > a.nslots then
    let a := { a with nslots := a.nitems + a.nitems / 2 }
    let a := { a with data := realloc m a.data a.nslots }
    if a.data.isNone then (a, .throw .OutOfMemoryError)
    else (a, .ok ())
  else (a, .ok ())

def Array_Iter_Init (a : Array α) : Var :=
  if a.nitems = 0 then .Terminal else Array_Item a 0

/-- The cursor is compared with the pointer to the last item,
`Array_Item(a, a->nitems-1)` with the subtraction in `size_t`; only a pointer
into the block is advanced. -/
def Array_Iter_Next (a : Array α) (curr : Var) : Var :=
  match curr, Array_Item a (size_sub a.nitems 1) with
  | .ptr c, .ptr last => if c ≥ last then .Terminal else .ptr (c + Array_Step a)
  | _, _ => .Terminal

/-- Modelled from the spec: the `foreach` macro of `Cello.h` is not among the
sources. It starts at `Init` and follows `Next` until the terminal sentinel;
this is its run over the source `obj` inside `Array_Concat`, with `i` the
counter of the loop body. -/
def Array_Concat_loop (obj : Array α) (olen : Nat) :
    Nat → Var → Array α → Nat → Array α × Res Unit
  | _, .Terminal, a, _ => (a, .ok ())
  | 0, .ptr _, a, _ => (a, .nofuel)
  | f + 1, .ptr off, a, i =>
    bind (Array_Alloc a (a.nitems - olen + i)) fun a _ =>
    match deref obj (.ptr off) with
    | none => (a, .undef)
    | some v =>
      bind (assign a (Array_Item a (a.nitems - olen + i)) v) fun a _ =>
      Array_Concat_loop obj olen f (Array_Iter_Next obj (.ptr off)) a (i + 1)

/-- The source `obj` is a second container of this type, an object other than
`a`; the bound handed to the `foreach` loop is the number of its items. -/
def Array_Concat (m : Bool) (a : Array α) (obj : Array α) : Array α × Res Unit :=
  let olen := Array_Len obj
  let a := { a with nitems := a.nitems + olen }
  bind (Array_Reserve_More m a) fun a _ =>
  Array_Concat_loop obj olen (Array_Len obj) (Array_Iter_Init obj) a 0

/-- The copy: the state returned is that of the new container `b`. -/
def Array_Copy (m : Bool) (a : Array α) : Array α × Res Unit :=
  bind (Array_New true a.tsize []) fun b _ =>
  Array_Concat m b a

/-- The `for` loop of `Array_Eq`: the first argument is the number of
iterations left, `i` the index; `if_neq` is the negation of the equality
capability, and `get(obj, i)` is evaluated before the comparison. -/
def Array_Eq_loop (eq : α → α → Bool) (a obj : Array α) : Nat → Nat → Res Bool
  | 0, _ => .ok true
  | n + 1, i =>
    match deref a (Array_Item a i), get_elem obj (i : Int) with
    | _, .throw e => .throw e
    | _, .undef => .undef
    | _, .nofuel => .nofuel
    | none, .ok _ => .undef
    | some x, .ok y => if !(eq x y) then .ok false else Array_Eq_loop eq a obj n (i + 1)

def Array_Eq (eq : α → α → Bool) (a obj : Array α) : Res Bool :=
  if a.nitems ≠ Array_Len obj then .ok false
  else Array_Eq_loop eq a obj a.nitems 0

/-- The `for` loop of `Array_Mem`: the first argument is the number of
iterations left, `i` the index. -/
def Array_Mem_loop (eq : α → α → Bool) (a : Array α) (obj : α) : Nat → Nat → Res Bool
  | 0, _ => .ok false
  | n + 1, i =>
    match deref a (Array_Item a i) with
    | none => .undef
    | some x => if eq x obj then .ok true else Array_Mem_loop eq a obj n (i + 1)

def Array_Mem (eq : α → α → Bool) (a : Array α) (obj : α) : Res Bool :=
  Array_Mem_loop eq a obj a.nitems 0

/-- The result of `realloc` is stored unchecked. -/
def Array_Reserve_Less (m : Bool) (a : Array α) : Array α :=
  if a.nslots > a.nitems + a.nitems / 2 then
    let a := { a with nslots := a.nitems }
    { a with data := realloc m a.data a.nslots }
  else a

def Array_Pop_At (m : Bool) (a : Array α) (key : Int) : Array α × Res Unit :=
  let i := key
  if i < 0 ∨ i ≥ (a.nitems : Int) then (a, .throw .IndexOutOfBoundsError)
  else
    bind (destruct a (Array_Item a i.toNat)) fun a _ =>
    bind (memmove a (i.toNat + 0) (i.toNat + 1) ((a.nitems - 1) - i.toNat)) fun a _ =>
    let a := { a with nitems := a.nitems - 1 }
    (Array_Reserve_Less m a, .ok ())

/-- The `for` loop of `Array_Rem`: the first argument is the number of
iterations left, `i` the index, handed to `Array_Pop_At` as the boxed integer
`$(Int, i)`. -/
def Array_Rem_loop (m : Bool) (eq : α → α → Bool) (a : Array α) (obj : α) :
    Nat → Nat → Array α × Res Unit
  | 0, _ => (a, .throw .ValueError)
  | n + 1, i =>
    match deref a (Array_Item a i) with
    | none => (a, .undef)
    | some x =>
      if eq x obj then Array_Pop_At m a (i : Int)
      else Array_Rem_loop m eq a obj n (i + 1)

def Array_Rem (m : Bool) (eq : α → α → Bool) (a : Array α) (obj : α) : Array α × Res Unit :=
  Array_Rem_loop m eq a obj a.nitems 0

def Array_Push (m : Bool) (a : Array α) (obj : α) : Array α × Res Unit :=
  let a := { a with nitems := a.nitems + 1 }
  bind (Array_Reserve_More m a) fun a _ =>
  bind (Array_Alloc a (a.nitems - 1)) fun a _ =>
  assign a (Array_Item a (a.nitems - 1)) obj

/-- No test guards the index: it is converted to `size_t` as it is, and the
number of slots to move is a `size_t` difference. -/
def Array_Push_At (m : Bool) (a : Array α) (obj : α) (key : Int) : Array α × Res Unit :=
  let a := { a with nitems := a.nitems + 1 }
  bind (Array_Reserve_More m a) fun a _ =>
  let i := key
  bind (memmove a (size_of_int64 (i + 1)) (size_of_int64 (i + 0))
      (size_sub (a.nitems - 1) (size_of_int64 i))) fun a _ =>
  bind (Array_Alloc a (size_of_int64 i)) fun a _ =>
  assign a (Array_Item a (size_of_int64 i)) obj

def Array_Pop (m : Bool) (a : Array α) : Array α × Res Unit :=
  if a.nitems = 0 then (a, .throw .IndexOutOfBoundsError)
  else
    bind (destruct a (Array_Item a (a.nitems - 1))) fun a _ =>
    let a := { a with nitems := a.nitems - 1 }
    (Array_Reserve_Less m a, .ok ())

def Array_Set (a : Array α) (key : Int) (val : α) : Array α × Res Unit :=
  let i := key
  if i < 0 ∨ i ≥ (a.nitems : Int) then (a, .throw .IndexOutOfBoundsError)
  else assign a (Array_Item a i.toNat) val

/-- The three `memcpy` calls through `swapspace`, on whole slots. -/
def Array_Swap (a : Array α) (i j : Nat) : Array α × Res Unit :=
  if i = j then (a, .ok ())
  else
    match a.data with
    | some b =>
      if i < b.length ∧ j < b.length then
        let swapspace := b.getD i none
        let b := b.set i (b.getD j none)
        let b := b.set j swapspace
        ({ a with data := some b }, .ok ())
      else (a, .undef)
    | none => (a, .undef)

/-- The `for` loop of `Array_Reverse`: the first argument is the number of
iterations left, `i` the index. -/
def Array_Reverse_loop (l : Nat) : Nat → Array α → Nat → Array α × Res Unit
  | 0, a, _ => (a, .ok ())
  | n + 1, a, i =>
    bind (Array_Swap a i (l - 1 - i)) fun a _ => Array_Reverse_loop l n a (i + 1)

def Array_Reverse (a : Array α) : Array α × Res Unit :=
  let l := Array_Len a
  Array_Reverse_loop l (l / 2) a 0

/-- The `for` loop of `Array_Sort_Partition`; the first argument bounds the
number of iterations. -/
def Array_Sort_Partition_loop (lt : α → α → Bool) (swapspace : Option α) (r : Int) :
    Nat → Array α → Int → Int → Array α × Res Int
  | 0, a, s, i => if i < r then (a, .nofuel) else (a, .ok s)
  | n + 1, a, s, i =>
    if i < r then
      bind (Array_Get a i) fun a x =>
      match deref a x, swapspace with
      | some xi, some pivot =>
        if lt xi pivot then
          bind (Array_Swap a (size_of_int64 i) (size_of_int64 s)) fun a _ =>
          Array_Sort_Partition_loop lt swapspace r n a (s + 1) (i + 1)
        else Array_Sort_Partition_loop lt swapspace r n a s (i + 1)
      | _, _ => (a, .undef)
    else (a, .ok s)

/-- The pivot slot is copied to `swapspace` before the exchanges; the returned
`s` is converted to `size_t`. -/
def Array_Sort_Partition (lt : α → α → Bool) (a : Array α) (l r : Int) : Array α × Res Nat :=
  let p := l + (r - l).tdiv 2
  match a.data with
  | none => (a, .undef)
  | some b =>
    if size_of_int64 p < b.length then
      let swapspace := b.getD (size_of_int64 p) none
      bind (Array_Swap a (size_of_int64 p) (size_of_int64 r)) fun a _ =>
      bind (Array_Sort_Partition_loop lt swapspace r (r - l).toNat a l l) fun a s =>
      bind (Array_Swap a (size_of_int64 s) (size_of_int64 r)) fun a _ =>
      (a, .ok (size_of_int64 s))
    else (a, .undef)

/-- The recursion of `Array_Sort_Part`; the first argument bounds its depth. -/
def Array_Sort_Part (lt : α → α → Bool) : Nat → Array α → Int → Int → Array α × Res Unit
  | 0, a, l, r => if l < r then (a, .nofuel) else (a, .ok ())
  | f + 1, a, l, r =>
    if l < r then
      bind (Array_Sort_Partition lt a l r) fun a s =>
      let s := int64_of_size s
      bind (Array_Sort_Part lt f a l (s - 1)) fun a _ =>
      Array_Sort_Part lt f a (s + 1) r
    else (a, .ok ())

/-- The right bound is `Array_Len(self)-1`, computed in `size_t` and converted
to the `int64_t` parameter; the depth bound is the length. -/
def Array_Sort (lt : α → α → Bool) (a : Array α) : Array α × Res Unit :=
  Array_Sort_Part lt (Array_Len a) a 0 (int64_of_size (size_sub (Array_Len a) 1))

/-- The pure exchange of two slots that `Array_Swap` performs on the block. -/
def swap_slots (b : List (Option α)) (i j : Nat) : List (Option α) :=
  (b.set i (b.getD j none)).set j (b.getD i none)

/-- The representation invariant of the data model: the block has `nslots`
slots, at most `nslots` of them are items, and every index below `nitems`
addresses a slot that holds an element. -/
def Array_Valid (a : Array α) : Prop :=
  (block a).length = a.nslots ∧ a.nitems ≤ a.nslots ∧
    ∀ i, i < a.nitems → ((block a).getD i none).isSome = true

instance (a : Array α) : Decidable (Array_Valid a) := by
  unfold Array_Valid; infer_instance

/-- The elements of the container as `get` reads them back at the indices
`0 .. nitems - 1`, in order. -/
def Array_toList (a : Array α) : List α :=
  (List.range a.nitems).filterMap fun (i : Nat) =>
    match get_elem a (i : Int) with
    | .ok v => some v
    | _ => none

/-- The container `a` holds exactly the elements `xs`, in this order. -/
def Rep (a : Array α) (xs : List α) : Prop :=
  a.nitems = xs.length ∧ (block a).length = a.nslots ∧
    ∃ rest, block a = xs.map some ++ rest

/-- A less-than capability that is a strict weak order: irreflexive,
transitive, and with a transitive incomparability. -/
def StrictWeakOrder (lt : α → α → Bool) : Prop :=
  (∀ x, lt x x = false) ∧
  (∀ x y z, lt x y = true → lt y z = true → lt x z = true) ∧
  (∀ x y z, lt x y = false → lt y x = false → lt y z = false → lt z y = false →
    lt x z = false ∧ lt z x = false)

/-- The block `b2` is a rearrangement of the block `b1` inside the index range
`lo ≤ k < hi`: same number of slots, every slot outside the range untouched,
every property shared by all slots of the range still shared by them, and the
same slots overall up to order. -/
def Rearranged (b2 b1 : List (Option α)) (lo hi : Nat) : Prop :=
  b2.length = b1.length ∧
  (∀ k, (k < lo ∨ hi ≤ k) → b2.getD k none = b1.getD k none) ∧
  (∀ P : Option α → Prop, (∀ k, lo ≤ k → k < hi → P (b1.getD k none)) →
    ∀ k, lo ≤ k → k < hi → P (b2.getD k none)) ∧
  b2.Perm b1

/-- Every slot of the index range `lo ≤ k < hi` holds an element that
satisfies `Q`. -/
def SegAll (b : List (Option α)) (lo hi : Nat) (Q : α → Prop) : Prop :=
  ∀ k, lo ≤ k → k < hi → ∃ x, b.getD k none = some x ∧ Q x



/-- The slots of the index range `lo ≤ k < hi` are in non-decreasing order:
no later element is less than an earlier one. -/
def SortedSeg (lt : α → α → Bool) (b : List (Option α)) (lo hi : Nat) : Prop :=
  ∀ i j x y, lo ≤ i → i < j → j < hi → b.getD i none = some x → b.getD j none = some y →
    lt y x = false



/-- The less-than capability of the naturals. -/
def lt_nat (x y : Nat) : Bool := decide (x < y)

/-- The equality capability of a type with decidable equality. -/
def eq_dec {β : Type} [DecidableEq β] (x y : β) : Bool := decide (x = y)

/-- The container `new(Array, T, v1, ..., vn)` builds when its allocation is
granted, for a payload of eight bytes. -/
def array_of {β : Type} (vals : List β) : Array β := (Array_New true 8 vals).1

/-- A step of a sequence of `push` and `pop` calls. -/
inductive StackOp (β : Type) where
  | push (v : β)
  | pop
  deriving DecidableEq, Repr

/-- A sequence of `push` and `pop` calls run on a container, every allocation
request granted; it stops at the first call that does not return normally. -/
def run_ops : List (StackOp α) → Array α → Array α × Res Unit
  | [], a => (a, .ok ())
  | .push v :: ops, a => bind (Array_Push true a v) fun a _ => run_ops ops a
  | .pop :: ops, a => bind (Array_Pop true a) fun a _ => run_ops ops a

/-- The stack a sequence of pushes and pops leaves when replayed on the stack
`st`: a push appends its value, a pop removes the then-last value; `none` when
a pop meets the empty stack. -/
def replay : List (StackOp α) → List α → Option (List α)
  | [], st => some st
  | .push v :: ops, st => replay ops (st ++ [v])
  | .pop :: ops, st =>
    match st with
    | [] => none
    | _ :: _ => replay ops st.dropLast

/-- The number of pushes of a sequence. -/
def pushes : List (StackOp α) → Nat
  | [] => 0
  | .push _ :: ops => pushes ops + 1
  | .pop :: ops => pushes ops

/-- The number of pops of a sequence. -/
def pops : List (StackOp α) → Nat
  | [] => 0
  | .push _ :: ops => pops ops
  | .pop :: ops => pops ops + 1

/-- The data-model invariant `0 ≤ length ≤ capacity`; the lower bound holds of
every natural number. -/
def length_le_capacity (a : Array α) : Prop := a.nitems ≤ a.nslots

instance (a : Array α) : Decidable (length_le_capacity a) :=
  inferInstanceAs (Decidable (a.nitems ≤ a.nslots))

/-- The state `a2` has the length and the capacity of the state `a`. -/
def SameSize (a2 a : Array α) : Prop := a2.nitems = a.nitems ∧ a2.nslots = a.nslots

/-- The cursor after `k` steps of an iteration: `Array_Iter_Init`, then
`Array_Iter_Next` on the cursor before. -/
def Array_Iter_nth (a : Array α) : Nat → Var
  | 0 => Array_Iter_Init a
  | k + 1 => Array_Iter_Next a (Array_Iter_nth a k)

/-- A less-than capability that compares pairs on their first component only. -/
def lt_fst (x y : Nat × Char) : Bool := decide (x.1 < y.1)

/-- The containers reachable from a construction (`Array_New`, `Array_Assign`,
`Array_Copy`) by operations that return normally, every allocation request
granted. An insertion counts with an index from `0` to the length, and a sort
on a container whose length fits the signed index type. -/
inductive Reachable : Array α → Prop where
  | construct (t : Nat) (vals : List α) (a : Array α) :
      Array_New true t vals = (a, .ok ()) → Reachable a
  | assign (a obj a2 : Array α) :
      Reachable a → Reachable obj → Array_Assign true a obj = (a2, .ok ()) → Reachable a2
  | copy (a b : Array α) :
      Reachable a → Array_Copy true a = (b, .ok ()) → Reachable b
  | push (a : Array α) (v : α) (a2 : Array α) :
      Reachable a → Array_Push true a v = (a2, .ok ()) → Reachable a2
  | pop (a a2 : Array α) :
      Reachable a → Array_Pop true a = (a2, .ok ()) → Reachable a2
  | push_at (a : Array α) (v : α) (key : Int) (a2 : Array α) :
      Reachable a → 0 ≤ key → key ≤ (Array_Len a : Int) →
      Array_Push_At true a v key = (a2, .ok ()) → Reachable a2
  | pop_at (a : Array α) (key : Int) (a2 : Array α) :
      Reachable a → Array_Pop_At true a key = (a2, .ok ()) → Reachable a2
  | rem (eq : α → α → Bool) (a : Array α) (v : α) (a2 : Array α) :
      Reachable a → Array_Rem true eq a v = (a2, .ok ()) → Reachable a2
  | concat (a obj a2 : Array α) :
      Reachable a → Reachable obj → Array_Concat true a obj = (a2, .ok ()) → Reachable a2
  | clear (a a2 : Array α) :
      Reachable a → Array_Clear a = (a2, .ok ()) → Reachable a2
  | set (a : Array α) (key : Int) (v : α) (a2 : Array α) :
      Reachable a → Array_Set a key v = (a2, .ok ()) → Reachable a2
  | reverse (a a2 : Array α) :
      Reachable a → Array_Reverse a = (a2, .ok ()) → Reachable a2
  | sort (lt : α → α → Bool) (a a2 : Array α) :
      Reachable a → a.nitems ≤ 2 ^ 63 → Array_Sort lt a = (a2, .ok ()) → Reachable a2

/-- No more spare slots than half the length, rounded down. -/
def Tight (a : Array α) : Prop := a.nslots ≤ a.nitems + a.nitems / 2

instance (a : Array α) : Decidable (Tight a) :=
  inferInstanceAs (Decidable (a.nslots ≤ a.nitems + a.nitems / 2))

/-! ## Auxiliary lemmas -/

theorem Array_Step_pos (a : Array α) : 0 < Array_Step a := by
  unfold Array_Step sizeof_CelloHeader; omega

theorem slot_index_Item (a : Array α) (i : Nat) : slot_index a (Array_Item a i) = some i := by
  have h := Array_Step_pos a
  simp only [Array_Item, slot_index, Nat.le_add_left, Nat.add_sub_cancel, Nat.mul_mod_right,
    and_self, if_true, Nat.mul_div_cancel_left _ h]

theorem deref_Item (a : Array α) (i : Nat) :
    deref a (Array_Item a i) = (block a).getD i none := by
  simp only [deref, slot_index_Item]

theorem Array_Get_lt (a : Array α) (i : Nat) (h : i < a.nitems) :
    Array_Get a (i : Int) = (a, .ok (Array_Item a i)) := by
  have h1 : ¬ ((i : Int) < 0 ∨ (i : Int) ≥ (a.nitems : Int)) := by omega
  simp only [Array_Get, h1, if_false, Int.toNat_ofNat]

theorem get_elem_lt (a : Array α) (i : Nat) (h : i < a.nitems) :
    get_elem a (i : Int) = match (block a).getD i none with
      | some v => .ok v
      | none => .undef := by
  simp only [get_elem, Array_Get_lt a i h, deref_Item]

theorem Rep_getD {a : Array α} {xs : List α} (h : Rep a xs) (i : Nat) (hi : i < xs.length) :
    (block a).getD i none = some (xs[i]) := by
  obtain ⟨_, _, rest, hb⟩ := h
  rw [hb, List.getD_append _ _ _ _ (by simpa using hi)]
  simp [List.getD_eq_getElem?_getD, hi]

theorem Rep_valid {a : Array α} {xs : List α} (h : Rep a xs) : Array_Valid a := by
  refine ⟨h.2.1, ?_, ?_⟩
  · obtain ⟨h1, h2, rest, hb⟩ := h
    rw [← h2, hb, h1]; simp
  · intro i hi
    rw [Rep_getD h i (h.1 ▸ hi)]; rfl

theorem filterMap_range_eq (f : Nat → Option α) (xs : List α)
    (h : ∀ i, i < xs.length → f i = xs[i]?) : (List.range xs.length).filterMap f = xs := by
  induction xs using List.reverseRecOn with
  | nil => rfl
  | append_singleton ys y ih =>
    have hy : f ys.length = some y := by
      rw [h ys.length (by simp)]; simp
    have ih2 : (List.range ys.length).filterMap f = ys := by
      apply ih
      intro i hi
      rw [h i (by simp; omega), List.getElem?_append_left hi]
    rw [List.length_append, List.length_singleton, List.range_succ, List.filterMap_append, ih2]
    simp [hy]

theorem Rep_toList {a : Array α} {xs : List α} (h : Rep a xs) : Array_toList a = xs := by
  unfold Array_toList
  rw [h.1]
  apply filterMap_range_eq
  intro i hi
  rw [get_elem_lt a i (h.1 ▸ hi), Rep_getD h i hi]
  simp [hi]

theorem all_some_map (l : List (Option α))
    (h : ∀ i, i < l.length → (l.getD i none).isSome = true) : ∃ xs : List α, l = xs.map some := by
  induction l with
  | nil => exact ⟨[], rfl⟩
  | cons o l ih =>
    obtain ⟨xs, hxs⟩ := ih (fun i hi => by simpa using h (i + 1) (by simpa using hi))
    have ho := h 0 (by simp)
    cases o with
    | none => simp at ho
    | some x => exact ⟨x :: xs, by rw [hxs]; rfl⟩

theorem Valid_Rep {a : Array α} (h : Array_Valid a) : ∃ xs, Rep a xs := by
  obtain ⟨h1, h2, h3⟩ := h
  obtain ⟨xs, hxs⟩ := all_some_map ((block a).take a.nitems) (by
    intro i hi
    have hi2 : i < a.nitems := by
      rw [List.length_take] at hi; omega
    have := h3 i hi2
    simpa [List.getD_eq_getElem?_getD, List.getElem?_take, hi2] using this)
  have hlen : xs.length = a.nitems := by
    have := congrArg List.length hxs
    rw [List.length_take, List.length_map] at this
    omega
  refine ⟨xs, hlen.symm, h1, (block a).drop a.nitems, ?_⟩
  rw [← hxs, List.take_append_drop]

theorem Valid_iff_Rep (a : Array α) : Array_Valid a ↔ Rep a (Array_toList a) := by
  constructor
  · intro h
    obtain ⟨xs, hxs⟩ := Valid_Rep h
    rw [Rep_toList hxs]; exact hxs
  · exact Rep_valid



@[simp] theorem bind_ok {β γ : Type} (a : Array α) (v : β) (f : Array α → β → Array α × Res γ) :
    bind (a, Res.ok v) f = f a v := rfl

theorem data_of_block {a : Array α} (h : 0 < (block a).length) : a.data = some (block a) := by
  unfold block at *
  cases hd : a.data with
  | none => rw [hd] at h; simp at h
  | some b => simp

@[simp] theorem block_data (b : List (Option α)) (t n s : Nat) :
    block ({ data := some b, tsize := t, nitems := n, nslots := s } : Array α) = b := rfl

theorem Array_Alloc_block (a : Array α) (i : Nat) (h : i < (block a).length) :
    Array_Alloc a i = ({ a with data := some ((block a).set i none) }, .ok ()) := by
  have hd := data_of_block (a := a) (by omega)
  unfold Array_Alloc
  rw [hd]
  simp only [block_data, h, if_true]

theorem assign_Item_block (a : Array α) (i : Nat) (v : α) (h : i < (block a).length) :
    assign a (Array_Item a i) v = ({ a with data := some ((block a).set i (some v)) }, .ok ()) := by
  have hd := data_of_block (a := a) (by omega)
  unfold assign
  rw [slot_index_Item, hd]
  simp only [block_data, h, if_true]

theorem memmove_block (a : Array α) (dst src n : Nat) (h0 : 0 < (block a).length)
    (h1 : src + n ≤ (block a).length) (h2 : dst + n ≤ (block a).length) :
    memmove a dst src n = ({ a with data := some ((block a).take dst ++
      ((block a).drop src).take n ++ (block a).drop (dst + n)) }, .ok ()) := by
  have hd := data_of_block (a := a) h0
  unfold memmove
  rw [hd]
  simp only [block_data, h1, h2, and_self, if_true]

theorem destruct_Item (a : Array α) (i : Nat) (v : α) (h : (block a).getD i none = some v) :
    destruct a (Array_Item a i) = (a, .ok ()) := by
  simp only [destruct, deref_Item, h]

theorem Array_Swap_block (a : Array α) (i j : Nat) (hi : i < (block a).length)
    (hj : j < (block a).length) :
    Array_Swap a i j = ({ a with data := some (swap_slots (block a) i j) }, .ok ()) := by
  have hd := data_of_block (a := a) (by omega)
  unfold Array_Swap
  by_cases hij : i = j
  · subst hij
    have : swap_slots (block a) i i = block a := by
      unfold swap_slots
      apply List.ext_getElem?
      intro k
      simp only [List.getElem?_set, List.length_set, List.getD_eq_getElem?_getD]
      by_cases hk : i = k
      · subst hk; simp [hi]
      · simp [hk]
    simp only [if_true, this, ← hd]
  · rw [hd]
    simp only [hij, if_false, block_data, hi, hj, and_self, if_true, swap_slots]

theorem length_swap_slots (b : List (Option α)) (i j : Nat) :
    (swap_slots b i j).length = b.length := by
  simp [swap_slots]

theorem getD_swap_slots (b : List (Option α)) (i j k : Nat) (hi : i < b.length)
    (hj : j < b.length) :
    (swap_slots b i j).getD k none =
      if k = j then b.getD i none else if k = i then b.getD j none else b.getD k none := by
  simp only [swap_slots, List.getD_eq_getElem?_getD, List.getElem?_set, List.length_set]
  by_cases h1 : j = k
  · subst h1; simp [hj]
  · by_cases h2 : i = k
    · subst h2
      have h1' : ¬ i = j := fun h => h1 h.symm
      simp [hi, h1, h1']
    · have h1' : ¬ k = j := fun h => h1 h.symm
      have h2' : ¬ k = i := fun h => h2 h.symm
      simp [h1, h2, h1', h2']

theorem exchange_perm {β : Type} [DecidableEq β] (b : List β) (i j : Nat) (hi : i < b.length)
    (hj : j < b.length) : ((b.set i b[j]).set j b[i]).Perm b := by
  rw [List.perm_iff_count]
  intro x
  rw [List.count_set _ _ _ _ (by simpa using hj), List.count_set _ _ _ _ hi]
  have hci : (if b[i] == x then 1 else 0) ≤ b.count x := by
    split
    · next h =>
      have : b[i] = x := by simpa using h
      exact List.count_pos_iff.mpr (this ▸ List.getElem_mem _)
    · omega
  have hcj : (if b[j] == x then 1 else 0) ≤ b.count x := by
    split
    · next h =>
      have : b[j] = x := by simpa using h
      exact List.count_pos_iff.mpr (this ▸ List.getElem_mem _)
    · omega
  simp only [List.getElem_set]
  by_cases hij : i = j
  · subst hij
    simp only [if_true]
    omega
  · simp only [hij, if_false]
    split <;> split <;> simp_all

theorem swap_slots_perm (b : List (Option α)) (i j : Nat) (hi : i < b.length)
    (hj : j < b.length) : (swap_slots b i j).Perm b := by
  classical
  have h := exchange_perm b i j hi hj
  simpa [swap_slots, List.getD_eq_getElem?_getD, List.getElem?_eq_getElem hi,
    List.getElem?_eq_getElem hj] using h

theorem Rearranged.refl (b : List (Option α)) (lo hi : Nat) : Rearranged b b lo hi :=
  ⟨rfl, fun _ _ => rfl, fun _ h => h, List.Perm.refl _⟩

theorem Rearranged.widen {b2 b1 : List (Option α)} {lo hi lo' hi' : Nat}
    (h : Rearranged b2 b1 lo hi) (h1 : lo' ≤ lo) (h2 : hi ≤ hi') : Rearranged b2 b1 lo' hi' := by
  obtain ⟨hl, ho, hk, hp⟩ := h
  refine ⟨hl, fun k hk' => ho k (by omega), ?_, hp⟩
  intro P hP k hk1 hk2
  by_cases hin : lo ≤ k ∧ k < hi
  · exact hk P (fun k' a b => hP k' (by omega) (by omega)) k hin.1 hin.2
  · rw [ho k (by omega)]
    exact hP k hk1 hk2

theorem Rearranged.trans {b3 b2 b1 : List (Option α)} {lo hi : Nat}
    (h32 : Rearranged b3 b2 lo hi) (h21 : Rearranged b2 b1 lo hi) : Rearranged b3 b1 lo hi := by
  obtain ⟨hl, ho, hk, hp⟩ := h32
  obtain ⟨hl', ho', hk', hp'⟩ := h21
  refine ⟨hl.trans hl', fun k hk1 => (ho k hk1).trans (ho' k hk1), ?_, hp.trans hp'⟩
  intro P hP
  exact hk P (hk' P hP)

theorem Rearranged.swap (b : List (Option α)) {lo hi i j : Nat} (hi1 : lo ≤ i) (hi2 : i < hi)
    (hj1 : lo ≤ j) (hj2 : j < hi) (hlen : hi ≤ b.length) :
    Rearranged (swap_slots b i j) b lo hi := by
  have hi' : i < b.length := by omega
  have hj' : j < b.length := by omega
  refine ⟨length_swap_slots b i j, ?_, ?_, swap_slots_perm b i j hi' hj'⟩
  · intro k hk
    rw [getD_swap_slots b i j k hi' hj', if_neg (by omega), if_neg (by omega)]
  · intro P hP k hk1 hk2
    rw [getD_swap_slots b i j k hi' hj']
    split
    · exact hP i hi1 hi2
    · split
      · exact hP j hj1 hj2
      · exact hP k hk1 hk2

theorem SegAll.rearranged {b2 b1 : List (Option α)} {lo hi : Nat} {Q : α → Prop}
    (h : SegAll b1 lo hi Q) (hr : Rearranged b2 b1 lo hi) : SegAll b2 lo hi Q :=
  hr.2.2.1 (fun o => ∃ x, o = some x ∧ Q x) h

theorem SegAll.outside {b2 b1 : List (Option α)} {lo hi lo' hi' : Nat} {Q : α → Prop}
    (h : SegAll b1 lo hi Q) (hr : Rearranged b2 b1 lo' hi') (hd : hi ≤ lo' ∨ hi' ≤ lo) :
    SegAll b2 lo hi Q := by
  intro k hk1 hk2
  rw [hr.2.1 k (by omega)]
  exact h k hk1 hk2

theorem size_of_int64_ofNat (n : Nat) : size_of_int64 (n : Int) = n := by
  simp [size_of_int64]

theorem int64_of_size_lt (n : Nat) (h : n < 2 ^ 63) : int64_of_size n = (n : Int) := by
  unfold int64_of_size; rw [if_pos h]

theorem set_data_block (a : Array α) (h : 0 < (block a).length) :
    ({ a with data := some (block a) } : Array α) = a := by
  have hd := data_of_block h
  rw [← hd]

/-- The loop of the partition step: started with the pivot `pv` at `r`, the
slots of `[l, s)` less than the pivot and those of `[s, i)` not less, it ends
normally with that property for the final `s` and `i = r`. -/
theorem partition_loop_spec (lt : α → α → Bool) (pv : α) (l r : Nat) :
    ∀ (n : Nat) (a : Array α) (s i : Nat),
      n = r - i → l ≤ s → s ≤ i → i ≤ r → r < a.nitems → a.nitems ≤ (block a).length →
      SegAll (block a) 0 a.nitems (fun _ => True) →
      SegAll (block a) l s (fun x => lt x pv = true) →
      SegAll (block a) s i (fun x => lt x pv = false) →
      ∃ (b2 : List (Option α)) (s2 : Nat), Array_Sort_Partition_loop lt (some pv) (r : Int) n a (s : Int) (i : Int)
          = ({ a with data := some b2 }, .ok (s2 : Int))
        ∧ s ≤ s2 ∧ s2 ≤ r ∧ Rearranged b2 (block a) s r
        ∧ SegAll b2 l s2 (fun x => lt x pv = true)
        ∧ SegAll b2 s2 r (fun x => lt x pv = false) := by
  intro n
  induction n with
  | zero =>
    intro a s i hn hls hsi hir hr hlen hall hlo hhi
    have hir' : i = r := by omega
    subst hir'
    refine ⟨block a, s, ?_, le_refl _, hsi, Rearranged.refl _ _ _, hlo, hhi⟩
    simp only [Array_Sort_Partition_loop, lt_self_iff_false, if_false]
    rw [set_data_block a (by omega)]
  | succ n ih =>
    intro a s i hn hls hsi hir hr hlen hall hlo hhi
    have hir' : i < r := by omega
    have hcond : (i : Int) < (r : Int) := by omega
    obtain ⟨xi, hxi, -⟩ := hall i (Nat.zero_le _) (by omega)
    simp only [Array_Sort_Partition_loop, hcond, if_true, Array_Get_lt a i (by omega), bind_ok,
      deref_Item, hxi]
    by_cases hlt : lt xi pv = true
    · simp only [hlt, if_true, size_of_int64_ofNat]
      rw [Array_Swap_block a i s (by omega) (by omega)]
      simp only [bind_ok]
      have hsw : Rearranged (swap_slots (block a) i s) (block a) s r :=
        Rearranged.swap (block a) hsi hir' (le_refl _) (by omega) (by omega)
      have hget := getD_swap_slots (block a) i s
      have hil : i < (block a).length := by omega
      have hsl : s < (block a).length := by omega
      obtain ⟨b2, s2, heq, h1, h2, h3, h4, h5⟩ :=
        ih { a with data := some (swap_slots (block a) i s) } (s + 1) (i + 1) (by omega)
          (by omega) (by omega) (by omega) hr (by simpa [length_swap_slots] using hlen)
          (by
            have := SegAll.rearranged (hall) (hsw.widen (Nat.zero_le _) (by omega : r ≤ a.nitems))
            simpa using this)
          (by
            intro k hk1 hk2
            simp only [block_data]
            rw [hget k hil hsl]
            by_cases hks : k = s
            · subst hks; simp only [if_true]; exact ⟨xi, hxi, hlt⟩
            · rw [if_neg hks, if_neg (by omega)]
              exact hlo k hk1 (by omega))
          (by
            intro k hk1 hk2
            simp only [block_data]
            rw [hget k hil hsl, if_neg (by omega)]
            by_cases hki : k = i
            · subst hki; simp only [if_true]; exact hhi s (le_refl _) (by omega)
            · rw [if_neg hki]
              exact hhi k (by omega) (by omega))
      refine ⟨b2, s2, ?_, by omega, h2, ?_, h4, h5⟩
      · have e1 : ((s : Int) + 1) = ((s + 1 : Nat) : Int) := by push_cast; rfl
        have e2 : ((i : Int) + 1) = ((i + 1 : Nat) : Int) := by push_cast; rfl
        rw [e1, e2, heq]
      · simp only [block_data] at h3
        exact (h3.widen (by omega) (le_refl _)).trans hsw
    · have hlt' : lt xi pv = false := by simpa using hlt
      simp only [hlt', Bool.false_eq_true, if_false]
      obtain ⟨b2, s2, heq, h1, h2, h3, h4, h5⟩ :=
        ih a s (i + 1) (by omega) hls (by omega) (by omega) hr hlen hall hlo
          (by
            intro k hk1 hk2
            by_cases hki : k = i
            · subst hki; exact ⟨xi, hxi, hlt'⟩
            · exact hhi k hk1 (by omega))
      refine ⟨b2, s2, ?_, h1, h2, h3, h4, h5⟩
      have e2 : ((i : Int) + 1) = ((i + 1 : Nat) : Int) := by push_cast; rfl
      rw [e2, heq]

/-- The partition step on the range `[l, h)` of at least two slots. -/
theorem partition_spec (lt : α → α → Bool) (a : Array α) (l h : Nat) (hlh : l + 1 < h)
    (hh : h ≤ a.nitems) (hlen : a.nitems ≤ (block a).length)
    (hall : SegAll (block a) 0 a.nitems (fun _ => True)) :
    ∃ (b2 : List (Option α)) (s : Nat) (pv : α),
      Array_Sort_Partition lt a (l : Int) ((h : Int) - 1) = ({ a with data := some b2 }, .ok s)
      ∧ l ≤ s ∧ s < h ∧ Rearranged b2 (block a) l h
      ∧ b2.getD s none = some pv ∧ (block a).getD (l + (h - 1 - l) / 2) none = some pv
      ∧ SegAll b2 l s (fun x => lt x pv = true)
      ∧ SegAll b2 (s + 1) h (fun x => lt x pv = false) := by
  obtain ⟨r, rfl⟩ : ∃ r, h = r + 1 := ⟨h - 1, by omega⟩
  have hr : ((r + 1 : Nat) : Int) - 1 = (r : Int) := by push_cast; omega
  have hp : (l : Int) + ((r : Int) - (l : Int)).tdiv 2 = ((l + (r - l) / 2 : Nat) : Int) := by
    have : (r : Int) - (l : Int) = ((r - l : Nat) : Int) := by omega
    rw [this]
    push_cast
    rfl
  have hfuel : ((r : Int) - (l : Int)).toNat = r - l := by omega
  have hd := data_of_block (a := a) (by omega)
  obtain ⟨pv, hpv, -⟩ := hall (l + (r - l) / 2) (Nat.zero_le _) (by omega)
  have hpl : l + (r - l) / 2 < (block a).length := by omega
  have hpr : l + (r - l) / 2 ≤ r := by omega
  have hsw1 : Rearranged (swap_slots (block a) (l + (r - l) / 2) r) (block a) l (r + 1) :=
    Rearranged.swap (block a) (by omega) (by omega) (by omega) (by omega) (by omega)
  have hget1 := getD_swap_slots (block a) (l + (r - l) / 2) r r hpl (by omega)
  simp only [if_true] at hget1
  obtain ⟨b2, s2, heq, h1, h2, h3, h4, h5⟩ :=
    partition_loop_spec lt pv l r (r - l)
      { a with data := some (swap_slots (block a) (l + (r - l) / 2) r) } l l (rfl)
      (le_refl _) (le_refl _) (by omega) (by show r < a.nitems; omega)
      (by simpa [length_swap_slots] using hlen)
      (by
        have := SegAll.rearranged hall (hsw1.widen (Nat.zero_le _) hh)
        simpa using this)
      (fun k hk1 hk2 => by omega) (fun k hk1 hk2 => by omega)
  simp only [block_data] at h3
  have hb2r : b2.getD r none = some pv := by
    rw [h3.2.1 r (Or.inr (le_refl _)), hget1, hpv]
  have hb2len : b2.length = (block a).length := by rw [h3.1, length_swap_slots]
  have hget2 := getD_swap_slots b2 s2 r
  refine ⟨swap_slots b2 s2 r, s2, pv, ?_, h1, by omega, ?_, ?_, by simpa using hpv, ?_, ?_⟩
  · unfold Array_Sort_Partition
    simp only [hr, hp, hfuel, size_of_int64_ofNat]
    rw [hd]
    simp only [block_data, hpl, if_true, hpv]
    rw [Array_Swap_block a _ r hpl (by omega)]
    simp only [bind_ok, heq, size_of_int64_ofNat]
    rw [Array_Swap_block _ s2 r (by simp only [block_data]; omega)
      (by simp only [block_data]; omega)]
    simp only [bind_ok, block_data]
  · have hsw2 : Rearranged (swap_slots b2 s2 r) b2 l (r + 1) :=
      Rearranged.swap b2 h1 (by omega) (by omega) (by omega) (by omega)
    exact hsw2.trans ((h3.widen (le_refl _) (by omega)).trans hsw1)
  · rw [hget2 s2 (by omega) (by omega)]
    by_cases hs : s2 = r
    · simp only [hs, if_true]; rw [← hs] at hb2r ⊢; exact hs ▸ hb2r
    · simp only [hs, if_false, if_true]; exact hb2r
  · intro k hk1 hk2
    rw [hget2 k (by omega) (by omega), if_neg (by omega), if_neg (by omega)]
    exact h4 k hk1 hk2
  · intro k hk1 hk2
    rw [hget2 k (by omega) (by omega)]
    by_cases hk : k = r
    · simp only [hk, if_true]
      exact h5 s2 (le_refl _) (by omega)
    · rw [if_neg hk, if_neg (by omega)]
      exact h5 k (by omega) (by omega)

/-- The recursive step on the range `[l, h)`, with a depth bound that covers
the range: it returns normally, rearranges the range only, and orders it when
less-than is irreflexive and transitive. -/
theorem sort_part_spec (lt : α → α → Bool) :
    ∀ (f : Nat) (a : Array α) (l h : Nat),
      h ≤ l + f + 1 → l ≤ h → h ≤ a.nitems → a.nitems ≤ (block a).length → a.nitems ≤ 2 ^ 63 →
      SegAll (block a) 0 a.nitems (fun _ => True) →
      ∃ a2 : Array α, Array_Sort_Part lt f a (l : Int) ((h : Int) - 1) = (a2, .ok ())
        ∧ a2.nitems = a.nitems ∧ a2.nslots = a.nslots ∧ a2.tsize = a.tsize
        ∧ Rearranged (block a2) (block a) l h
        ∧ ((∀ x, lt x x = false) → (∀ x y z, lt x y = true → lt y z = true → lt x z = true) →
            SortedSeg lt (block a2) l h) := by
  intro f
  induction f with
  | zero =>
    intro a l h hf hlh hh hlen hsz hall
    have hc : ¬ ((l : Int) < (h : Int) - 1) := by omega
    refine ⟨a, ?_, rfl, rfl, rfl, Rearranged.refl _ _ _, ?_⟩
    · simp only [Array_Sort_Part, hc, if_false]
    · intro _ _ i j x y h1 h2 h3
      omega
  | succ f ih =>
    intro a l h hf hlh hh hlen hsz hall
    by_cases hc : (l : Int) < (h : Int) - 1
    · have hlh2 : l + 1 < h := by omega
      obtain ⟨b1, s, pv, heq, hs1, hs2, hre, hpv, -, hlo, hhi⟩ :=
        partition_spec lt a l h hlh2 hh hlen hall
      have hall1 : SegAll b1 0 a.nitems (fun _ => True) :=
        SegAll.rearranged hall (hre.widen (Nat.zero_le _) hh)
      obtain ⟨a2, heq2, hn2, hs2', ht2, hre2, hso2⟩ :=
        ih { a with data := some b1 } l s (by omega) hs1 (by show s ≤ a.nitems; omega)
          (by simp only [block_data]; rw [hre.1]; exact hlen) hsz (by simpa using hall1)
      simp only [block_data] at hre2
      have hn2' : a2.nitems = a.nitems := hn2
      have hall2 : SegAll (block a2) 0 a2.nitems (fun _ => True) := by
        rw [hn2']
        exact SegAll.rearranged hall1 (hre2.widen (Nat.zero_le _) (by omega))
      obtain ⟨a3, heq3, hn3, hs3, ht3, hre3, hso3⟩ :=
        ih a2 (s + 1) h (by omega) (by omega) (by omega)
          (by rw [hn2', hre2.1, hre.1]; exact hlen) (by omega) hall2
      refine ⟨a3, ?_, by omega, hs3.trans hs2', ht3.trans ht2, ?_, ?_⟩
      · have e1 : ((s : Int) + 1) = ((s + 1 : Nat) : Int) := by push_cast; rfl
        simp only [Array_Sort_Part, hc, if_true, heq, bind_ok,
          int64_of_size_lt s (by omega), heq2, e1, heq3]
      · exact (hre3.widen (by omega) (le_refl _)).trans
          ((hre2.widen (le_refl _) (by omega)).trans hre)
      · intro hirr htr
        have hpv3 : (block a3).getD s none = some pv := by
          rw [hre3.2.1 s (by omega), hre2.2.1 s (by omega), hpv]
        have hlo3 : SegAll (block a3) l s (fun x => lt x pv = true) :=
          (hlo.rearranged hre2).outside hre3 (by omega)
        have hhi3 : SegAll (block a3) (s + 1) h (fun x => lt x pv = false) :=
          (hhi.outside hre2 (by omega)).rearranged hre3
        intro i j x y h1 h2 h3 hx hy
        by_cases hjs : j < s
        · rw [hre3.2.1 i (by omega)] at hx
          rw [hre3.2.1 j (by omega)] at hy
          exact hso2 hirr htr i j x y h1 h2 hjs hx hy
        · by_cases his : s < i
          · exact hso3 hirr htr i j x y (by omega) h2 h3 hx hy
          · by_cases hi : i = s
            · subst hi
              rw [hpv3] at hx
              cases hx
              obtain ⟨y', hy', hyy⟩ := hhi3 j (by omega) h3
              rw [hy] at hy'; cases hy'
              exact hyy
            · obtain ⟨x', hx', hxx⟩ := hlo3 i h1 (by omega)
              rw [hx] at hx'; cases hx'
              by_cases hj : j = s
              · subst hj
                have hy2 : y = pv := by
                  rw [hpv3] at hy; exact (Option.some.inj hy).symm
                rw [hy2]
                cases hyx : lt pv x with
                | false => rfl
                | true =>
                  have := htr x pv x hxx hyx
                  rw [hirr x] at this
                  exact absurd this (by simp)
              · obtain ⟨y', hy', hyy⟩ := hhi3 j (by omega) h3
                rw [hy] at hy'; cases hy'
                cases hyx : lt y x with
                | false => rfl
                | true =>
                  have := htr y x pv hyx hxx
                  rw [hyy] at this
                  exact absurd this (by simp)
    · refine ⟨a, ?_, rfl, rfl, rfl, Rearranged.refl _ _ _, ?_⟩
      · simp only [Array_Sort_Part, hc, if_false]
      · intro _ _ i j x y h1 h2 h3
        omega

theorem getElem?_of_getD {b2 b1 : List (Option α)} (hl : b2.length = b1.length) (k : Nat)
    (h : b2.getD k none = b1.getD k none) : b2[k]? = b1[k]? := by
  by_cases hk : k < b1.length
  · have hk2 : k < b2.length := by omega
    simp only [List.getD_eq_getElem?_getD, List.getElem?_eq_getElem hk,
      List.getElem?_eq_getElem hk2, Option.getD_some] at h
    rw [List.getElem?_eq_getElem hk, List.getElem?_eq_getElem hk2, h]
  · rw [List.getElem?_eq_none (by omega), List.getElem?_eq_none (by omega)]

theorem Rearranged_Rep {a a2 : Array α} {xs : List α} (h : Rep a xs)
    (hn : a2.nitems = a.nitems) (hs : a2.nslots = a.nslots)
    (hr : Rearranged (block a2) (block a) 0 a.nitems) :
    ∃ xs2, Rep a2 xs2 ∧ xs2.Perm xs := by
  have hv := Rep_valid h
  obtain ⟨hl, ho, hk, hp⟩ := hr
  have hv2 : Array_Valid a2 := by
    refine ⟨by rw [hl, hv.1, hs], by rw [hn, hs]; exact hv.2.1, ?_⟩
    intro i hi
    exact hk (fun o => o.isSome = true) (fun k _ hk' => hv.2.2 k hk') i (Nat.zero_le _)
      (by omega)
  obtain ⟨xs2, h2⟩ := Valid_Rep hv2
  refine ⟨xs2, h2, ?_⟩
  obtain ⟨hn1, -, rest, hb⟩ := h
  obtain ⟨hn2, -, rest2, hb2⟩ := h2
  have hlen : xs2.length = xs.length := by omega
  have hrest : rest2 = rest := by
    apply List.ext_getElem?
    intro k
    have := getElem?_of_getD hl (xs.length + k) (ho _ (Or.inr (by omega)))
    rw [hb, hb2, List.getElem?_append_right (by simp [hlen]),
      List.getElem?_append_right (by simp)] at this
    simpa [hlen] using this
  rw [hb, hb2, hrest, List.perm_append_right_iff] at hp
  have := hp.filterMap id
  simpa [List.filterMap_map] using this

theorem int64_of_size_sub_one (n : Nat) (h : n ≤ 2 ^ 63) :
    int64_of_size (size_sub n 1) = (n : Int) - 1 := by
  unfold int64_of_size size_sub
  by_cases hn : 1 ≤ n
  · rw [if_pos hn, if_pos (by omega)]; omega
  · have : n = 0 := by omega
    subst this
    norm_num

theorem Array_Sort_spec (lt : α → α → Bool) (a : Array α) (hv : Array_Valid a)
    (hsz : a.nitems ≤ 2 ^ 63) :
    ∃ a2 : Array α, Array_Sort lt a = (a2, .ok ())
      ∧ a2.nitems = a.nitems ∧ a2.nslots = a.nslots ∧ a2.tsize = a.tsize
      ∧ Rearranged (block a2) (block a) 0 a.nitems
      ∧ ((∀ x, lt x x = false) → (∀ x y z, lt x y = true → lt y z = true → lt x z = true) →
          SortedSeg lt (block a2) 0 a.nitems) := by
  have hall : SegAll (block a) 0 a.nitems (fun _ => True) := by
    intro k _ hk
    have := hv.2.2 k hk
    cases hg : (block a).getD k none with
    | none => rw [hg] at this; simp at this
    | some x => exact ⟨x, rfl, trivial⟩
  have := sort_part_spec lt a.nitems a 0 a.nitems (by omega) (Nat.zero_le _) (le_refl _)
    (by rw [hv.1]; exact hv.2.1) hsz hall
  unfold Array_Sort Array_Len
  rw [int64_of_size_sub_one _ hsz]
  exact this

theorem Array_Reserve_More_spec (a : Array α) :
    ∃ a2 : Array α, Array_Reserve_More true a = (a2, .ok ()) ∧ a2.nitems = a.nitems ∧
      a2.tsize = a.tsize ∧
      a2.nslots = (if a.nitems > a.nslots then a.nitems + a.nitems / 2 else a.nslots) ∧
      ((block a).length = a.nslots →
        block a2 = block a ++ List.replicate (a2.nslots - a.nslots) none) := by
  unfold Array_Reserve_More
  by_cases h : a.nitems > a.nslots
  · simp only [h, if_true, realloc, Option.isNone_some, Bool.false_eq_true, if_false]
    refine ⟨_, rfl, rfl, rfl, rfl, ?_⟩
    intro hl
    have hb : a.data.getD [] = block a := rfl
    simp only [hb, hl]
    rw [List.take_of_length_le (by omega)]
    rfl
  · simp only [h, if_false]
    refine ⟨a, rfl, rfl, rfl, rfl, ?_⟩
    intro _
    simp

theorem set_take_succ {β : Type} (b : List β) (i : Nat) (y : β) (h : i < b.length) :
    (b.take (i + 1)).set i y = b.take i ++ [y] := by
  rw [List.take_succ, List.getElem?_eq_getElem h]
  simp only [Option.toList_some]
  rw [List.set_append_right _ _ (by simp [List.length_take])]
  simp [List.length_take, Nat.min_eq_left (Nat.le_of_lt h)]

theorem Array_Push_At_Rep (a : Array α) (xs : List α) (v : α) (i : Nat) (h : Rep a xs)
    (hi : i ≤ xs.length) :
    ∃ a2 : Array α, Array_Push_At true a v (i : Int) = (a2, .ok ()) ∧
      Rep a2 (xs.take i ++ v :: xs.drop i) ∧ a2.tsize = a.tsize ∧
      a2.nslots = (if a.nitems + 1 > a.nslots then a.nitems + 1 + (a.nitems + 1) / 2
        else a.nslots) := by
  obtain ⟨hn, hl, rest, hb⟩ := h
  obtain ⟨a1, h1, hn1, ht1, hs1, hb1⟩ := Array_Reserve_More_spec { a with nitems := a.nitems + 1 }
  have hn1 : a1.nitems = a.nitems + 1 := hn1
  have ht1 : a1.tsize = a.tsize := ht1
  have hs1 : a1.nslots = if a.nitems + 1 > a.nslots then a.nitems + 1 + (a.nitems + 1) / 2
      else a.nslots := hs1
  have hb1' : block a1 = block a ++ List.replicate (a1.nslots - a.nslots) none := hb1 hl
  rw [hb] at hb1'
  have hlen1 : (block a1).length = a1.nslots := by
    rw [hb1', List.length_append, ← hb, hl, List.length_replicate, hs1]
    split <;> omega
  have hcap : a.nitems + 1 ≤ a1.nslots := by
    rw [hs1]; split <;> omega
  -- the slots behind the items: at least one
  obtain ⟨r, rest1, hrest⟩ : ∃ r rest1, rest ++ List.replicate (a1.nslots - a.nslots) none
      = r :: rest1 := by
    cases hr : rest ++ List.replicate (a1.nslots - a.nslots) none with
    | nil =>
      have := congrArg List.length hb1'
      rw [List.append_assoc, hr] at this
      simp at this
      omega
    | cons r rest1 => exact ⟨r, rest1, rfl⟩
  have hb2 : block a1 = List.map some (xs.take i) ++ (List.map some (xs.drop i) ++ r :: rest1) := by
    rw [hb1', List.append_assoc, hrest, ← List.append_assoc, ← List.map_append,
      List.take_append_drop]
  have hA : (List.map some (xs.take i)).length = i := by
    simp [List.length_take, Nat.min_eq_left hi]
  have hB : (List.map some (xs.drop i)).length = xs.length - i := by simp
  have hlen2 : (block a1).length = xs.length + 1 + rest1.length := by
    rw [hb2]; simp only [List.length_append, hA, hB, List.length_cons]; omega
  have e1 : size_of_int64 ((i : Int) + 1) = i + 1 := by
    have : ((i : Int) + 1) = ((i + 1 : Nat) : Int) := by push_cast; rfl
    rw [this, size_of_int64_ofNat]
  have e2 : size_of_int64 ((i : Int) + 0) = i := by
    rw [Int.add_zero, size_of_int64_ofNat]
  have e3 : size_sub (a1.nitems - 1) i = xs.length - i := by
    rw [hn1]
    unfold size_sub
    rw [if_pos (by omega)]; omega
  have hmv := memmove_block a1 (i + 1) i (xs.length - i) (by omega) (by omega) (by omega)
  have htake : (block a1).take i = List.map some (xs.take i) := by
    rw [hb2, List.take_left' hA]
  have hdrop : ((block a1).drop i).take (xs.length - i) = List.map some (xs.drop i) := by
    rw [hb2, List.drop_left' hA, List.take_left' hB]
  have hdrop2 : (block a1).drop (i + 1 + (xs.length - i)) = rest1 := by
    have e : i + 1 + (xs.length - i) = (List.map some (xs.take i) ++ List.map some (xs.drop i)).length
        + 1 := by
      rw [List.length_append, hA, hB]; omega
    rw [hb2, ← List.append_assoc, e, List.drop_append]
    rfl
  have hrun : Array_Push_At true a v (i : Int) =
      ({ a1 with data := some (List.map some (xs.take i ++ v :: xs.drop i) ++ rest1) },
        .ok ()) := by
    unfold Array_Push_At
    simp only [h1, bind_ok, e1, e2, size_of_int64_ofNat, e3, hmv]
    rw [Array_Alloc_block _ i (by
      simp only [block_data, List.length_append, List.length_take, List.length_drop]; omega)]
    simp only [bind_ok, block_data]
    rw [assign_Item_block _ i v (by
      simp only [block_data, List.length_set, List.length_append, List.length_take,
        List.length_drop]; omega)]
    simp only [block_data]
    rw [List.set_set, List.append_assoc, List.set_append_left _ _ (by
      simp only [List.length_take]; omega), set_take_succ _ _ _ (by omega), htake, hdrop,
      hdrop2]
    simp
  refine ⟨_, hrun, ⟨?_, ?_, rest1, rfl⟩, ht1, hs1⟩
  · show a1.nitems = _
    simp only [hn1, List.length_append, List.length_take, List.length_cons, List.length_drop]
    omega
  · show (List.map some (xs.take i ++ v :: xs.drop i) ++ rest1).length = a1.nslots
    simp only [List.length_append, List.length_map, List.length_take, List.length_cons,
      List.length_drop]
    omega

theorem Array_Reserve_Less_Rep (a : Array α) (xs : List α) (h : Rep a xs) :
    Rep (Array_Reserve_Less true a) xs ∧
      (Array_Reserve_Less true a).tsize = a.tsize ∧
      (Array_Reserve_Less true a).nslots =
        (if a.nslots > a.nitems + a.nitems / 2 then a.nitems else a.nslots) := by
  obtain ⟨hn, hl, rest, hb⟩ := h
  by_cases hc : a.nslots > a.nitems + a.nitems / 2
  · have e : Array_Reserve_Less true a = { a with nslots := a.nitems, data := some (
        (block a).take a.nitems ++ List.replicate (a.nitems - (block a).length) none) } := by
      unfold Array_Reserve_Less
      rw [if_pos hc]
      rfl
    rw [e, if_pos hc]
    refine ⟨⟨hn, ?_, [], ?_⟩, rfl, rfl⟩
    · show (List.take a.nitems (block a) ++ _).length = a.nitems
      rw [List.length_append, List.length_take, List.length_replicate]
      omega
    · show List.take a.nitems (block a) ++ _ = _
      rw [hl, hb, hn, List.take_left' (by simp)]
      have : xs.length - a.nslots = 0 := by omega
      rw [this]
      simp
  · have e : Array_Reserve_Less true a = a := by
      unfold Array_Reserve_Less
      rw [if_neg hc]
    rw [e, if_neg hc]
    exact ⟨⟨hn, hl, rest, hb⟩, rfl, rfl⟩

/-- The call `Array_Pop_At` at an index below the length, up to its final
`Array_Reserve_Less`: the item is gone and the later ones moved down. -/
theorem Array_Pop_At_run (m : Bool) (a : Array α) (xs : List α) (i : Nat) (h : Rep a xs)
    (hi : i < xs.length) :
    ∃ a1 : Array α, Array_Pop_At m a (i : Int) = (Array_Reserve_Less m a1, .ok ()) ∧
      Rep a1 (xs.take i ++ xs.drop (i + 1)) ∧ a1.tsize = a.tsize ∧ a1.nslots = a.nslots ∧
      a1.nitems = a.nitems - 1 := by
  have hv := Rep_valid h
  have hg := Rep_getD h i hi
  obtain ⟨hn, hl, rest, hb⟩ := h
  have hc : ¬ ((i : Int) < 0 ∨ (i : Int) ≥ (a.nitems : Int)) := by omega
  have hblen : (block a).length = xs.length + rest.length := by rw [hb]; simp
  have hmv := memmove_block a (i + 0) (i + 1) (a.nitems - 1 - i) (by omega) (by omega)
    (by omega)
  -- the block after the move: the items behind `i` one slot down, the last one twice
  have hb2 : block a = List.map some (xs.take i) ++ (some xs[i] ::
      (List.map some (xs.drop (i + 1)) ++ rest)) := by
    have hx : xs = xs.take i ++ xs[i] :: xs.drop (i + 1) := by
      rw [List.getElem_cons_drop, List.take_append_drop]
    rw [hb]
    conv_lhs => rw [hx]
    simp only [List.map_append, List.map_cons, List.append_assoc, List.cons_append]
  have hA : (List.map some (xs.take i)).length = i := by
    simp [List.length_take, Nat.min_eq_left (Nat.le_of_lt hi)]
  have hB : (List.map some (xs.drop (i + 1))).length = a.nitems - 1 - i := by
    simp only [List.length_map, List.length_drop]; omega
  have htake : (block a).take (i + 0) = List.map some (xs.take i) := by
    rw [Nat.add_zero, hb2, List.take_left' hA]
  have hdrop : ((block a).drop (i + 1)).take (a.nitems - 1 - i)
      = List.map some (xs.drop (i + 1)) := by
    have e : i + 1 = (List.map some (xs.take i) ++ [some xs[i]]).length := by
      rw [List.length_append, hA]; rfl
    rw [hb2]
    have e2 : List.map some (xs.take i) ++ (some xs[i] ::
        (List.map some (xs.drop (i + 1)) ++ rest))
        = (List.map some (xs.take i) ++ [some xs[i]]) ++
          (List.map some (xs.drop (i + 1)) ++ rest) := by simp
    rw [e2, List.drop_left' e.symm, List.take_left' hB]
  let a1 : Array α := { a with nitems := a.nitems - 1, data := some (
      List.map some (xs.take i ++ xs.drop (i + 1)) ++
      (block a).drop (i + 0 + (a.nitems - 1 - i))) }
  have hrep1 : Rep a1 (xs.take i ++ xs.drop (i + 1)) := by
    refine ⟨?_, ?_, _, rfl⟩
    · show a.nitems - 1 = _
      simp only [List.length_append, List.length_take, List.length_drop]; omega
    · show (List.map some (xs.take i ++ xs.drop (i + 1)) ++
        (block a).drop (i + 0 + (a.nitems - 1 - i))).length = a.nslots
      simp only [List.length_append, List.length_map, List.length_take, List.length_drop]
      omega
  have hrun : Array_Pop_At m a (i : Int) = (Array_Reserve_Less m a1, .ok ()) := by
    unfold Array_Pop_At
    simp only [hc, if_false, Int.toNat_ofNat, destruct_Item a i _ hg, bind_ok, hmv, htake,
      hdrop]
    simp only [a1, List.map_append]
  exact ⟨a1, hrun, hrep1, rfl, rfl, rfl⟩

theorem Array_Pop_At_Rep (a : Array α) (xs : List α) (i : Nat) (h : Rep a xs)
    (hi : i < xs.length) :
    ∃ a2 : Array α, Array_Pop_At true a (i : Int) = (a2, .ok ()) ∧
      Rep a2 (xs.take i ++ xs.drop (i + 1)) ∧ a2.tsize = a.tsize ∧
      a2.nslots = (if a.nslots > (a.nitems - 1) + (a.nitems - 1) / 2 then a.nitems - 1
        else a.nslots) := by
  obtain ⟨a1, hrun, hrep1, ht, hs, hn⟩ := Array_Pop_At_run true a xs i h hi
  obtain ⟨h1, h2, h3⟩ := Array_Reserve_Less_Rep a1 _ hrep1
  exact ⟨_, hrun, h1, h2.trans ht, by rw [h3, hs, hn]⟩

theorem Array_Pop_Rep (a : Array α) (xs : List α) (h : Rep a xs) (hne : xs ≠ []) :
    ∃ a2 : Array α, Array_Pop true a = (a2, .ok ()) ∧ Rep a2 xs.dropLast ∧
      a2.tsize = a.tsize ∧
      a2.nslots = (if a.nslots > (a.nitems - 1) + (a.nitems - 1) / 2 then a.nitems - 1
        else a.nslots) := by
  have hpos : 0 < xs.length := List.length_pos.mpr hne
  have hg := Rep_getD h (xs.length - 1) (by omega)
  obtain ⟨hn, hl, rest, hb⟩ := h
  have hc : ¬ a.nitems = 0 := by omega
  let a1 : Array α := { a with nitems := a.nitems - 1 }
  have hrep1 : Rep a1 xs.dropLast := by
    refine ⟨?_, hl, some (xs.getLast hne) :: rest, ?_⟩
    · show a.nitems - 1 = _
      rw [List.length_dropLast, hn]
    · show block a = _
      rw [hb]
      conv_lhs => rw [← List.dropLast_append_getLast hne]
      simp
  have hrun : Array_Pop true a = (Array_Reserve_Less true a1, .ok ()) := by
    unfold Array_Pop
    rw [hn] at hc ⊢
    simp only [hc, if_false, destruct_Item a _ _ hg, bind_ok]
  obtain ⟨h1, h2, h3⟩ := Array_Reserve_Less_Rep a1 _ hrep1
  exact ⟨_, hrun, h1, h2, h3⟩

theorem Array_Push_Rep (a : Array α) (xs : List α) (v : α) (h : Rep a xs) :
    ∃ a2 : Array α, Array_Push true a v = (a2, .ok ()) ∧ Rep a2 (xs ++ [v]) ∧
      a2.tsize = a.tsize ∧
      a2.nslots = (if a.nitems + 1 > a.nslots then a.nitems + 1 + (a.nitems + 1) / 2
        else a.nslots) := by
  obtain ⟨hn, hl, rest, hb⟩ := h
  obtain ⟨a1, h1, hn1, ht1, hs1, hb1⟩ := Array_Reserve_More_spec { a with nitems := a.nitems + 1 }
  have hn1 : a1.nitems = a.nitems + 1 := hn1
  have ht1 : a1.tsize = a.tsize := ht1
  have hs1 : a1.nslots = if a.nitems + 1 > a.nslots then a.nitems + 1 + (a.nitems + 1) / 2
      else a.nslots := hs1
  have hb1' : block a1 = block a ++ List.replicate (a1.nslots - a.nslots) none := hb1 hl
  rw [hb] at hb1'
  have hcap : a.nitems + 1 ≤ a1.nslots := by
    rw [hs1]; split <;> omega
  have hlen1 : (block a1).length = a1.nslots := by
    rw [hb1', List.length_append, ← hb, hl, List.length_replicate, hs1]
    split <;> omega
  obtain ⟨r, rest1, hrest⟩ : ∃ r rest1, rest ++ List.replicate (a1.nslots - a.nslots) none
      = r :: rest1 := by
    cases hr : rest ++ List.replicate (a1.nslots - a.nslots) none with
    | nil =>
      have := congrArg List.length hb1'
      rw [List.append_assoc, hr] at this
      simp at this
      omega
    | cons r rest1 => exact ⟨r, rest1, rfl⟩
  have hb2 : block a1 = List.map some xs ++ r :: rest1 := by
    rw [hb1', List.append_assoc, hrest]
  have hlen2 : (block a1).length = xs.length + 1 + rest1.length := by
    rw [hb2]; simp only [List.length_append, List.length_map, List.length_cons]; omega
  have hrun : Array_Push true a v =
      ({ a1 with data := some (List.map some (xs ++ [v]) ++ rest1) }, .ok ()) := by
    unfold Array_Push
    simp only [h1, bind_ok, hn1, Nat.add_sub_cancel]
    rw [Array_Alloc_block _ a.nitems (by omega)]
    simp only [bind_ok, hn1, Nat.add_sub_cancel]
    rw [assign_Item_block _ a.nitems v (by simp only [block_data, List.length_set]; omega)]
    simp only [block_data, List.set_set, hb2, hn]
    rw [List.set_append_right _ _ (by simp)]
    simp
  refine ⟨_, hrun, ⟨?_, ?_, rest1, rfl⟩, ht1, hs1⟩
  · show a1.nitems = _
    simp only [hn1, List.length_append, List.length_cons, List.length_nil]; omega
  · show (List.map some (xs ++ [v]) ++ rest1).length = a1.nslots
    simp only [List.length_append, List.length_map, List.length_cons, List.length_nil]
    omega

/-- The loop of `Array_Reverse` after the exchanges of the indices below `i`:
the slots below `i` and those from `l - i` on hold the mirrored slots of the
initial block `b0`, the others are still in place. -/
theorem reverse_loop_spec (l : Nat) (b0 : List (Option α)) :
    ∀ (n : Nat) (a : Array α) (i : Nat),
      n + i = l / 2 → l ≤ (block a).length → (block a).length = b0.length →
      (∀ k, k < i → (block a).getD k none = b0.getD (l - 1 - k) none) →
      (∀ k, l - i ≤ k → k < l → (block a).getD k none = b0.getD (l - 1 - k) none) →
      (∀ k, i ≤ k → k < l - i → (block a).getD k none = b0.getD k none) →
      (∀ k, l ≤ k → (block a).getD k none = b0.getD k none) →
      ∃ a2 : Array α, Array_Reverse_loop l n a i = (a2, .ok ()) ∧ a2.nitems = a.nitems ∧
        a2.nslots = a.nslots ∧ a2.tsize = a.tsize ∧ (block a2).length = b0.length ∧
        (∀ k, k < l → (block a2).getD k none = b0.getD (l - 1 - k) none) ∧
        (∀ k, l ≤ k → (block a2).getD k none = b0.getD k none) := by
  intro n
  induction n with
  | zero =>
    intro a i hn hl hlen h1 h2 h3 h4
    refine ⟨a, rfl, rfl, rfl, rfl, hlen, ?_, h4⟩
    intro k hk
    by_cases hk1 : k < i
    · exact h1 k hk1
    · by_cases hk2 : l - i ≤ k
      · exact h2 k hk2 hk
      · have : l - 1 - k = k := by omega
        rw [this]
        exact h3 k (by omega) (by omega)
  | succ n ih =>
    intro a i hn hl hlen h1 h2 h3 h4
    have hi : i < (block a).length := by omega
    have hj : l - 1 - i < (block a).length := by omega
    have hget := getD_swap_slots (block a) i (l - 1 - i)
    obtain ⟨a2, heq, hn2, hs2, ht2, hlen2, hr1, hr2⟩ :=
      ih { a with data := some (swap_slots (block a) i (l - 1 - i)) } (i + 1) (by omega)
        (by simp only [block_data, length_swap_slots]; exact hl)
        (by simp only [block_data, length_swap_slots]; exact hlen)
        (by
          intro k hk
          simp only [block_data]
          rw [hget k hi hj, if_neg (by omega)]
          by_cases hki : k = i
          · subst hki
            rw [if_pos rfl]
            exact h3 _ (by omega) (by omega)
          · rw [if_neg hki]
            exact h1 k (by omega))
        (by
          intro k hk1 hk2
          simp only [block_data]
          rw [hget k hi hj]
          by_cases hkj : k = l - 1 - i
          · subst hkj
            rw [if_pos rfl]
            have : l - 1 - (l - 1 - i) = i := by omega
            rw [this]
            exact h3 i (le_refl _) (by omega)
          · rw [if_neg hkj, if_neg (by omega)]
            exact h2 k (by omega) hk2)
        (by
          intro k hk1 hk2
          simp only [block_data]
          rw [hget k hi hj, if_neg (by omega), if_neg (by omega)]
          exact h3 k (by omega) (by omega))
        (by
          intro k hk
          simp only [block_data]
          rw [hget k hi hj, if_neg (by omega), if_neg (by omega)]
          exact h4 k hk)
    refine ⟨a2, ?_, hn2, hs2, ht2, hlen2, hr1, hr2⟩
    simp only [Array_Reverse_loop]
    rw [Array_Swap_block a i (l - 1 - i) hi hj]
    simp only [bind_ok]
    exact heq

theorem Array_Reverse_Rep (a : Array α) (xs : List α) (h : Rep a xs) :
    ∃ a2 : Array α, Array_Reverse a = (a2, .ok ()) ∧ Rep a2 xs.reverse ∧
      a2.tsize = a.tsize ∧ a2.nslots = a.nslots := by
  have hg := Rep_getD h
  obtain ⟨hn, hl, rest, hb⟩ := h
  have hlen : a.nitems ≤ (block a).length := by rw [hb, hn]; simp
  obtain ⟨a2, heq, hn2, hs2, ht2, hlen2, hr1, hr2⟩ :=
    reverse_loop_spec a.nitems (block a) (a.nitems / 2) a 0 (by omega) hlen rfl
      (fun k hk => by omega) (fun k hk1 hk2 => by omega) (fun _ _ _ => rfl) (fun _ _ => rfl)
  refine ⟨a2, heq, ⟨?_, ?_, rest, ?_⟩, ht2, hs2⟩
  · rw [hn2, hn, List.length_reverse]
  · rw [hlen2, hl, hs2]
  · apply List.ext_getElem?
    intro k
    apply getElem?_of_getD (by rw [hlen2, hb]; simp)
    by_cases hk : k < xs.length
    · rw [hr1 k (by omega), hg _ (by omega),
        List.getD_append _ _ _ _ (by simpa using hk)]
      simp only [List.getD_eq_getElem?_getD, List.getElem?_map, hn]
      rw [List.getElem?_reverse hk, List.getElem?_eq_getElem (by omega)]
      rfl
    · rw [hr2 k (by omega), hb, List.getD_append_right _ _ _ _ (by simpa using hk),
        List.getD_append_right _ _ _ _ (by simpa using hk)]
      simp

theorem get_elem_Rep {a a2 : Array α} {xs : List α} (h : Rep a xs) (h2 : Rep a2 xs)
    (key : Int) : get_elem a2 key = get_elem a key := by
  by_cases hk : 0 ≤ key ∧ key < (xs.length : Int)
  · obtain ⟨i, rfl⟩ := Int.eq_ofNat_of_zero_le hk.1
    have hi : i < xs.length := by omega
    rw [get_elem_lt a i (by rw [h.1]; exact hi), get_elem_lt a2 i (by rw [h2.1]; exact hi),
      Rep_getD h i hi, Rep_getD h2 i hi]
  · have c1 : key < 0 ∨ key ≥ (a.nitems : Int) := by rw [h.1]; omega
    have c2 : key < 0 ∨ key ≥ (a2.nitems : Int) := by rw [h2.1]; omega
    simp only [get_elem, Array_Get, c1, c2, if_true]

theorem Array_New_nil (m : Bool) (t : Nat) :
    Array_New m t ([] : List α) = ({ data := none, tsize := t, nitems := 0, nslots := 0 }, .ok ()) := by
  simp [Array_New]

theorem Rep_empty (t : Nat) :
    Rep ({ data := none, tsize := t, nitems := 0, nslots := 0 } : Array α) [] :=
  ⟨rfl, rfl, [], rfl⟩

theorem run_ops_Rep : ∀ (ops : List (StackOp α)) (a : Array α) (xs st : List α),
    Rep a xs → replay ops xs = some st →
    ∃ a2 : Array α, run_ops ops a = (a2, .ok ()) ∧ Rep a2 st ∧
      st.length + pops ops = xs.length + pushes ops := by
  intro ops
  induction ops with
  | nil =>
    intro a xs st h hr
    simp only [replay, Option.some.injEq] at hr
    subst hr
    exact ⟨a, rfl, h, rfl⟩
  | cons op ops ih =>
    intro a xs st h hr
    cases op with
    | push v =>
      obtain ⟨a1, hrun, hrep, -, -⟩ := Array_Push_Rep a xs v h
      obtain ⟨a2, hrun2, hrep2, hcount⟩ := ih a1 (xs ++ [v]) st hrep hr
      refine ⟨a2, ?_, hrep2, ?_⟩
      · simp only [run_ops, hrun, bind_ok, hrun2]
      · simp only [List.length_append, List.length_singleton] at hcount
        simp only [pops, pushes]
        omega
    | pop =>
      cases xs with
      | nil => simp [replay] at hr
      | cons x xs =>
        obtain ⟨a1, hrun, hrep, -, -⟩ := Array_Pop_Rep a (x :: xs) h (by simp)
        obtain ⟨a2, hrun2, hrep2, hcount⟩ := ih a1 (x :: xs).dropLast st hrep hr
        refine ⟨a2, ?_, hrep2, ?_⟩
        · simp only [run_ops, hrun, bind_ok, hrun2]
        · simp only [List.length_dropLast, List.length_cons, Nat.add_sub_cancel] at hcount
          simp only [pops, pushes, List.length_cons]
          omega

theorem Array_Iter_Next_Item (obj : Array α) (j : Nat) (hj : j < obj.nitems) :
    Array_Iter_Next obj (Array_Item obj j) =
      if j + 1 < obj.nitems then Array_Item obj (j + 1) else .Terminal := by
  have hs := Array_Step_pos obj
  have hsub : size_sub obj.nitems 1 = obj.nitems - 1 := by
    unfold size_sub; rw [if_pos (by omega)]
  simp only [Array_Iter_Next, Array_Item, hsub]
  by_cases h : j + 1 < obj.nitems
  · have hlt : Array_Step obj * j < Array_Step obj * (obj.nitems - 1) :=
      Nat.mul_lt_mul_of_pos_left (by omega) hs
    rw [if_neg (by omega), if_pos h, Nat.mul_succ]
    congr 1
    omega
  · have heq : j = obj.nitems - 1 := by omega
    rw [if_pos (by rw [← heq]), if_neg h]

/-- The `foreach` loop of `Array_Concat` after `j` items of the source. -/
theorem concat_loop_spec (obj : Array α) (xs ys : List α) (hobj : Rep obj ys) :
    ∀ (f : Nat) (a : Array α) (j : Nat),
      j ≤ ys.length → ys.length ≤ f + j → a.nitems = xs.length + ys.length →
      xs.length + ys.length ≤ (block a).length →
      (∃ rest, block a = List.map some (xs ++ ys.take j) ++ rest) →
      ∃ a2 : Array α, Array_Concat_loop obj ys.length f
          (if j < ys.length then Array_Item obj j else .Terminal) a j = (a2, .ok ()) ∧
        a2.nitems = a.nitems ∧ a2.nslots = a.nslots ∧ a2.tsize = a.tsize ∧
        (block a2).length = (block a).length ∧
        ∃ rest, block a2 = List.map some (xs ++ ys) ++ rest := by
  intro f
  induction f with
  | zero =>
    intro a j hj hf hn hlen hb
    have hjm : j = ys.length := by omega
    subst hjm
    rw [List.take_length] at hb
    refine ⟨a, ?_, rfl, rfl, rfl, rfl, hb⟩
    simp only [lt_self_iff_false, if_false, Array_Concat_loop]
  | succ f ih =>
    intro a j hj hf hn hlen hb
    by_cases hjm : j < ys.length
    · obtain ⟨rest, hb⟩ := hb
      have hidx : a.nitems - ys.length + j = xs.length + j := by omega
      have hpre : (List.map some (xs ++ ys.take j)).length = xs.length + j := by
        simp only [List.length_map, List.length_append, List.length_take]; omega
      obtain ⟨r, rest1, hrest⟩ : ∃ r rest1, rest = r :: rest1 := by
        cases rest with
        | nil =>
          have := congrArg List.length hb
          rw [List.append_nil, hpre] at this
          omega
        | cons r rest1 => exact ⟨r, rest1, rfl⟩
      subst hrest
      have hlen1 : xs.length + j < (block a).length := by omega
      have hnew : (((block a).set (xs.length + j) none).set (xs.length + j) (some ys[j]))
          = List.map some (xs ++ ys.take (j + 1)) ++ rest1 := by
        rw [List.set_set, hb, List.set_append_right _ _ (by omega), hpre, Nat.sub_self,
          List.take_succ, List.getElem?_eq_getElem hjm]
        simp only [List.set_cons_zero, Option.toList_some, List.map_append, List.map_cons,
          List.map_nil, List.append_assoc, List.cons_append, List.nil_append]
      obtain ⟨a2, heq, hn2, hs2, ht2, hl2, hb2⟩ :=
        ih { a with data := some (((block a).set (xs.length + j) none).set (xs.length + j)
            (some ys[j])) } (j + 1) (by omega) (by omega) hn
          (by simp only [block_data, List.length_set]; exact hlen)
          ⟨rest1, by simp only [block_data]; exact hnew⟩
      refine ⟨a2, ?_, hn2, hs2, ht2, ?_, hb2⟩
      · rw [if_pos hjm]
        have hitem : Array_Item obj j = .ptr (Array_Step obj * j + sizeof_CelloHeader) := rfl
        have hder : deref obj (.ptr (Array_Step obj * j + sizeof_CelloHeader)) = some ys[j] := by
          rw [← hitem, deref_Item, Rep_getD hobj j hjm]
        have hnext := Array_Iter_Next_Item obj j (by rw [hobj.1]; exact hjm)
        rw [hobj.1, hitem] at hnext
        rw [hitem]
        simp only [Array_Concat_loop]
        simp only [hidx, hder, hnext]
        rw [Array_Alloc_block a _ hlen1]
        simp only [bind_ok, hidx]
        rw [assign_Item_block _ _ _ (by simp only [block_data, List.length_set]; exact hlen1)]
        simp only [bind_ok, block_data]
        exact heq
      · rw [hl2]; simp only [block_data, List.length_set]
    · have hjm' : j = ys.length := by omega
      subst hjm'
      rw [List.take_length] at hb
      refine ⟨a, ?_, rfl, rfl, rfl, rfl, hb⟩
      simp only [lt_self_iff_false, if_false, Array_Concat_loop]

theorem Array_Concat_Rep (a obj : Array α) (xs ys : List α) (h : Rep a xs) (hobj : Rep obj ys) :
    ∃ a2 : Array α, Array_Concat true a obj = (a2, .ok ()) ∧ Rep a2 (xs ++ ys) ∧
      a2.tsize = a.tsize ∧
      a2.nslots = (if a.nitems + obj.nitems > a.nslots
        then a.nitems + obj.nitems + (a.nitems + obj.nitems) / 2 else a.nslots) := by
  obtain ⟨hn, hl, rest, hb⟩ := h
  obtain ⟨a1, h1, hn1, ht1, hs1, hb1⟩ :=
    Array_Reserve_More_spec { a with nitems := a.nitems + Array_Len obj }
  have hn1 : a1.nitems = a.nitems + obj.nitems := hn1
  have ht1 : a1.tsize = a.tsize := ht1
  have hs1 : a1.nslots = if a.nitems + obj.nitems > a.nslots
      then a.nitems + obj.nitems + (a.nitems + obj.nitems) / 2 else a.nslots := hs1
  have hb1' : block a1 = block a ++ List.replicate (a1.nslots - a.nslots) none := hb1 hl
  have hlen1 : (block a1).length = a1.nslots := by
    rw [hb1', List.length_append, hl, List.length_replicate, hs1]
    split <;> omega
  have hcap : a.nitems + obj.nitems ≤ a1.nslots := by
    rw [hs1]; split <;> omega
  have hinit : Array_Iter_Init obj = if 0 < ys.length then Array_Item obj 0 else .Terminal := by
    unfold Array_Iter_Init
    rw [hobj.1]
    by_cases h0 : ys.length = 0
    · rw [if_pos h0, if_neg (by omega)]
    · rw [if_neg h0, if_pos (by omega)]
  obtain ⟨a2, heq, hn2, hs2, ht2, hl2, rest2, hb2⟩ :=
    concat_loop_spec obj xs ys hobj ys.length a1 0 (Nat.zero_le _) (by omega)
      (by rw [hn1, hn, hobj.1]) (by rw [hlen1, ← hn, ← hobj.1]; exact hcap)
      ⟨rest ++ List.replicate (a1.nslots - a.nslots) none, by
        rw [hb1', hb]; simp⟩
  refine ⟨a2, ?_, ⟨?_, ?_, rest2, hb2⟩, ht2.trans ht1, hs2.trans hs1⟩
  · have h1' : Array_Reserve_More true { a with nitems := a.nitems + obj.nitems }
        = (a1, .ok ()) := h1
    simp only [Array_Concat, Array_Len]
    rw [h1', hinit, hobj.1]
    exact heq
  · rw [hn2, hn1, hn, hobj.1, List.length_append]
  · rw [hl2, hlen1, hs2]

theorem Array_Copy_Rep (a : Array α) (xs : List α) (h : Rep a xs) :
    ∃ b : Array α, Array_Copy true a = (b, .ok ()) ∧ Rep b xs ∧ b.tsize = a.tsize := by
  obtain ⟨b, hrun, hrep, ht, -⟩ := Array_Concat_Rep
    ({ data := none, tsize := a.tsize, nitems := 0, nslots := 0 } : Array α) a [] xs
    (Rep_empty a.tsize) h
  refine ⟨b, ?_, by simpa using hrep, ht⟩
  unfold Array_Copy
  rw [Array_New_nil]
  simp only [bind_ok]
  exact hrun

theorem Array_Eq_loop_same (eq : α → α → Bool) (hrefl : ∀ x, eq x x = true) (a b : Array α)
    (xs : List α) (ha : Rep a xs) (hb : Rep b xs) :
    ∀ n i, n + i = xs.length → Array_Eq_loop eq b a n i = .ok true := by
  intro n
  induction n with
  | zero => intro i _; rfl
  | succ n ih =>
    intro i hi
    have hix : i < xs.length := by omega
    simp only [Array_Eq_loop, deref_Item, Rep_getD hb i hix,
      get_elem_lt a i (by rw [ha.1]; exact hix), Rep_getD ha i hix, hrefl, Bool.not_true,
      Bool.false_eq_true, if_false]
    exact ih (i + 1) (by omega)

/-- The scan of `Array_Rem` from index `i`, when `j` is the first index from
`i` on whose element equals `v`: the call is `Array_Pop_At` at `j`. -/
theorem Array_Rem_loop_found (m : Bool) (eq : α → α → Bool) (a : Array α) (xs : List α)
    (v : α) (h : Rep a xs) (j : Nat) (hj : j < xs.length) (hjv : eq xs[j] v = true) :
    ∀ n i, n + i = xs.length → i ≤ j →
      (∀ k (hk : k < xs.length), i ≤ k → k < j → eq xs[k] v = false) →
      Array_Rem_loop m eq a v n i = Array_Pop_At m a (j : Int) := by
  intro n
  induction n with
  | zero => intro i hn hij _; omega
  | succ n ih =>
    intro i hn hij hbefore
    have hix : i < xs.length := by omega
    simp only [Array_Rem_loop, deref_Item, Rep_getD h i hix]
    by_cases hi : i = j
    · subst hi
      rw [if_pos hjv]
    · rw [if_neg (by rw [hbefore i hix (le_refl _) (by omega)]; simp)]
      exact ih (i + 1) (by omega) (by omega)
        (fun k hk h1 h2 => hbefore k hk (by omega) h2)

/-- The scan of `Array_Rem` from index `i` when no element from `i` on equals
`v`: `ValueError`, the container as it was. -/
theorem Array_Rem_loop_absent (m : Bool) (eq : α → α → Bool) (a : Array α) (xs : List α)
    (v : α) (h : Rep a xs) :
    ∀ n i, n + i = xs.length →
      (∀ k (hk : k < xs.length), i ≤ k → eq xs[k] v = false) →
      Array_Rem_loop m eq a v n i = (a, .throw .ValueError) := by
  intro n
  induction n with
  | zero => intro i _ _; rfl
  | succ n ih =>
    intro i hn hall
    have hix : i < xs.length := by omega
    simp only [Array_Rem_loop, deref_Item, Rep_getD h i hix]
    rw [if_neg (by rw [hall i hix (le_refl _)]; simp)]
    exact ih (i + 1) (by omega) (fun k hk h1 => hall k hk (by omega))

/-- The first index whose element satisfies `p`, when some element does. -/
theorem exists_first {β : Type} (p : β → Bool) (xs : List β) (h : ∃ x ∈ xs, p x = true) :
    ∃ j, ∃ hj : j < xs.length, p xs[j] = true ∧
      ∀ k (hk : k < xs.length), k < j → p xs[k] = false := by
  induction xs with
  | nil => simp at h
  | cons x xs ih =>
    by_cases hx : p x = true
    · exact ⟨0, by simp, hx, fun k _ hk => by omega⟩
    · obtain ⟨y, hy, hpy⟩ := h
      have hy' : y ∈ xs := by
        rcases List.mem_cons.mp hy with rfl | h'
        · exact absurd hpy hx
        · exact h'
      obtain ⟨j, hj, hpj, hfirst⟩ := ih ⟨y, hy', hpy⟩
      refine ⟨j + 1, by simpa using hj, by simpa using hpj, ?_⟩
      intro k hk hkj
      cases k with
      | zero => simpa using hx
      | succ k =>
        simp only [List.getElem_cons_succ]
        exact hfirst k (by simpa using hk) (by omega)

theorem Array_Mem_loop_spec (eq : α → α → Bool) (a : Array α) (xs : List α) (v : α)
    (h : Rep a xs) :
    ∀ n i, n + i = xs.length →
      Array_Mem_loop eq a v n i = .ok ((xs.drop i).any (fun x => eq x v)) := by
  intro n
  induction n with
  | zero =>
    intro i hi
    rw [List.drop_of_length_le (by omega)]
    rfl
  | succ n ih =>
    intro i hi
    have hix : i < xs.length := by omega
    simp only [Array_Mem_loop, deref_Item, Rep_getD h i hix]
    rw [← List.getElem_cons_drop _ _ hix, List.any_cons]
    by_cases hv : eq xs[i] v = true
    · rw [if_pos hv, hv, Bool.true_or]
    · rw [if_neg hv, ih (i + 1) (by omega)]
      simp [hv]

theorem Array_Mem_Rep (eq : α → α → Bool) (a : Array α) (xs : List α) (v : α) (h : Rep a xs) :
    Array_Mem eq a v = .ok (xs.any (fun x => eq x v)) := by
  unfold Array_Mem
  rw [h.1, Array_Mem_loop_spec eq a xs v h xs.length 0 rfl, List.drop_zero]

/-- A call that ends in no Cello exception. -/
theorem bind_no_throw {β γ : Type} (x : Array α × Res β) (f : Array α → β → Array α × Res γ)
    (hx : ∀ e, x.2 ≠ .throw e) (hf : ∀ a v e, (f a v).2 ≠ .throw e) :
    ∀ e, (bind x f).2 ≠ .throw e := by
  intro e
  obtain ⟨a, r⟩ := x
  cases r with
  | ok v => exact hf a v e
  | throw e' => exact absurd rfl (hx e')
  | undef => simp [bind]
  | nofuel => simp [bind]

theorem assign_no_throw (a : Array α) (p : Var) (v : α) : ∀ e, (assign a p v).2 ≠ .throw e := by
  intro e
  unfold assign
  split
  · split <;> simp
  · simp

theorem destruct_no_throw (a : Array α) (p : Var) : ∀ e, (destruct a p).2 ≠ .throw e := by
  intro e
  unfold destruct
  split <;> simp

theorem memmove_no_throw (a : Array α) (dst src n : Nat) :
    ∀ e, (memmove a dst src n).2 ≠ .throw e := by
  intro e
  unfold memmove
  split
  · split <;> simp
  · simp

theorem Array_Pop_At_in_range (m : Bool) (a : Array α) (key : Int)
    (h : ¬ (key < 0 ∨ key ≥ (a.nitems : Int))) : ∀ e, (Array_Pop_At m a key).2 ≠ .throw e := by
  unfold Array_Pop_At
  simp only [h, if_false]
  apply bind_no_throw _ _ (destruct_no_throw _ _)
  intro a1 _
  apply bind_no_throw _ _ (memmove_no_throw _ _ _ _)
  intro a2 _ e
  simp

theorem SameSize.same_refl (a : Array α) : SameSize a a := ⟨rfl, rfl⟩

theorem SameSize.same_trans {a3 a2 a1 : Array α} (h32 : SameSize a3 a2) (h21 : SameSize a2 a1) :
    SameSize a3 a1 := ⟨h32.1.trans h21.1, h32.2.trans h21.2⟩

theorem SameSize.inv {a2 a : Array α} (h : SameSize a2 a) (hi : length_le_capacity a) :
    length_le_capacity a2 := by
  unfold length_le_capacity at *
  rw [h.1, h.2]; exact hi

theorem bind_same {β γ : Type} (x : Array α × Res β) (f : Array α → β → Array α × Res γ)
    (a : Array α) (hx : SameSize x.1 a) (hf : ∀ a1 v, SameSize (f a1 v).1 a1) :
    SameSize (bind x f).1 a := by
  obtain ⟨a1, r⟩ := x
  cases r with
  | ok v => exact (hf a1 v).same_trans hx
  | throw e => exact hx
  | undef => exact hx
  | nofuel => exact hx

theorem bind_pres {β γ : Type} (P : Array α → Prop) (x : Array α × Res β)
    (f : Array α → β → Array α × Res γ) (hx : P x.1) (hf : ∀ a1 v, P a1 → P (f a1 v).1) :
    P (bind x f).1 := by
  obtain ⟨a1, r⟩ := x
  cases r with
  | ok v => exact hf a1 v hx
  | throw e => exact hx
  | undef => exact hx
  | nofuel => exact hx

theorem Array_Alloc_same (a : Array α) (i : Nat) : SameSize (Array_Alloc a i).1 a := by
  unfold Array_Alloc
  split
  · split <;> exact ⟨rfl, rfl⟩
  · exact ⟨rfl, rfl⟩

theorem assign_same (a : Array α) (p : Var) (v : α) : SameSize (assign a p v).1 a := by
  unfold assign
  split
  · split <;> exact ⟨rfl, rfl⟩
  · exact ⟨rfl, rfl⟩

theorem destruct_same (a : Array α) (p : Var) : SameSize (destruct a p).1 a := by
  unfold destruct
  split <;> exact ⟨rfl, rfl⟩

theorem memmove_same (a : Array α) (dst src n : Nat) : SameSize (memmove a dst src n).1 a := by
  unfold memmove
  split
  · split <;> exact ⟨rfl, rfl⟩
  · exact ⟨rfl, rfl⟩

theorem Array_Swap_same (a : Array α) (i j : Nat) : SameSize (Array_Swap a i j).1 a := by
  unfold Array_Swap
  split
  · exact ⟨rfl, rfl⟩
  · split
    · split <;> exact ⟨rfl, rfl⟩
    · exact ⟨rfl, rfl⟩

theorem Array_Get_same (a : Array α) (key : Int) : SameSize (Array_Get a key).1 a := by
  unfold Array_Get
  dsimp only
  split <;> exact ⟨rfl, rfl⟩

theorem Array_New_loop_same : ∀ (vals : List α) (a : Array α) (i : Nat),
    SameSize (Array_New_loop vals a i).1 a := by
  intro vals
  induction vals with
  | nil => intro a i; exact ⟨rfl, rfl⟩
  | cons v vs ih =>
    intro a i
    simp only [Array_New_loop]
    apply bind_same _ _ _ (Array_Alloc_same a i)
    intro a1 _
    apply bind_same _ _ _ (assign_same _ _ _)
    intro a2 _
    exact ih a2 (i + 1)

theorem Array_Clear_loop_same : ∀ (n : Nat) (a : Array α) (i : Nat),
    SameSize (Array_Clear_loop n a i).1 a := by
  intro n
  induction n with
  | zero => intro a i; exact ⟨rfl, rfl⟩
  | succ n ih =>
    intro a i
    simp only [Array_Clear_loop]
    apply bind_same _ _ _ (destruct_same _ _)
    intro a1 _
    exact ih a1 (i + 1)

theorem Array_Assign_loop_same (obj : Array α) : ∀ (n : Nat) (a : Array α) (i : Nat),
    SameSize (Array_Assign_loop obj n a i).1 a := by
  intro n
  induction n with
  | zero => intro a i; exact ⟨rfl, rfl⟩
  | succ n ih =>
    intro a i
    simp only [Array_Assign_loop]
    apply bind_same _ _ _ (Array_Alloc_same a i)
    intro a1 _
    apply bind_same _ _ _ (SameSize.same_refl _)
    intro a2 v
    apply bind_same _ _ _ (assign_same _ _ _)
    intro a3 _
    exact ih a3 (i + 1)

theorem Array_Concat_loop_same (obj : Array α) (olen : Nat) :
    ∀ (f : Nat) (cur : Var) (a : Array α) (i : Nat),
      SameSize (Array_Concat_loop obj olen f cur a i).1 a := by
  intro f
  induction f with
  | zero =>
    intro cur a i
    cases cur <;> exact ⟨rfl, rfl⟩
  | succ f ih =>
    intro cur a i
    cases cur with
    | Terminal => exact ⟨rfl, rfl⟩
    | ptr off =>
      simp only [Array_Concat_loop]
      apply bind_same _ _ _ (Array_Alloc_same _ _)
      intro a1 _
      split
      · exact ⟨rfl, rfl⟩
      · apply bind_same _ _ _ (assign_same _ _ _)
        intro a2 _
        exact ih _ a2 (i + 1)

theorem Array_Reverse_loop_same (l : Nat) : ∀ (n : Nat) (a : Array α) (i : Nat),
    SameSize (Array_Reverse_loop l n a i).1 a := by
  intro n
  induction n with
  | zero => intro a i; exact ⟨rfl, rfl⟩
  | succ n ih =>
    intro a i
    simp only [Array_Reverse_loop]
    apply bind_same _ _ _ (Array_Swap_same _ _ _)
    intro a1 _
    exact ih a1 (i + 1)

theorem Array_Sort_Partition_loop_same (lt : α → α → Bool) (sw : Option α) (r : Int) :
    ∀ (n : Nat) (a : Array α) (s i : Int),
      SameSize (Array_Sort_Partition_loop lt sw r n a s i).1 a := by
  intro n
  induction n with
  | zero =>
    intro a s i
    simp only [Array_Sort_Partition_loop]
    split <;> exact ⟨rfl, rfl⟩
  | succ n ih =>
    intro a s i
    simp only [Array_Sort_Partition_loop]
    split
    · apply bind_same _ _ _ (Array_Get_same _ _)
      intro a1 x
      split
      · split
        · apply bind_same _ _ _ (Array_Swap_same _ _ _)
          intro a2 _
          exact ih a2 _ _
        · exact ih a1 _ _
      · exact ⟨rfl, rfl⟩
    · exact ⟨rfl, rfl⟩

theorem Array_Sort_Partition_same (lt : α → α → Bool) (a : Array α) (l r : Int) :
    SameSize (Array_Sort_Partition lt a l r).1 a := by
  unfold Array_Sort_Partition
  split
  · exact ⟨rfl, rfl⟩
  · dsimp only
    split
    · apply bind_same _ _ _ (Array_Swap_same _ _ _)
      intro a1 _
      apply bind_same _ _ _ (Array_Sort_Partition_loop_same _ _ _ _ _ _ _)
      intro a2 s
      apply bind_same _ _ _ (Array_Swap_same _ _ _)
      intro a3 _
      exact ⟨rfl, rfl⟩
    · exact ⟨rfl, rfl⟩

theorem Array_Sort_Part_same (lt : α → α → Bool) : ∀ (f : Nat) (a : Array α) (l r : Int),
    SameSize (Array_Sort_Part lt f a l r).1 a := by
  intro f
  induction f with
  | zero =>
    intro a l r
    simp only [Array_Sort_Part]
    split <;> exact ⟨rfl, rfl⟩
  | succ f ih =>
    intro a l r
    simp only [Array_Sort_Part]
    split
    · apply bind_same _ _ _ (Array_Sort_Partition_same _ _ _ _)
      intro a1 s
      apply bind_same _ _ _ (ih _ _ _)
      intro a2 _
      exact ih _ _ _
    · exact ⟨rfl, rfl⟩

theorem Array_Reserve_More_inv (m : Bool) (a : Array α) :
    length_le_capacity (Array_Reserve_More m a).1 := by
  unfold Array_Reserve_More length_le_capacity
  split
  · dsimp only
    split
    · show a.nitems ≤ a.nitems + a.nitems / 2
      omega
    · show a.nitems ≤ a.nitems + a.nitems / 2
      omega
  · show a.nitems ≤ a.nslots
    omega

theorem Array_Reserve_Less_inv (m : Bool) (a : Array α) (h : length_le_capacity a) :
    length_le_capacity (Array_Reserve_Less m a) := by
  unfold Array_Reserve_Less length_le_capacity
  split
  · exact le_refl _
  · exact h

theorem Array_Pop_At_inv (m : Bool) (a : Array α) (key : Int) (h : length_le_capacity a) :
    length_le_capacity (Array_Pop_At m a key).1 := by
  unfold Array_Pop_At
  simp only
  split
  · exact h
  · apply bind_pres length_le_capacity _ _ ((destruct_same _ _).inv h)
    intro a1 _ h1
    apply bind_pres length_le_capacity _ _ ((memmove_same _ _ _ _).inv h1)
    intro a2 _ h2
    apply Array_Reserve_Less_inv
    unfold length_le_capacity at *
    show a2.nitems - 1 ≤ a2.nslots
    omega

theorem Array_Rem_loop_inv (m : Bool) (eq : α → α → Bool) (a : Array α) (v : α)
    (h : length_le_capacity a) :
    ∀ n i, length_le_capacity (Array_Rem_loop m eq a v n i).1 := by
  intro n
  induction n with
  | zero => intro i; exact h
  | succ n ih =>
    intro i
    simp only [Array_Rem_loop]
    split
    · exact h
    · split
      · exact Array_Pop_At_inv m a _ h
      · exact ih (i + 1)

/-- The loop of the constructor after the values `pre`: the slots behind them
are still empty, and it fills them with the values left. -/
theorem Array_New_loop_spec : ∀ (vs : List α) (a : Array α) (i : Nat) (pre : List α),
    block a = List.map some pre ++ List.replicate vs.length none → pre.length = i →
    ∃ a2 : Array α, Array_New_loop vs a i = (a2, .ok ()) ∧ SameSize a2 a ∧
      a2.tsize = a.tsize ∧ block a2 = List.map some (pre ++ vs) := by
  intro vs
  induction vs with
  | nil =>
    intro a i pre hb _
    refine ⟨a, rfl, ⟨rfl, rfl⟩, rfl, ?_⟩
    simpa using hb
  | cons v vs ih =>
    intro a i pre hb hi
    have hlen : i < (block a).length := by
      rw [hb]; simp only [List.length_append, List.length_map, List.length_replicate,
        List.length_cons]; omega
    have hnew : ((block a).set i none).set i (some v)
        = List.map some (pre ++ [v]) ++ List.replicate vs.length none := by
      rw [List.set_set, hb, List.set_append_right _ _ (by simp [hi])]
      simp [hi, List.replicate_succ]
    obtain ⟨a2, heq, hsame, ht, hb2⟩ :=
      ih { a with data := some (((block a).set i none).set i (some v)) } (i + 1) (pre ++ [v])
        (by simp only [block_data]; exact hnew) (by simp [hi])
    refine ⟨a2, ?_, hsame, ht, by simpa using hb2⟩
    simp only [Array_New_loop]
    rw [Array_Alloc_block a i hlen]
    simp only [bind_ok]
    rw [assign_Item_block _ i v (by simp only [block_data, List.length_set]; exact hlen)]
    simp only [bind_ok, block_data]
    exact heq

/-- The constructor, its allocation granted, builds a container that holds the
given values, with no spare slot. -/
theorem Array_New_Rep (t : Nat) (vals : List α) :
    ∃ a : Array α, Array_New true t vals = (a, .ok ()) ∧ Rep a vals ∧
      a.nslots = vals.length ∧ a.tsize = t := by
  cases vals with
  | nil => exact ⟨_, Array_New_nil true t, Rep_empty t, rfl, rfl⟩
  | cons v vs =>
    obtain ⟨a2, heq, hsame, ht, hb2⟩ := Array_New_loop_spec (v :: vs)
      ({ data := some (List.replicate (v :: vs).length none), tsize := t,
         nitems := (v :: vs).length, nslots := (v :: vs).length } : Array α) 0 []
      (by simp) rfl
    refine ⟨a2, ?_, ⟨hsame.1, ?_, [], by simpa using hb2⟩, hsame.2, ht⟩
    · simp only [Array_New, List.length_cons, Nat.add_one_ne_zero, if_false, malloc, if_true,
        Option.isNone_some, Bool.false_eq_true]
      exact heq
    · rw [hb2, hsame.2]; simp

/-- A grow check that returns normally leaves a block of `nslots` slots with
room for the items. -/
theorem Array_Reserve_More_ok (m : Bool) (a a1 : Array α)
    (h : Array_Reserve_More m a = (a1, .ok ())) (hl : (block a).length = a.nslots) :
    a1.nitems = a.nitems ∧ a1.tsize = a.tsize ∧ (block a1).length = a1.nslots ∧
      a.nitems ≤ a1.nslots := by
  unfold Array_Reserve_More at h
  by_cases hc : a.nitems > a.nslots
  · rw [if_pos hc] at h
    cases m with
    | false =>
      simp [realloc] at h
    | true =>
      simp only [realloc, if_true, Option.isNone_some, Bool.false_eq_true, if_false,
        Prod.mk.injEq, and_true] at h
      subst h
      have hb : a.data.getD [] = block a := rfl
      refine ⟨rfl, rfl, ?_, ?_⟩
      · show (List.take _ (a.data.getD []) ++ _).length = a.nitems + a.nitems / 2
        rw [hb, List.length_append, List.length_take, List.length_replicate, hl]
        omega
      · show a.nitems ≤ a.nitems + a.nitems / 2
        omega
  · rw [if_neg hc] at h
    simp only [Prod.mk.injEq, and_true] at h
    subst h
    exact ⟨rfl, rfl, hl, by omega⟩

theorem bind_congr_left {β γ : Type} (x : Array α × Res β)
    (f g : Array α → β → Array α × Res γ) (h : ∀ a v, x = (a, .ok v) → f a v = g a v) :
    bind x f = bind x g := by
  obtain ⟨a, r⟩ := x
  cases r with
  | ok v => exact h a v rfl
  | throw e => rfl
  | undef => rfl
  | nofuel => rfl

theorem get_elem_data (a : Array α) (b : List (Option α)) (k : Nat) (hk : k < a.nitems) :
    get_elem ({ a with data := some b } : Array α) (k : Int) =
      match b.getD k none with
      | some v => .ok v
      | none => .undef := by
  exact get_elem_lt ({ a with data := some b } : Array α) k hk

theorem get_elem_data_outside (a : Array α) (b : List (Option α)) (k : Nat)
    (hk : (block a).getD k none = b.getD k none) :
    get_elem ({ a with data := some b } : Array α) (k : Int) = get_elem a (k : Int) := by
  by_cases hlt : k < a.nitems
  · rw [get_elem_data a b k hlt, get_elem_lt a k hlt, hk]
  · have c : (k : Int) < 0 ∨ (k : Int) ≥ (a.nitems : Int) := by omega
    simp only [get_elem, Array_Get, c, if_true]

theorem bind_ok_inv {β γ : Type} (x : Array α × Res β) (f : Array α → β → Array α × Res γ)
    (a2 : Array α) (w : γ) (h : bind x f = (a2, .ok w)) :
    ∃ a1 u, x = (a1, .ok u) ∧ f a1 u = (a2, .ok w) := by
  obtain ⟨a1, r⟩ := x
  cases r with
  | ok u => exact ⟨a1, u, rfl, h⟩
  | throw e => simp [bind] at h
  | undef => simp [bind] at h
  | nofuel => simp [bind] at h

/-- A recursion of `Array_Sort_Part` that returns normally within a depth
bound returns the same within a larger one. -/
theorem sort_part_fuel_succ (lt : α → α → Bool) :
    ∀ (f : Nat) (a : Array α) (l r : Int) (a2 : Array α),
      Array_Sort_Part lt f a l r = (a2, .ok ()) →
      Array_Sort_Part lt (f + 1) a l r = (a2, .ok ()) := by
  intro f
  induction f with
  | zero =>
    intro a l r a2 h
    by_cases hc : l < r
    · simp [Array_Sort_Part, hc] at h
    · simp only [Array_Sort_Part, hc, if_false] at h ⊢
      exact h
  | succ f ih =>
    intro a l r a2 h
    by_cases hc : l < r
    · simp only [Array_Sort_Part, hc, if_true] at h
      obtain ⟨a1, s, hpart, h⟩ := bind_ok_inv _ _ _ _ h
      obtain ⟨a3, u, hleft, hright⟩ := bind_ok_inv _ _ _ _ h
      have hleft' := ih a1 l _ a3 hleft
      have hright' := ih a3 _ r a2 hright
      rw [Array_Sort_Part]
      simp only [hc, if_true, hpart, bind_ok, hleft', hright']
    · simp only [Array_Sort_Part, hc, if_false] at h ⊢
      exact h

theorem sort_part_fuel_le (lt : α → α → Bool) (a : Array α) (l r : Int) (a2 : Array α)
    (f : Nat) (h : Array_Sort_Part lt f a l r = (a2, .ok ())) :
    ∀ g, f ≤ g → Array_Sort_Part lt g a l r = (a2, .ok ()) := by
  intro g hg
  induction g with
  | zero =>
    have : f = 0 := by omega
    subst this
    exact h
  | succ g ih =>
    by_cases hfg : f = g + 1
    · subst hfg; exact h
    · exact sort_part_fuel_succ lt g a l r a2 (ih (by omega))

theorem Array_Clear_loop_Rep (a : Array α) (xs : List α) (h : Rep a xs) :
    ∀ n i, n + i = xs.length → Array_Clear_loop n a i = (a, .ok ()) := by
  intro n
  induction n with
  | zero => intro i _; rfl
  | succ n ih =>
    intro i hi
    simp only [Array_Clear_loop, destruct_Item a i _ (Rep_getD h i (by omega)), bind_ok]
    exact ih (i + 1) (by omega)

theorem Array_Clear_Rep (a : Array α) (xs : List α) (h : Rep a xs) :
    Array_Clear a = ({ a with data := none, nitems := 0, nslots := 0 }, .ok ()) := by
  unfold Array_Clear
  rw [h.1, Array_Clear_loop_Rep a xs h xs.length 0 rfl]
  rfl

/-- The loop of `Array_Assign` after `i` elements of the source: the slots
behind them are still empty, and it fills them with the elements left. -/
theorem Array_Assign_loop_spec (obj : Array α) (ys : List α) (hobj : Rep obj ys) :
    ∀ (n : Nat) (a : Array α) (i : Nat), n + i = ys.length →
      block a = List.map some (ys.take i) ++ List.replicate n none →
      ∃ a2 : Array α, Array_Assign_loop obj n a i = (a2, .ok ()) ∧ SameSize a2 a ∧
        a2.tsize = a.tsize ∧ block a2 = List.map some ys := by
  intro n
  induction n with
  | zero =>
    intro a i hi hb
    refine ⟨a, rfl, ⟨rfl, rfl⟩, rfl, ?_⟩
    have : i = ys.length := by omega
    rw [this, List.take_length] at hb
    simpa using hb
  | succ n ih =>
    intro a i hi hb
    have hiy : i < ys.length := by omega
    have hpre : (List.map some (ys.take i)).length = i := by
      simp only [List.length_map, List.length_take]; omega
    have hlen : i < (block a).length := by
      rw [hb]; simp only [List.length_append, hpre, List.length_replicate]; omega
    have hnew : ((block a).set i none).set i (some ys[i])
        = List.map some (ys.take (i + 1)) ++ List.replicate n none := by
      rw [List.set_set, hb, List.set_append_right _ _ (by omega), hpre, Nat.sub_self,
        List.take_succ, List.getElem?_eq_getElem hiy]
      simp only [List.replicate_succ, List.set_cons_zero, Option.toList_some, List.map_append,
        List.map_cons, List.map_nil, List.append_assoc, List.cons_append, List.nil_append]
    have hget : get_elem obj (i : Int) = .ok ys[i] := by
      rw [get_elem_lt obj i (by rw [hobj.1]; exact hiy), Rep_getD hobj i hiy]
    obtain ⟨a2, heq, hsame, ht, hb2⟩ :=
      ih { a with data := some (((block a).set i none).set i (some ys[i])) } (i + 1) (by omega)
        (by simp only [block_data]; exact hnew)
    refine ⟨a2, ?_, hsame, ht, hb2⟩
    simp only [Array_Assign_loop]
    rw [Array_Alloc_block a i hlen]
    simp only [bind_ok, hget]
    rw [assign_Item_block _ i _ (by simp only [block_data, List.length_set]; exact hlen)]
    simp only [bind_ok, block_data]
    exact heq

theorem Array_Assign_Rep (a obj : Array α) (xs ys : List α) (h : Rep a xs) (hobj : Rep obj ys) :
    ∃ a2 : Array α, Array_Assign true a obj = (a2, .ok ()) ∧ Rep a2 ys ∧
      a2.nslots = ys.length ∧ a2.tsize = a.tsize := by
  unfold Array_Assign
  rw [Array_Clear_Rep a xs h]
  simp only [bind_ok, Array_Len, hobj.1]
  cases ys with
  | nil =>
    simp only [List.length_nil, if_true]
    exact ⟨_, rfl, ⟨rfl, rfl, [], rfl⟩, rfl, rfl⟩
  | cons y ys =>
    obtain ⟨a2, heq, hsame, ht, hb2⟩ := Array_Assign_loop_spec obj (y :: ys) hobj (y :: ys).length
      ({ data := some (List.replicate (y :: ys).length none), tsize := a.tsize,
         nitems := (y :: ys).length, nslots := (y :: ys).length } : Array α) 0 rfl (by simp)
    refine ⟨a2, ?_, ⟨hsame.1, ?_, [], by simpa using hb2⟩, hsame.2, ht⟩
    · simp only [List.length_cons, Nat.add_one_ne_zero, if_false, malloc, if_true,
        Option.isNone_some, Bool.false_eq_true]
      exact heq
    · rw [hb2, hsame.2]; simp

theorem Array_Set_Rep (a : Array α) (xs : List α) (i : Nat) (v : α) (h : Rep a xs)
    (hi : i < xs.length) :
    ∃ a2 : Array α, Array_Set a (i : Int) v = (a2, .ok ()) ∧ Rep a2 (xs.set i v) ∧
      SameSize a2 a ∧ a2.tsize = a.tsize := by
  obtain ⟨hn, hl, rest, hb⟩ := h
  have hc : ¬ ((i : Int) < 0 ∨ (i : Int) ≥ (a.nitems : Int)) := by omega
  have hlen : i < (block a).length := by rw [hb]; simp; omega
  refine ⟨{ a with data := some ((block a).set i (some v)) }, ?_, ⟨?_, ?_, rest, ?_⟩,
    ⟨rfl, rfl⟩, rfl⟩
  · simp only [Array_Set, hc, if_false, Int.toNat_ofNat]
    exact assign_Item_block a i v hlen
  · show a.nitems = _
    rw [hn, List.length_set]
  · show ((block a).set i (some v)).length = a.nslots
    rw [List.length_set, hl]
  · show (block a).set i (some v) = _
    rw [hb, List.set_append_left _ _ (by simpa using hi), List.map_set]

theorem Array_Rem_ok (eq : α → α → Bool) (a : Array α) (xs : List α) (v : α) (a2 : Array α)
    (h : Rep a xs) (hrun : Array_Rem true eq a v = (a2, .ok ())) :
    ∃ j, j < xs.length ∧ Array_Pop_At true a (j : Int) = (a2, .ok ()) := by
  by_cases hmem : ∃ x ∈ xs, eq x v = true
  · obtain ⟨j, hj, hjv, hfirst⟩ := exists_first (fun x => eq x v) xs hmem
    refine ⟨j, hj, ?_⟩
    unfold Array_Rem at hrun
    rw [h.1, Array_Rem_loop_found true eq a xs v h j hj hjv xs.length 0 rfl (Nat.zero_le _)
      (fun k hk _ hkj => hfirst k hk hkj)] at hrun
    exact hrun
  · have hall : ∀ x ∈ xs, eq x v = false := by
      intro x hx
      cases hxv : eq x v with
      | false => rfl
      | true => exact absurd ⟨x, hx, hxv⟩ hmem
    unfold Array_Rem at hrun
    rw [h.1, Array_Rem_loop_absent true eq a xs v h xs.length 0 rfl
      (fun k hk _ => hall _ (List.getElem_mem _))] at hrun
    simp at hrun

theorem tight_grow {n c L c2 : Nat} (hc : c ≤ n + n / 2) (hL : n ≤ L)
    (h2 : c2 = if L > c then L + L / 2 else c) : c2 ≤ L + L / 2 := by
  rw [h2]
  split
  · exact le_refl _
  · have : n / 2 ≤ L / 2 := Nat.div_le_div_right hL
    omega

theorem tight_shrink {c L c2 : Nat} (h2 : c2 = if c > L + L / 2 then L else c) :
    c2 ≤ L + L / 2 := by
  rw [h2]
  split <;> omega

/-- Every reachable container is valid and has no more spare slots than half
its length. -/
theorem Reachable_valid_tight (a : Array α) (h : Reachable a) : Array_Valid a ∧ Tight a := by
  induction h with
  | construct t vals a hrun =>
    obtain ⟨a', hrun', hrep, hs, -⟩ := Array_New_Rep (α := α) t vals
    rw [hrun] at hrun'
    obtain rfl := (Prod.mk.inj hrun').1
    refine ⟨Rep_valid hrep, ?_⟩
    unfold Tight; rw [hs, hrep.1]; omega
  | assign a obj a2 _ _ hrun iha ihobj =>
    obtain ⟨xs, hxs⟩ := Valid_Rep iha.1
    obtain ⟨ys, hys⟩ := Valid_Rep ihobj.1
    obtain ⟨a', hrun', hrep, hs, -⟩ := Array_Assign_Rep a obj xs ys hxs hys
    rw [hrun] at hrun'
    obtain rfl := (Prod.mk.inj hrun').1
    refine ⟨Rep_valid hrep, ?_⟩
    unfold Tight; rw [hs, hrep.1]; omega
  | copy a b _ hrun iha =>
    obtain ⟨xs, hxs⟩ := Valid_Rep iha.1
    obtain ⟨b', hrun', hrep, -, hs⟩ := Array_Concat_Rep
      ({ data := none, tsize := a.tsize, nitems := 0, nslots := 0 } : Array α) a [] xs
      (Rep_empty a.tsize) hxs
    have hcopy : Array_Copy true a = (b', .ok ()) := by
      unfold Array_Copy
      rw [Array_New_nil]
      simp only [bind_ok]
      exact hrun'
    rw [hrun] at hcopy
    obtain rfl := (Prod.mk.inj hcopy).1
    refine ⟨Rep_valid hrep, ?_⟩
    have hn : b.nitems = a.nitems := by rw [hrep.1, hxs.1]; simp
    have hs' : b.nslots = if 0 + a.nitems > 0 then 0 + a.nitems + (0 + a.nitems) / 2 else 0 := hs
    unfold Tight; rw [hs', hn]
    split <;> omega
  | push a v a2 _ hrun iha =>
    obtain ⟨xs, hxs⟩ := Valid_Rep iha.1
    obtain ⟨a', hrun', hrep, -, hs⟩ := Array_Push_Rep a xs v hxs
    rw [hrun] at hrun'
    obtain rfl := (Prod.mk.inj hrun').1
    refine ⟨Rep_valid hrep, ?_⟩
    have hn : a2.nitems = a.nitems + 1 := by rw [hrep.1, hxs.1]; simp
    unfold Tight; rw [hn]
    exact tight_grow iha.2 (by omega) hs
  | pop a a2 _ hrun iha =>
    obtain ⟨xs, hxs⟩ := Valid_Rep iha.1
    have hne : xs ≠ [] := by
      intro hnil
      have h0 : a.nitems = 0 := by rw [hxs.1, hnil]; rfl
      simp [Array_Pop, h0] at hrun
    obtain ⟨a', hrun', hrep, -, hs⟩ := Array_Pop_Rep a xs hxs hne
    rw [hrun] at hrun'
    obtain rfl := (Prod.mk.inj hrun').1
    refine ⟨Rep_valid hrep, ?_⟩
    have hn : a2.nitems = a.nitems - 1 := by rw [hrep.1, hxs.1, List.length_dropLast]
    unfold Tight; rw [hn]
    exact tight_shrink hs
  | push_at a v key a2 _ h0 h1 hrun iha =>
    obtain ⟨xs, hxs⟩ := Valid_Rep iha.1
    obtain ⟨i, rfl⟩ := Int.eq_ofNat_of_zero_le h0
    have hi : i ≤ xs.length := by
      have : (i : Int) ≤ (a.nitems : Int) := h1
      rw [← hxs.1]; omega
    obtain ⟨a', hrun', hrep, -, hs⟩ := Array_Push_At_Rep a xs v i hxs hi
    rw [hrun] at hrun'
    obtain rfl := (Prod.mk.inj hrun').1
    refine ⟨Rep_valid hrep, ?_⟩
    have hn : a2.nitems = a.nitems + 1 := by
      rw [hrep.1, hxs.1]
      simp only [List.length_append, List.length_take, List.length_cons, List.length_drop]
      omega
    unfold Tight; rw [hn]
    exact tight_grow iha.2 (by omega) hs
  | pop_at a key a2 _ hrun iha =>
    obtain ⟨xs, hxs⟩ := Valid_Rep iha.1
    have hc : ¬ (key < 0 ∨ key ≥ (a.nitems : Int)) := by
      intro hc
      simp [Array_Pop_At, hc] at hrun
    obtain ⟨i, rfl⟩ := Int.eq_ofNat_of_zero_le (by omega : 0 ≤ key)
    have hlt : i < xs.length := by rw [← hxs.1]; omega
    obtain ⟨a', hrun', hrep, -, hs⟩ := Array_Pop_At_Rep a xs i hxs hlt
    rw [hrun] at hrun'
    obtain rfl := (Prod.mk.inj hrun').1
    refine ⟨Rep_valid hrep, ?_⟩
    have hn : a2.nitems = a.nitems - 1 := by
      rw [hrep.1, hxs.1]
      simp only [List.length_append, List.length_take, List.length_drop]
      omega
    unfold Tight; rw [hn]
    exact tight_shrink hs
  | rem eq a v a2 _ hrun iha =>
    obtain ⟨xs, hxs⟩ := Valid_Rep iha.1
    obtain ⟨j, hj, hpop⟩ := Array_Rem_ok eq a xs v a2 hxs hrun
    obtain ⟨a', hrun', hrep, -, hs⟩ := Array_Pop_At_Rep a xs j hxs hj
    rw [hpop] at hrun'
    obtain rfl := (Prod.mk.inj hrun').1
    refine ⟨Rep_valid hrep, ?_⟩
    have hn : a2.nitems = a.nitems - 1 := by
      rw [hrep.1, hxs.1]
      simp only [List.length_append, List.length_take, List.length_drop]
      omega
    unfold Tight; rw [hn]
    exact tight_shrink hs
  | concat a obj a2 _ _ hrun iha ihobj =>
    obtain ⟨xs, hxs⟩ := Valid_Rep iha.1
    obtain ⟨ys, hys⟩ := Valid_Rep ihobj.1
    obtain ⟨a', hrun', hrep, -, hs⟩ := Array_Concat_Rep a obj xs ys hxs hys
    rw [hrun] at hrun'
    obtain rfl := (Prod.mk.inj hrun').1
    refine ⟨Rep_valid hrep, ?_⟩
    have hn : a2.nitems = a.nitems + obj.nitems := by
      rw [hrep.1, hxs.1, hys.1, List.length_append]
    unfold Tight; rw [hn]
    exact tight_grow iha.2 (by omega) hs
  | clear a a2 _ hrun iha =>
    obtain ⟨xs, hxs⟩ := Valid_Rep iha.1
    rw [Array_Clear_Rep a xs hxs] at hrun
    obtain rfl := (Prod.mk.inj hrun).1
    exact ⟨Rep_valid (Rep_empty a.tsize), Nat.zero_le _⟩
  | set a key v a2 _ hrun iha =>
    obtain ⟨xs, hxs⟩ := Valid_Rep iha.1
    have hc : ¬ (key < 0 ∨ key ≥ (a.nitems : Int)) := by
      intro hc
      simp [Array_Set, hc] at hrun
    obtain ⟨i, rfl⟩ := Int.eq_ofNat_of_zero_le (by omega : 0 ≤ key)
    obtain ⟨a', hrun', hrep, hsame, -⟩ := Array_Set_Rep a xs i v hxs (by rw [← hxs.1]; omega)
    rw [hrun] at hrun'
    obtain rfl := (Prod.mk.inj hrun').1
    refine ⟨Rep_valid hrep, ?_⟩
    unfold Tight; rw [hsame.1, hsame.2]; exact iha.2
  | reverse a a2 _ hrun iha =>
    obtain ⟨xs, hxs⟩ := Valid_Rep iha.1
    obtain ⟨a', hrun', hrep, -, hs⟩ := Array_Reverse_Rep a xs hxs
    rw [hrun] at hrun'
    obtain rfl := (Prod.mk.inj hrun').1
    refine ⟨Rep_valid hrep, ?_⟩
    have hn : a2.nitems = a.nitems := by rw [hrep.1, hxs.1, List.length_reverse]
    unfold Tight; rw [hn, hs]; exact iha.2
  | sort lt a a2 _ hsz hrun iha =>
    obtain ⟨xs, hxs⟩ := Valid_Rep iha.1
    obtain ⟨a', hrun', hn, hs, -, hr, -⟩ := Array_Sort_spec lt a iha.1 hsz
    rw [hrun] at hrun'
    obtain rfl := (Prod.mk.inj hrun').1
    obtain ⟨xs2, hxs2, -⟩ := Rearranged_Rep hxs hn hs hr
    refine ⟨Rep_valid hxs2, ?_⟩
    unfold Tight; rw [hn, hs]; exact iha.2

/-- The capacity through a grow check at length `n + 1` and then a shrink
check at length `n`, from a capacity `c` with `n ≤ c ≤ n + n / 2`. -/
theorem grow_then_shrink {n c c1 c2 : Nat} (hcap : n ≤ c) (ht : c ≤ n + n / 2)
    (h1 : c1 = if n + 1 > c then n + 1 + (n + 1) / 2 else c)
    (h2 : c2 = if c1 > n + n / 2 then n else c1) :
    c2 = c ∧ (c1 = c → c2 = c1) ∧ (c < c1 → c2 < c1) := by
  by_cases hg : n + 1 > c
  · rw [if_pos hg] at h1
    have hgt : c1 > n + n / 2 := by rw [h1]; omega
    rw [if_pos hgt] at h2
    refine ⟨by omega, fun _ => by omega, fun _ => by omega⟩
  · rw [if_neg hg] at h1
    have hle : ¬ c1 > n + n / 2 := by rw [h1]; omega
    rw [if_neg hle] at h2
    refine ⟨by omega, fun _ => by omega, fun _ => by omega⟩

/-! ## The claims -/

theorem lt_nat_strict_weak : StrictWeakOrder lt_nat := by
  refine ⟨?_, ?_, ?_⟩ <;> intros <;> simp_all [lt_nat] <;> omega

/-- C1: for a container whose length fits the signed index type and whose
less-than is a strict weak order, `Array_Sort` returns normally and leaves the
elements, all still present, in non-decreasing order: at indices `i < j` the
element at `j` is not less than the element at `i`. -/
theorem Array_Sort_sorted (lt : α → α → Bool) (a : Array α) (hv : Array_Valid a)
    (hsz : a.nitems ≤ 2 ^ 63) (hlt : StrictWeakOrder lt) :
    ∃ a2 : Array α, Array_Sort lt a = (a2, .ok ()) ∧
      (Array_toList a2).length = a.nitems ∧
      ∀ (i j : Nat) (_ : i < j) (hj : j < (Array_toList a2).length),
        lt ((Array_toList a2)[j]) ((Array_toList a2)[i]) = false := by
  obtain ⟨a2, heq, hn, hs, -, hr, hso⟩ := Array_Sort_spec lt a hv hsz
  obtain ⟨xs, hxs⟩ := Valid_Rep hv
  obtain ⟨xs2, hxs2, hp⟩ := Rearranged_Rep hxs hn hs hr
  refine ⟨a2, heq, ?_, ?_⟩
  · rw [Rep_toList hxs2, ← hxs2.1, hn]
  · rw [Rep_toList hxs2]
    intro i j hij hj
    have hjn : j < a.nitems := by rw [← hn, hxs2.1]; exact hj
    exact hso hlt.1 hlt.2.1 i j _ _ (Nat.zero_le _) hij hjn
      (Rep_getD hxs2 i (by omega)) (Rep_getD hxs2 j hj)

theorem Array_Sort_sorted_witness :
    Array_Valid (array_of [5, 3, 1, 4, 2]) ∧ (array_of [5, 3, 1, 4, 2]).nitems ≤ 2 ^ 63 ∧
    StrictWeakOrder lt_nat ∧
    Array_toList (Array_Sort lt_nat (array_of [5, 3, 1, 4, 2])).1 = [1, 2, 3, 4, 5] ∧
    Array_Sort lt_nat (array_of []) = (array_of [], .ok ()) ∧
    Array_Sort lt_nat (array_of [7]) = (array_of [7], .ok ()) ∧
    ∃ a2 : Array Nat, Array_Sort lt_nat (array_of [5, 3, 1, 4, 2]) = (a2, .ok ()) ∧
      (Array_toList a2).length = (array_of [5, 3, 1, 4, 2]).nitems ∧
      ∀ (i j : Nat) (_ : i < j) (hj : j < (Array_toList a2).length),
        lt_nat ((Array_toList a2)[j]) ((Array_toList a2)[i]) = false :=
  ⟨by decide, by decide, lt_nat_strict_weak, by decide, by decide, by decide,
    Array_Sort_sorted lt_nat (array_of [5, 3, 1, 4, 2]) (by decide) (by decide)
      lt_nat_strict_weak⟩

/-- C2: for a container whose length fits the signed index type and for any
less-than relation whatever, `Array_Sort` returns normally, leaves the length
and the capacity as they were and the elements a permutation of the input; on
an empty container, where the right bound is `0 - 1` computed in `size_t`, it
changes nothing at all. -/
theorem Array_Sort_perm (lt : α → α → Bool) (a : Array α) (hv : Array_Valid a)
    (hsz : a.nitems ≤ 2 ^ 63) :
    ∃ a2 : Array α, Array_Sort lt a = (a2, .ok ()) ∧
      Array_Len a2 = Array_Len a ∧ a2.nslots = a.nslots ∧
      (Array_toList a2).Perm (Array_toList a) ∧
      (Array_Len a = 0 → a2 = a) := by
  obtain ⟨a2, heq, hn, hs, -, hr, -⟩ := Array_Sort_spec lt a hv hsz
  obtain ⟨xs, hxs⟩ := Valid_Rep hv
  obtain ⟨xs2, hxs2, hp⟩ := Rearranged_Rep hxs hn hs hr
  refine ⟨a2, heq, hn, hs, ?_, ?_⟩
  · rw [Rep_toList hxs2, Rep_toList hxs]; exact hp
  · intro h0
    have h0' : a.nitems = 0 := h0
    have : Array_Sort lt a = (a, .ok ()) := by
      unfold Array_Sort Array_Len
      rw [int64_of_size_sub_one _ hsz, h0']
      simp [Array_Sort_Part]
    rw [this] at heq
    exact (Prod.mk.inj heq).1.symm

theorem Array_Sort_perm_witness :
    Array_Valid (array_of [2, 7, 1, 7]) ∧ (array_of [2, 7, 1, 7]).nitems ≤ 2 ^ 63 ∧
    Array_Sort (fun _ _ => true) (array_of [2, 7, 1, 7])
      = ({ data := some [some 1, some 2, some 7, some 7], tsize := 8, nitems := 4, nslots := 4 },
          .ok ()) ∧
    Array_Sort lt_nat (array_of ([] : List Nat)) = (array_of [], .ok ()) ∧
    ∃ a2 : Array Nat, Array_Sort (fun _ _ => true) (array_of [2, 7, 1, 7]) = (a2, .ok ()) ∧
      Array_Len a2 = Array_Len (array_of [2, 7, 1, 7]) ∧
      a2.nslots = (array_of [2, 7, 1, 7]).nslots ∧
      (Array_toList a2).Perm (Array_toList (array_of [2, 7, 1, 7])) ∧
      (Array_Len (array_of [2, 7, 1, 7]) = 0 → a2 = array_of [2, 7, 1, 7]) :=
  ⟨by decide, by decide, by decide, by decide,
    Array_Sort_perm (fun _ _ => true) (array_of [2, 7, 1, 7]) (by decide) (by decide)⟩

/-- C3: on a container of length `n`, for an index `0 ≤ key ≤ n` and a value
`v`, `Array_Push_At` followed by `Array_Pop_At` at the same index (their
allocation requests granted) both return normally and leave a container with
the original length and the original elements in the original order. -/
theorem Array_Push_At_Pop_At (a : Array α) (v : α) (key : Int) (hv : Array_Valid a)
    (h0 : 0 ≤ key) (h1 : key ≤ (Array_Len a : Int)) :
    ∃ a1 a2 : Array α, Array_Push_At true a v key = (a1, .ok ()) ∧
      Array_Pop_At true a1 key = (a2, .ok ()) ∧
      Array_Len a2 = Array_Len a ∧ Array_toList a2 = Array_toList a := by
  obtain ⟨xs, hxs⟩ := Valid_Rep hv
  obtain ⟨i, rfl⟩ := Int.eq_ofNat_of_zero_le h0
  have hi : i ≤ xs.length := by
    have : (i : Int) ≤ (a.nitems : Int) := h1
    rw [← hxs.1]; omega
  obtain ⟨a1, hrun1, hrep1, -, -⟩ := Array_Push_At_Rep a xs v i hxs hi
  have hlen : i < (xs.take i ++ v :: xs.drop i).length := by
    simp only [List.length_append, List.length_take, List.length_cons, List.length_drop]; omega
  obtain ⟨a2, hrun2, hrep2, -, -⟩ := Array_Pop_At_Rep a1 _ i hrep1 hlen
  have hA : (xs.take i).length = i := by simp [List.length_take, Nat.min_eq_left hi]
  have hback : (xs.take i ++ v :: xs.drop i).take i ++ (xs.take i ++ v :: xs.drop i).drop (i + 1)
      = xs := by
    have e : xs.take i ++ v :: xs.drop i = (xs.take i ++ [v]) ++ xs.drop i := by simp
    have hA1 : (xs.take i ++ [v]).length = i + 1 := by simp [hA]
    rw [List.take_left' hA, e, List.drop_left' hA1, List.take_append_drop]
  rw [hback] at hrep2
  refine ⟨a1, a2, hrun1, hrun2, ?_, ?_⟩
  · show a2.nitems = a.nitems
    rw [hrep2.1, hxs.1]
  · rw [Rep_toList hrep2, Rep_toList hxs]

theorem Array_Push_At_Pop_At_witness :
    Array_Valid (array_of [10, 20, 30]) ∧ (0 : Int) ≤ 1 ∧
    (1 : Int) ≤ (Array_Len (array_of [10, 20, 30]) : Int) ∧
    Array_toList (Array_Push_At true (array_of [10, 20, 30]) 99 1).1 = [10, 99, 20, 30] ∧
    ∃ a1 a2 : Array Nat, Array_Push_At true (array_of [10, 20, 30]) 99 1 = (a1, .ok ()) ∧
      Array_Pop_At true a1 1 = (a2, .ok ()) ∧
      Array_Len a2 = Array_Len (array_of [10, 20, 30]) ∧
      Array_toList a2 = Array_toList (array_of [10, 20, 30]) :=
  ⟨by decide, by decide, by decide, by decide,
    Array_Push_At_Pop_At (array_of [10, 20, 30]) 99 1 (by decide) (by decide) (by decide)⟩

/-- C4: `Array_Reverse` is self-inverse: applied twice to a container, of even
or of odd length, it returns normally both times and leaves the same length
and, at every index, the same element (the same outcome of `get`). -/
theorem Array_Reverse_Reverse (a : Array α) (hv : Array_Valid a) :
    ∃ a1 a2 : Array α, Array_Reverse a = (a1, .ok ()) ∧ Array_Reverse a1 = (a2, .ok ()) ∧
      Array_Len a2 = Array_Len a ∧ (∀ key : Int, get_elem a2 key = get_elem a key) ∧
      Array_toList a2 = Array_toList a := by
  obtain ⟨xs, hxs⟩ := Valid_Rep hv
  obtain ⟨a1, hrun1, hrep1, -, -⟩ := Array_Reverse_Rep a xs hxs
  obtain ⟨a2, hrun2, hrep2, -, -⟩ := Array_Reverse_Rep a1 _ hrep1
  rw [List.reverse_reverse] at hrep2
  refine ⟨a1, a2, hrun1, hrun2, ?_, get_elem_Rep hxs hrep2, ?_⟩
  · show a2.nitems = a.nitems
    rw [hrep2.1, hxs.1]
  · rw [Rep_toList hrep2, Rep_toList hxs]

theorem Array_Reverse_Reverse_witness :
    Array_Valid (array_of [1, 2, 3, 4, 5]) ∧
    Array_toList (Array_Reverse (array_of [1, 2, 3, 4, 5])).1 = [5, 4, 3, 2, 1] ∧
    Array_toList (Array_Reverse (array_of [1, 2, 3, 4])).1 = [4, 3, 2, 1] ∧
    ∃ a1 a2 : Array Nat, Array_Reverse (array_of [1, 2, 3, 4, 5]) = (a1, .ok ()) ∧
      Array_Reverse a1 = (a2, .ok ()) ∧
      Array_Len a2 = Array_Len (array_of [1, 2, 3, 4, 5]) ∧
      (∀ key : Int, get_elem a2 key = get_elem (array_of [1, 2, 3, 4, 5]) key) ∧
      Array_toList a2 = Array_toList (array_of [1, 2, 3, 4, 5]) :=
  ⟨by decide, by decide, by decide, Array_Reverse_Reverse (array_of [1, 2, 3, 4, 5]) (by decide)⟩

/-- C5: a sequence of `push` and `pop` calls on the empty container in which
no `pop` meets an empty container (allocation requests granted) returns
normally throughout; the final length is the number of pushes minus the number
of pops, and the elements read back at the indices `0 .. length - 1` are the
stack the replay of the sequence gives. -/
theorem run_ops_stack (ops : List (StackOp α)) (t : Nat) (st : List α)
    (h : replay ops [] = some st) :
    ∃ a : Array α, run_ops ops (Array_New true t []).1 = (a, .ok ()) ∧
      Array_Len a + pops ops = pushes ops ∧ Array_toList a = st := by
  rw [Array_New_nil]
  obtain ⟨a, hrun, hrep, hcount⟩ := run_ops_Rep ops _ [] st (Rep_empty t) h
  refine ⟨a, hrun, ?_, Rep_toList hrep⟩
  show a.nitems + _ = _
  rw [hrep.1]
  simpa using hcount

theorem run_ops_stack_witness :
    replay [StackOp.push 32, .push 6, .pop, .push 7, .push 8, .pop] [] = some [32, 7] ∧
    ∃ a : Array Nat, run_ops [StackOp.push 32, .push 6, .pop, .push 7, .push 8, .pop]
        (Array_New true 8 []).1 = (a, .ok ()) ∧
      Array_Len a + pops [StackOp.push 32, .push 6, .pop, .push 7, .push 8, .pop]
        = pushes [StackOp.push 32, .push 6, .pop, .push 7, .push 8, .pop] ∧
      Array_toList a = [32, 7] :=
  ⟨by decide, run_ops_stack [StackOp.push 32, .push 6, .pop, .push 7, .push 8, .pop] 8 [32, 7]
    (by decide)⟩

/-- C6: for a container `a` and a reflexive element equality, `Array_Copy`
(its allocation request granted) returns a container that `Array_Eq` reports
as equal to `a`, in either order: it has the same length and reads back the
same elements at the same indices. -/
theorem Array_Copy_Eq (eq : α → α → Bool) (a : Array α) (hv : Array_Valid a)
    (hrefl : ∀ x, eq x x = true) :
    ∃ b : Array α, Array_Copy true a = (b, .ok ()) ∧
      Array_Eq eq b a = .ok true ∧ Array_Eq eq a b = .ok true ∧
      Array_Len b = Array_Len a ∧ Array_toList b = Array_toList a := by
  obtain ⟨xs, hxs⟩ := Valid_Rep hv
  obtain ⟨b, hrun, hrep, -⟩ := Array_Copy_Rep a xs hxs
  have hlen : b.nitems = a.nitems := by rw [hrep.1, hxs.1]
  refine ⟨b, hrun, ?_, ?_, hlen, ?_⟩
  · unfold Array_Eq Array_Len
    rw [if_neg (by simp [hlen]), hrep.1]
    exact Array_Eq_loop_same eq hrefl a b xs hxs hrep xs.length 0 rfl
  · unfold Array_Eq Array_Len
    rw [if_neg (by simp [hlen]), hxs.1]
    exact Array_Eq_loop_same eq hrefl b a xs hrep hxs xs.length 0 rfl
  · rw [Rep_toList hrep, Rep_toList hxs]

theorem Array_Copy_Eq_witness :
    Array_Valid (array_of ['a', 'b', 'c']) ∧ (∀ x : Char, eq_dec x x = true) ∧
    Array_Copy true (array_of ['a', 'b', 'c'])
      = ({ data := some [some 'a', some 'b', some 'c', none], tsize := 8, nitems := 3,
            nslots := 4 }, .ok ()) ∧
    ∃ b : Array Char, Array_Copy true (array_of ['a', 'b', 'c']) = (b, .ok ()) ∧
      Array_Eq eq_dec b (array_of ['a', 'b', 'c']) = .ok true ∧
      Array_Eq eq_dec (array_of ['a', 'b', 'c']) b = .ok true ∧
      Array_Len b = Array_Len (array_of ['a', 'b', 'c']) ∧
      Array_toList b = Array_toList (array_of ['a', 'b', 'c']) :=
  ⟨by decide, fun x => by simp [eq_dec], by decide,
    Array_Copy_Eq eq_dec (array_of ['a', 'b', 'c']) (by decide) (fun x => by simp [eq_dec])⟩

/-- C7: on a container that holds an element equal to `v`, `Array_Rem`
(its allocation request granted) returns normally and removes exactly the
element at the lowest index `j` that equals `v`: the length drops by one and
the other elements stay in order. `Array_Mem` finds `v` before, and no longer
finds it afterwards when exactly one element equalled `v`. -/
theorem Array_Rem_first (eq : α → α → Bool) (a : Array α) (v : α) (hv : Array_Valid a)
    (hmem : ∃ x ∈ Array_toList a, eq x v = true) :
    ∃ (a2 : Array α) (j : Nat) (hj : j < (Array_toList a).length),
      Array_Rem true eq a v = (a2, .ok ()) ∧
      eq (Array_toList a)[j] v = true ∧
      (∀ k (hk : k < (Array_toList a).length), k < j → eq (Array_toList a)[k] v = false) ∧
      Array_Len a2 + 1 = Array_Len a ∧
      Array_toList a2 = (Array_toList a).take j ++ (Array_toList a).drop (j + 1) ∧
      Array_Mem eq a v = .ok true ∧
      ((Array_toList a).countP (fun x => eq x v) = 1 → Array_Mem eq a2 v = .ok false) := by
  obtain ⟨xs, hxs⟩ := Valid_Rep hv
  rw [Rep_toList hxs] at hmem ⊢
  obtain ⟨j, hj, hjv, hfirst⟩ := exists_first (fun x => eq x v) xs hmem
  obtain ⟨a2, hrun, hrep, -, -⟩ := Array_Pop_At_Rep a xs j hxs hj
  have hsplit : xs = xs.take j ++ xs[j] :: xs.drop (j + 1) := by
    rw [List.getElem_cons_drop, List.take_append_drop]
  refine ⟨a2, j, hj, ?_, hjv, hfirst, ?_, Rep_toList hrep, ?_, ?_⟩
  · unfold Array_Rem
    rw [hxs.1, Array_Rem_loop_found true eq a xs v hxs j hj hjv xs.length 0 rfl (Nat.zero_le _)
      (fun k hk _ hkj => hfirst k hk hkj)]
    exact hrun
  · show a2.nitems + 1 = a.nitems
    rw [hrep.1, hxs.1]
    simp only [List.length_append, List.length_take, List.length_drop]
    omega
  · rw [Array_Mem_Rep eq a xs v hxs]
    congr 1
    rw [List.any_eq_true]
    exact ⟨xs[j], List.getElem_mem _, hjv⟩
  · intro hcount
    rw [Array_Mem_Rep eq a2 _ v hrep]
    congr 1
    have hc : xs.countP (fun x => eq x v) = (xs.take j).countP (fun x => eq x v) +
        ((xs.drop (j + 1)).countP (fun x => eq x v) + 1) := by
      conv_lhs => rw [hsplit]
      rw [List.countP_append, List.countP_cons_of_pos (p := fun x => eq x v) _ hjv]
    rw [hc] at hcount
    have h1 : (xs.take j).countP (fun x => eq x v) = 0 := by omega
    have h2 : (xs.drop (j + 1)).countP (fun x => eq x v) = 0 := by omega
    rw [List.countP_eq_zero] at h1 h2
    rw [List.any_eq_false]
    intro x hx
    rcases List.mem_append.mp hx with hx | hx
    · exact h1 x hx
    · exact h2 x hx

theorem Array_Rem_first_witness :
    Array_Valid (array_of ['a', 'b', 'c', 'd']) ∧
    (∃ x ∈ Array_toList (array_of ['a', 'b', 'c', 'd']), eq_dec x 'c' = true) ∧
    Array_Len (Array_Rem true eq_dec (array_of ['a', 'b', 'c', 'd']) 'c').1 = 3 ∧
    Array_Mem eq_dec (Array_Rem true eq_dec (array_of ['a', 'b', 'c', 'd']) 'c').1 'c'
      = .ok false ∧
    ∃ (a2 : Array Char) (j : Nat)
      (hj : j < (Array_toList (array_of ['a', 'b', 'c', 'd'])).length),
      Array_Rem true eq_dec (array_of ['a', 'b', 'c', 'd']) 'c' = (a2, .ok ()) ∧
      eq_dec (Array_toList (array_of ['a', 'b', 'c', 'd']))[j] 'c' = true ∧
      (∀ k (hk : k < (Array_toList (array_of ['a', 'b', 'c', 'd'])).length), k < j →
        eq_dec (Array_toList (array_of ['a', 'b', 'c', 'd']))[k] 'c' = false) ∧
      Array_Len a2 + 1 = Array_Len (array_of ['a', 'b', 'c', 'd']) ∧
      Array_toList a2 = (Array_toList (array_of ['a', 'b', 'c', 'd'])).take j ++
        (Array_toList (array_of ['a', 'b', 'c', 'd'])).drop (j + 1) ∧
      Array_Mem eq_dec (array_of ['a', 'b', 'c', 'd']) 'c' = .ok true ∧
      ((Array_toList (array_of ['a', 'b', 'c', 'd'])).countP (fun x => eq_dec x 'c') = 1 →
        Array_Mem eq_dec a2 'c' = .ok false) :=
  ⟨by decide, by decide, by decide, by decide,
    Array_Rem_first eq_dec (array_of ['a', 'b', 'c', 'd']) 'c' (by decide) (by decide)⟩

/-- C8: on a container, `Array_Rem` ends with `ValueError` exactly when no
element equals `v` under the equality capability, whether or not an
allocation request would be granted; when it does, the container it leaves
is the one it was given: length, capacity and elements are unchanged. -/
theorem Array_Rem_ValueError (m : Bool) (eq : α → α → Bool) (a : Array α) (v : α)
    (hv : Array_Valid a) :
    ((Array_Rem m eq a v).2 = .throw .ValueError ↔ ∀ x ∈ Array_toList a, eq x v = false) ∧
    ((Array_Rem m eq a v).2 = .throw .ValueError → (Array_Rem m eq a v).1 = a) := by
  obtain ⟨xs, hxs⟩ := Valid_Rep hv
  rw [Rep_toList hxs]
  by_cases hmem : ∃ x ∈ xs, eq x v = true
  · obtain ⟨j, hj, hjv, hfirst⟩ := exists_first (fun x => eq x v) xs hmem
    obtain ⟨a1, hrun, -⟩ := Array_Pop_At_run m a xs j hxs hj
    have hres : Array_Rem m eq a v = (Array_Reserve_Less m a1, .ok ()) := by
      unfold Array_Rem
      rw [hxs.1, Array_Rem_loop_found m eq a xs v hxs j hj hjv xs.length 0 rfl (Nat.zero_le _)
        (fun k hk _ hkj => hfirst k hk hkj)]
      exact hrun
    rw [hres]
    refine ⟨⟨fun h => by simp at h, fun h => ?_⟩, fun h => by simp at h⟩
    obtain ⟨x, hx, hxv⟩ := hmem
    rw [h x hx] at hxv
    simp at hxv
  · have hall : ∀ x ∈ xs, eq x v = false := by
      intro x hx
      cases hxv : eq x v with
      | false => rfl
      | true => exact absurd ⟨x, hx, hxv⟩ hmem
    have hres : Array_Rem m eq a v = (a, .throw .ValueError) := by
      unfold Array_Rem
      rw [hxs.1]
      exact Array_Rem_loop_absent m eq a xs v hxs xs.length 0 rfl
        (fun k hk _ => hall _ (List.getElem_mem _))
    rw [hres]
    exact ⟨⟨fun _ => hall, fun _ => rfl⟩, fun _ => rfl⟩

theorem Array_Rem_ValueError_witness :
    Array_Valid (array_of ['a', 'b', 'c', 'd']) ∧
    Array_Rem true eq_dec (array_of ['a', 'b', 'c', 'd']) 'z'
      = (array_of ['a', 'b', 'c', 'd'], .throw .ValueError) ∧
    (((Array_Rem true eq_dec (array_of ['a', 'b', 'c', 'd']) 'z').2 = .throw .ValueError ↔
        ∀ x ∈ Array_toList (array_of ['a', 'b', 'c', 'd']), eq_dec x 'z' = false) ∧
      ((Array_Rem true eq_dec (array_of ['a', 'b', 'c', 'd']) 'z').2 = .throw .ValueError →
        (Array_Rem true eq_dec (array_of ['a', 'b', 'c', 'd']) 'z').1
          = array_of ['a', 'b', 'c', 'd'])) :=
  ⟨by decide, by decide,
    Array_Rem_ValueError true eq_dec (array_of ['a', 'b', 'c', 'd']) 'z' (by decide)⟩

/-- C9: in the build with bounds checking, `Array_Get`, `Array_Set` and
`Array_Pop_At` end with `IndexOutOfBoundsError` exactly when the index is
negative or not below the length, and `Array_Pop` exactly when the length is
zero; in each of these failing cases the container left is the one given, so
its length, capacity and elements are unchanged. -/
theorem IndexOutOfBounds_iff (m : Bool) (a : Array α) (key : Int) (val : α) :
    (((Array_Get a key).2 = .throw .IndexOutOfBoundsError ↔
        key < 0 ∨ key ≥ (Array_Len a : Int)) ∧
      ((Array_Get a key).2 = .throw .IndexOutOfBoundsError → (Array_Get a key).1 = a)) ∧
    (((Array_Set a key val).2 = .throw .IndexOutOfBoundsError ↔
        key < 0 ∨ key ≥ (Array_Len a : Int)) ∧
      ((Array_Set a key val).2 = .throw .IndexOutOfBoundsError → (Array_Set a key val).1 = a)) ∧
    (((Array_Pop_At m a key).2 = .throw .IndexOutOfBoundsError ↔
        key < 0 ∨ key ≥ (Array_Len a : Int)) ∧
      ((Array_Pop_At m a key).2 = .throw .IndexOutOfBoundsError →
        (Array_Pop_At m a key).1 = a)) ∧
    (((Array_Pop m a).2 = .throw .IndexOutOfBoundsError ↔ Array_Len a = 0) ∧
      ((Array_Pop m a).2 = .throw .IndexOutOfBoundsError → (Array_Pop m a).1 = a)) := by
  have hlen : Array_Len a = a.nitems := rfl
  rw [hlen]
  by_cases hc : key < 0 ∨ key ≥ (a.nitems : Int)
  · have hget : Array_Get a key = (a, .throw .IndexOutOfBoundsError) := by
      simp only [Array_Get, hc, if_true]
    have hset : Array_Set a key val = (a, .throw .IndexOutOfBoundsError) := by
      simp only [Array_Set, hc, if_true]
    have hpop : Array_Pop_At m a key = (a, .throw .IndexOutOfBoundsError) := by
      simp only [Array_Pop_At, hc, if_true]
    refine ⟨⟨⟨fun _ => hc, fun _ => by rw [hget]⟩, fun _ => by rw [hget]⟩,
      ⟨⟨fun _ => hc, fun _ => by rw [hset]⟩, fun _ => by rw [hset]⟩,
      ⟨⟨fun _ => hc, fun _ => by rw [hpop]⟩, fun _ => by rw [hpop]⟩, ?_⟩
    by_cases h0 : a.nitems = 0
    · have hp : Array_Pop m a = (a, .throw .IndexOutOfBoundsError) := by
        simp only [Array_Pop, h0, if_true]
      exact ⟨⟨fun _ => h0, fun _ => by rw [hp]⟩, fun _ => by rw [hp]⟩
    · have hp : ∀ e, (Array_Pop m a).2 ≠ .throw e := by
        unfold Array_Pop
        simp only [h0, if_false]
        apply bind_no_throw _ _ (destruct_no_throw _ _)
        intro a1 _ e
        simp
      exact ⟨⟨fun h => absurd h (hp _), fun h => absurd h h0⟩, fun h => absurd h (hp _)⟩
  · have hget : Array_Get a key = (a, .ok (Array_Item a key.toNat)) := by
      simp only [Array_Get, hc, if_false]
    have hset : ∀ e, (Array_Set a key val).2 ≠ .throw e := by
      simp only [Array_Set, hc, if_false]
      exact assign_no_throw _ _ _
    have hpop := Array_Pop_At_in_range m a key hc
    refine ⟨⟨⟨fun h => by rw [hget] at h; simp at h, fun h => absurd h hc⟩,
        fun h => by rw [hget] at h; simp at h⟩,
      ⟨⟨fun h => absurd h (hset _), fun h => absurd h hc⟩, fun h => absurd h (hset _)⟩,
      ⟨⟨fun h => absurd h (hpop _), fun h => absurd h hc⟩, fun h => absurd h (hpop _)⟩, ?_⟩
    have h0 : ¬ a.nitems = 0 := by omega
    have hp : ∀ e, (Array_Pop m a).2 ≠ .throw e := by
      unfold Array_Pop
      simp only [h0, if_false]
      apply bind_no_throw _ _ (destruct_no_throw _ _)
      intro a1 _ e
      simp
    exact ⟨⟨fun h => absurd h (hp _), fun h => absurd h h0⟩, fun h => absurd h (hp _)⟩

/-- C10: the invariant `0 ≤ length ≤ capacity` holds of the container every
construction leaves, and a container that satisfies it still satisfies it
after `push`, `pop`, `push_at`, `pop_at`, `rem`, `concat`, `clear`, `assign`,
`set`, `reverse` and `sort`, in whatever way the call ends: a normal return,
`IndexOutOfBoundsError` or `ValueError` in particular. -/
theorem length_le_capacity_preserved (a : Array α) (h : length_le_capacity a) :
    (∀ (m : Bool) (t : Nat) (vals : List α), length_le_capacity (Array_New m t vals).1) ∧
    (∀ (m : Bool) (v : α), length_le_capacity (Array_Push m a v).1) ∧
    (∀ m : Bool, length_le_capacity (Array_Pop m a).1) ∧
    (∀ (m : Bool) (v : α) (key : Int), length_le_capacity (Array_Push_At m a v key).1) ∧
    (∀ (m : Bool) (key : Int), length_le_capacity (Array_Pop_At m a key).1) ∧
    (∀ (m : Bool) (eq : α → α → Bool) (v : α), length_le_capacity (Array_Rem m eq a v).1) ∧
    (∀ (m : Bool) (obj : Array α), length_le_capacity (Array_Concat m a obj).1) ∧
    length_le_capacity (Array_Clear a).1 ∧
    (∀ (m : Bool) (obj : Array α), length_le_capacity (Array_Assign m a obj).1) ∧
    (∀ (key : Int) (v : α), length_le_capacity (Array_Set a key v).1) ∧
    length_le_capacity (Array_Reverse a).1 ∧
    (∀ lt : α → α → Bool, length_le_capacity (Array_Sort lt a).1) := by
  have hclear : ∀ a0 : Array α, length_le_capacity a0 → length_le_capacity (Array_Clear a0).1 := by
    intro a0 h0
    unfold Array_Clear
    apply bind_pres length_le_capacity _ _ ((Array_Clear_loop_same _ _ _).inv h0)
    intro a1 _ _
    exact le_refl _
  refine ⟨?_, ?_, ?_, ?_, ?_, ?_, ?_, hclear a h, ?_, ?_, ?_, ?_⟩
  · intro m t vals
    unfold Array_New
    dsimp only
    split
    · exact le_refl _
    · split
      · exact le_refl _
      · exact (Array_New_loop_same _ _ _).inv (le_refl _)
  · intro m v
    unfold Array_Push
    apply bind_pres length_le_capacity _ _ (Array_Reserve_More_inv _ _)
    intro a1 _ h1
    apply bind_pres length_le_capacity _ _ ((Array_Alloc_same _ _).inv h1)
    intro a2 _ h2
    exact (assign_same _ _ _).inv h2
  · intro m
    unfold Array_Pop
    split
    · exact h
    · apply bind_pres length_le_capacity _ _ ((destruct_same _ _).inv h)
      intro a1 _ h1
      apply Array_Reserve_Less_inv
      unfold length_le_capacity at *
      show a1.nitems - 1 ≤ a1.nslots
      omega
  · intro m v key
    unfold Array_Push_At
    apply bind_pres length_le_capacity _ _ (Array_Reserve_More_inv _ _)
    intro a1 _ h1
    apply bind_pres length_le_capacity _ _ ((memmove_same _ _ _ _).inv h1)
    intro a2 _ h2
    apply bind_pres length_le_capacity _ _ ((Array_Alloc_same _ _).inv h2)
    intro a3 _ h3
    exact (assign_same _ _ _).inv h3
  · intro m key
    exact Array_Pop_At_inv m a key h
  · intro m eq v
    exact Array_Rem_loop_inv m eq a v h _ _
  · intro m obj
    unfold Array_Concat
    apply bind_pres length_le_capacity _ _ (Array_Reserve_More_inv _ _)
    intro a1 _ h1
    exact (Array_Concat_loop_same _ _ _ _ _ _).inv h1
  · intro m obj
    unfold Array_Assign
    apply bind_pres length_le_capacity _ _ (hclear a h)
    intro a1 _ _
    dsimp only
    split
    · exact le_refl _
    · split
      · exact le_refl _
      · exact (Array_Assign_loop_same _ _ _ _).inv (le_refl _)
  · intro key v
    unfold Array_Set
    dsimp only
    split
    · exact h
    · exact (assign_same _ _ _).inv h
  · exact (Array_Reverse_loop_same _ _ _ _).inv h
  · intro lt
    exact (Array_Sort_Part_same lt _ _ _ _).inv h

theorem length_le_capacity_preserved_witness :
    length_le_capacity (array_of [4, 5, 6]) ∧
    Array_Push true (array_of [4, 5, 6]) 7
      = ({ data := some [some 4, some 5, some 6, some 7, none, none], tsize := 8, nitems := 4,
            nslots := 6 }, .ok ()) ∧
    length_le_capacity (Array_Push true (array_of [4, 5, 6]) 7).1 ∧
    Array_Pop true (array_of [4, 5, 6])
      = ({ data := some [some 4, some 5, some 6], tsize := 8, nitems := 2, nslots := 3 },
          .ok ()) ∧
    length_le_capacity (Array_Pop true (array_of [4, 5, 6])).1 ∧
    (Array_Pop_At true (array_of [4, 5, 6]) 3).2 = .throw .IndexOutOfBoundsError ∧
    length_le_capacity (Array_Pop_At true (array_of [4, 5, 6]) 3).1 ∧
    (Array_Rem true eq_dec (array_of [4, 5, 6]) 9).2 = .throw .ValueError ∧
    length_le_capacity (Array_Rem true eq_dec (array_of [4, 5, 6]) 9).1 ∧
    length_le_capacity (Array_Clear (array_of [4, 5, 6])).1 :=
  ⟨by decide, by decide,
    (length_le_capacity_preserved (array_of [4, 5, 6]) (by decide)).2.1 true 7, by decide,
    (length_le_capacity_preserved (array_of [4, 5, 6]) (by decide)).2.2.1 true, by decide,
    (length_le_capacity_preserved (array_of [4, 5, 6]) (by decide)).2.2.2.2.1 true 3, by decide,
    (length_le_capacity_preserved (array_of [4, 5, 6]) (by decide)).2.2.2.2.2.1 true eq_dec 9,
    (length_le_capacity_preserved (array_of [4, 5, 6]) (by decide)).2.2.2.2.2.2.2.1⟩

/-- C11: a grow whose `realloc` is refused, during `push`, `push_at` or
`concat` on the full container `[5, 3]`. `OutOfMemoryError` is thrown, and the
container is left with the length already raised to 3, the capacity already
set to 4 and no storage: it is not a valid container, and a read at index 0,
below its length, finds no element. -/
theorem Array_Push_realloc_refused :
    Array_Valid (array_of [5, 3]) ∧
    Array_Push false (array_of [5, 3]) 9
      = ({ data := none, tsize := 8, nitems := 3, nslots := 4 }, .throw .OutOfMemoryError) ∧
    Array_Push_At false (array_of [5, 3]) 9 1
      = ({ data := none, tsize := 8, nitems := 3, nslots := 4 }, .throw .OutOfMemoryError) ∧
    Array_Concat false (array_of [5, 3]) (array_of [7])
      = ({ data := none, tsize := 8, nitems := 3, nslots := 4 }, .throw .OutOfMemoryError) ∧
    ¬ Array_Valid ({ data := none, tsize := 8, nitems := 3, nslots := 4 } : Array Nat) ∧
    get_elem ({ data := none, tsize := 8, nitems := 3, nslots := 4 } : Array Nat) 0 = .undef := by
  decide

/-- C12: for a container of length `n` and a source of length `m` (a second
container), `Array_Concat`, its allocation request granted, returns normally
with length `n + m`; the elements are those of the container, unchanged and in
order, followed by those of the source in iteration order; the capacity is
`(n + m) + (n + m) / 2` when `n + m` exceeds the old capacity and is the old
capacity otherwise. -/
theorem Array_Concat_append (a obj : Array α) (hv : Array_Valid a) (ho : Array_Valid obj) :
    ∃ a2 : Array α, Array_Concat true a obj = (a2, .ok ()) ∧
      Array_Len a2 = Array_Len a + Array_Len obj ∧
      Array_toList a2 = Array_toList a ++ Array_toList obj ∧
      a2.nslots = (if Array_Len a + Array_Len obj > a.nslots
        then Array_Len a + Array_Len obj + (Array_Len a + Array_Len obj) / 2 else a.nslots) := by
  obtain ⟨xs, hxs⟩ := Valid_Rep hv
  obtain ⟨ys, hys⟩ := Valid_Rep ho
  obtain ⟨a2, hrun, hrep, -, hs⟩ := Array_Concat_Rep a obj xs ys hxs hys
  refine ⟨a2, hrun, ?_, ?_, hs⟩
  · show a2.nitems = a.nitems + obj.nitems
    rw [hrep.1, hxs.1, hys.1, List.length_append]
  · rw [Rep_toList hrep, Rep_toList hxs, Rep_toList hys]

theorem Array_Concat_append_witness :
    Array_Valid (array_of [5, 3, 1, 3]) ∧ Array_Valid (array_of [7, 8]) ∧
    Array_Concat true (array_of [5, 3, 1, 3]) (array_of [7, 8])
      = ({ data := some [some 5, some 3, some 1, some 3, some 7, some 8, none, none, none],
            tsize := 8, nitems := 6, nslots := 9 }, .ok ()) ∧
    ∃ a2 : Array Nat, Array_Concat true (array_of [5, 3, 1, 3]) (array_of [7, 8]) = (a2, .ok ()) ∧
      Array_Len a2 = Array_Len (array_of [5, 3, 1, 3]) + Array_Len (array_of [7, 8]) ∧
      Array_toList a2 = Array_toList (array_of [5, 3, 1, 3]) ++ Array_toList (array_of [7, 8]) ∧
      a2.nslots = (if Array_Len (array_of [5, 3, 1, 3]) + Array_Len (array_of [7, 8])
          > (array_of [5, 3, 1, 3]).nslots
        then Array_Len (array_of [5, 3, 1, 3]) + Array_Len (array_of [7, 8])
          + (Array_Len (array_of [5, 3, 1, 3]) + Array_Len (array_of [7, 8])) / 2
        else (array_of [5, 3, 1, 3]).nslots) :=
  ⟨by decide, by decide, by decide,
    Array_Concat_append (array_of [5, 3, 1, 3]) (array_of [7, 8]) (by decide) (by decide)⟩

/-- C13: an index equal to the length appends: on a container of length `n`,
`Array_Push_At` with index `n` ends exactly as `Array_Push` does, with the same
length, capacity and slots, whatever the answer to the allocation request. -/
theorem Array_Push_At_end (m : Bool) (a : Array α) (v : α) (hv : Array_Valid a) :
    Array_Push_At m a v (Array_Len a : Int) = Array_Push m a v := by
  unfold Array_Push_At Array_Push Array_Len
  apply bind_congr_left
  intro a1 _ h1
  obtain ⟨hn1, -, hl1, hcap⟩ := Array_Reserve_More_ok m _ a1 h1 hv.1
  have hn1 : a1.nitems = a.nitems + 1 := hn1
  have hcap : a.nitems + 1 ≤ a1.nslots := hcap
  have e1 : size_of_int64 ((a.nitems : Int) + 1) = a.nitems + 1 := by
    have : ((a.nitems : Int) + 1) = ((a.nitems + 1 : Nat) : Int) := by push_cast; rfl
    rw [this, size_of_int64_ofNat]
  have e2 : size_of_int64 ((a.nitems : Int) + 0) = a.nitems := by
    rw [Int.add_zero, size_of_int64_ofNat]
  have e3 : size_sub a.nitems a.nitems = 0 := by
    unfold size_sub; rw [if_pos (le_refl _)]; omega
  have hmv : memmove a1 (a.nitems + 1) a.nitems 0 = (a1, .ok ()) := by
    rw [memmove_block a1 _ _ 0 (by omega) (by omega) (by omega)]
    have : (block a1).take (a.nitems + 1) ++ ((block a1).drop a.nitems).take 0 ++
        (block a1).drop (a.nitems + 1 + 0) = block a1 := by
      simp
    rw [this, set_data_block a1 (by omega)]
  simp only [e1, e2, size_of_int64_ofNat, hn1, Nat.add_sub_cancel, e3, hmv, bind_ok]
  apply bind_congr_left
  intro a2 _ h2
  have hsame := Array_Alloc_same a1 a.nitems
  rw [h2] at hsame
  have hn2 : a2.nitems = a.nitems + 1 := hsame.1.trans hn1
  rw [hn2, Nat.add_sub_cancel]

theorem Array_Push_At_end_witness :
    Array_Valid (array_of [5, 3]) ∧
    Array_Push_At true (array_of [5, 3]) 9 2
      = ({ data := some [some 5, some 3, some 9, none], tsize := 8, nitems := 3, nslots := 4 },
          .ok ()) ∧
    Array_Push_At true (array_of [5, 3]) 9 (Array_Len (array_of [5, 3]) : Int)
      = Array_Push true (array_of [5, 3]) 9 :=
  ⟨by decide, by decide, Array_Push_At_end true (array_of [5, 3]) 9 (by decide)⟩

/-- C14: on a container of length `n`, the cursor after `k ≤ n` steps of an
iteration (`Array_Iter_Init`, then `Array_Iter_Next` each time) is the pointer
to the slot of index `k` while `k < n`, and the terminal sentinel at `k = n`:
the iteration visits the slots `0, 1, ..., n - 1` in this order, `n` elements
in all, and starts at the sentinel when `n = 0`. -/
theorem Array_Iter_sequence (a : Array α) (k : Nat) (hk : k ≤ Array_Len a) :
    Array_Iter_nth a k = (if k < Array_Len a then Array_Item a k else .Terminal) ∧
    (k < Array_Len a → slot_index a (Array_Iter_nth a k) = some k ∧
      deref a (Array_Iter_nth a k) = (block a).getD k none) ∧
    (Array_Len a = 0 → Array_Iter_Init a = .Terminal) := by
  have hmain : ∀ j, j ≤ a.nitems →
      Array_Iter_nth a j = if j < a.nitems then Array_Item a j else .Terminal := by
    intro j
    induction j with
    | zero =>
      intro _
      simp only [Array_Iter_nth, Array_Iter_Init]
      by_cases h0 : a.nitems = 0
      · rw [if_pos h0, if_neg (by omega)]
      · rw [if_neg h0, if_pos (by omega)]
    | succ j ih =>
      intro hj
      have hj' : j < a.nitems := by omega
      simp only [Array_Iter_nth]
      rw [ih (by omega), if_pos hj', Array_Iter_Next_Item a j hj']
  refine ⟨hmain k hk, ?_, ?_⟩
  · intro hlt
    have hlt' : k < a.nitems := hlt
    rw [hmain k hk, if_pos hlt']
    exact ⟨slot_index_Item a k, deref_Item a k⟩
  · intro h0
    have h0' : a.nitems = 0 := h0
    simp only [Array_Iter_Init, h0', if_true]

theorem Array_Iter_sequence_witness :
    (2 : Nat) ≤ Array_Len (array_of ['x', 'y', 'z']) ∧
    [Array_Iter_nth (array_of ['x', 'y', 'z']) 0, Array_Iter_nth (array_of ['x', 'y', 'z']) 1,
      Array_Iter_nth (array_of ['x', 'y', 'z']) 2, Array_Iter_nth (array_of ['x', 'y', 'z']) 3]
      = [.ptr 16, .ptr 40, .ptr 64, .Terminal] ∧
    Array_Iter_Init (array_of ([] : List Char)) = .Terminal ∧
    (Array_Iter_nth (array_of ['x', 'y', 'z']) 2
        = (if 2 < Array_Len (array_of ['x', 'y', 'z']) then Array_Item (array_of ['x', 'y', 'z']) 2
            else .Terminal) ∧
      (2 < Array_Len (array_of ['x', 'y', 'z']) →
        slot_index (array_of ['x', 'y', 'z']) (Array_Iter_nth (array_of ['x', 'y', 'z']) 2)
          = some 2 ∧
        deref (array_of ['x', 'y', 'z']) (Array_Iter_nth (array_of ['x', 'y', 'z']) 2)
          = (block (array_of ['x', 'y', 'z'])).getD 2 none) ∧
      (Array_Len (array_of ['x', 'y', 'z']) = 0 →
        Array_Iter_Init (array_of ['x', 'y', 'z']) = .Terminal)) :=
  ⟨by decide, by decide, by decide, Array_Iter_sequence (array_of ['x', 'y', 'z']) 2 (by decide)⟩

/-- C16: the capacity after an operation, with the division rounding down.
`push`, `push_at` and `concat`, which raise the length to `L`, leave the
capacity `L + L / 2` when `L` exceeds the old capacity and the old capacity
otherwise; `pop` and `pop_at`, which lower the length to `L`, leave the
capacity `L` when the old capacity exceeds `L + L / 2` and the old capacity
otherwise. Allocation requests are granted. -/
theorem capacity_rules (a : Array α) (hv : Array_Valid a) :
    (∀ v : α, ∃ a2 : Array α, Array_Push true a v = (a2, .ok ()) ∧
      Array_Len a2 = Array_Len a + 1 ∧
      a2.nslots = (if Array_Len a2 > a.nslots then Array_Len a2 + Array_Len a2 / 2
        else a.nslots)) ∧
    (∀ (v : α) (key : Int), 0 ≤ key → key ≤ (Array_Len a : Int) →
      ∃ a2 : Array α, Array_Push_At true a v key = (a2, .ok ()) ∧
        Array_Len a2 = Array_Len a + 1 ∧
        a2.nslots = (if Array_Len a2 > a.nslots then Array_Len a2 + Array_Len a2 / 2
          else a.nslots)) ∧
    (∀ obj : Array α, Array_Valid obj →
      ∃ a2 : Array α, Array_Concat true a obj = (a2, .ok ()) ∧
        Array_Len a2 = Array_Len a + Array_Len obj ∧
        a2.nslots = (if Array_Len a2 > a.nslots then Array_Len a2 + Array_Len a2 / 2
          else a.nslots)) ∧
    (Array_Len a ≠ 0 → ∃ a2 : Array α, Array_Pop true a = (a2, .ok ()) ∧
      Array_Len a2 + 1 = Array_Len a ∧
      a2.nslots = (if a.nslots > Array_Len a2 + Array_Len a2 / 2 then Array_Len a2
        else a.nslots)) ∧
    (∀ key : Int, 0 ≤ key → key < (Array_Len a : Int) →
      ∃ a2 : Array α, Array_Pop_At true a key = (a2, .ok ()) ∧
        Array_Len a2 + 1 = Array_Len a ∧
        a2.nslots = (if a.nslots > Array_Len a2 + Array_Len a2 / 2 then Array_Len a2
          else a.nslots)) := by
  obtain ⟨xs, hxs⟩ := Valid_Rep hv
  have hn := hxs.1
  simp only [Array_Len]
  refine ⟨?_, ?_, ?_, ?_, ?_⟩
  · intro v
    obtain ⟨a2, hrun, hrep, -, hs⟩ := Array_Push_Rep a xs v hxs
    have hl : a2.nitems = a.nitems + 1 := by rw [hrep.1, hn]; simp
    exact ⟨a2, hrun, hl, by rw [hl]; exact hs⟩
  · intro v key h0 h1
    obtain ⟨i, rfl⟩ := Int.eq_ofNat_of_zero_le h0
    obtain ⟨a2, hrun, hrep, -, hs⟩ := Array_Push_At_Rep a xs v i hxs (by rw [← hn]; omega)
    have hl : a2.nitems = a.nitems + 1 := by
      rw [hrep.1, hn]
      simp only [List.length_append, List.length_take, List.length_cons, List.length_drop]
      omega
    exact ⟨a2, hrun, hl, by rw [hl]; exact hs⟩
  · intro obj ho
    obtain ⟨ys, hys⟩ := Valid_Rep ho
    obtain ⟨a2, hrun, hrep, -, hs⟩ := Array_Concat_Rep a obj xs ys hxs hys
    have hl : a2.nitems = a.nitems + obj.nitems := by
      rw [hrep.1, hn, hys.1, List.length_append]
    exact ⟨a2, hrun, hl, by rw [hl]; exact hs⟩
  · intro hne
    obtain ⟨a2, hrun, hrep, -, hs⟩ := Array_Pop_Rep a xs hxs (by
      intro h; rw [h] at hn; exact hne hn)
    have hl : a2.nitems = a.nitems - 1 := by rw [hrep.1, hn, List.length_dropLast]
    exact ⟨a2, hrun, by omega, by rw [hl]; exact hs⟩
  · intro key h0 h1
    obtain ⟨i, rfl⟩ := Int.eq_ofNat_of_zero_le h0
    obtain ⟨a2, hrun, hrep, -, hs⟩ := Array_Pop_At_Rep a xs i hxs (by rw [← hn]; omega)
    have hl : a2.nitems = a.nitems - 1 := by
      rw [hrep.1, hn]
      simp only [List.length_append, List.length_take, List.length_drop]
      omega
    exact ⟨a2, hrun, by omega, by rw [hl]; exact hs⟩

theorem capacity_rules_witness :
    Array_Valid (array_of [1, 2, 3, 4]) ∧
    (Array_Push true (array_of [1, 2, 3, 4]) 5).1.nslots = 7 ∧
    (Array_Push true (Array_Push true (array_of [1, 2, 3, 4]) 5).1 6).1.nslots = 7 ∧
    (Array_Pop true (Array_Push true (array_of [1, 2, 3, 4]) 5).1).1.nslots = 4 ∧
    (Array_Pop true (array_of [1, 2, 3, 4])).1.nslots = 4 ∧
    (Array_Pop true (Array_Pop true (array_of [1, 2, 3, 4])).1).1.nslots = 2 ∧
    ∃ a2 : Array Nat, Array_Push true (array_of [1, 2, 3, 4]) 5 = (a2, .ok ()) ∧
      Array_Len a2 = Array_Len (array_of [1, 2, 3, 4]) + 1 ∧
      a2.nslots = (if Array_Len a2 > (array_of [1, 2, 3, 4]).nslots
        then Array_Len a2 + Array_Len a2 / 2 else (array_of [1, 2, 3, 4]).nslots) :=
  ⟨by decide, by decide, by decide, by decide, by decide, by decide,
    (capacity_rules (array_of [1, 2, 3, 4]) (by decide)).1 5⟩

theorem lt_fst_strict_weak : StrictWeakOrder lt_fst := by
  refine ⟨?_, ?_, ?_⟩ <;> intros <;> simp_all [lt_fst] <;> omega

/-- C17: `Array_Sort` is not stable. With pairs compared on their first
component, a strict weak order under which `(1, a)` and `(1, b)` are
equivalent and distinct, the container `[(1, a), (1, b), (0, c)]` is sorted to
`[(0, c), (1, b), (1, a)]`: the two equivalent elements have changed places. -/
theorem Array_Sort_unstable :
    StrictWeakOrder lt_fst ∧
    Array_Valid (array_of [(1, 'a'), (1, 'b'), (0, 'c')]) ∧
    lt_fst (1, 'a') (1, 'b') = false ∧ lt_fst (1, 'b') (1, 'a') = false ∧
    ((1, 'a') : Nat × Char) ≠ (1, 'b') ∧
    Array_toList (array_of [(1, 'a'), (1, 'b'), (0, 'c')]) = [(1, 'a'), (1, 'b'), (0, 'c')] ∧
    (Array_Sort lt_fst (array_of [(1, 'a'), (1, 'b'), (0, 'c')])).2 = .ok () ∧
    Array_toList (Array_Sort lt_fst (array_of [(1, 'a'), (1, 'b'), (0, 'c')])).1
      = [(0, 'c'), (1, 'b'), (1, 'a')] :=
  ⟨lt_fst_strict_weak, by decide, by decide, by decide, by decide, by decide, by decide,
    by decide⟩

/-- C20: on a container and a range `0 ≤ l < r < length`, the partition step
returns normally (no `IndexOutOfBoundsError`: every `get` in it is within the
length) an index `s` with `l ≤ s ≤ r`. Afterwards the element at `s` is the
pivot, the element that was at `l + (r - l) / 2`; every element at an index of
`[l, s)` is less than the pivot and no element at an index of `(s, r]` is; the
elements outside `[l, r]` are as before, and so are length and capacity. -/
theorem Array_Sort_Partition_spec (lt : α → α → Bool) (a : Array α) (l r : Nat)
    (hv : Array_Valid a) (hlr : l < r) (hr : r < Array_Len a) :
    ∃ (a2 : Array α) (s : Nat) (pv : α),
      Array_Sort_Partition lt a (l : Int) (r : Int) = (a2, .ok s) ∧ l ≤ s ∧ s ≤ r ∧
      Array_Len a2 = Array_Len a ∧ a2.nslots = a.nslots ∧
      get_elem a ((l + (r - l) / 2 : Nat) : Int) = .ok pv ∧
      get_elem a2 (s : Int) = .ok pv ∧
      (∀ k : Nat, l ≤ k → k < s → ∃ x, get_elem a2 (k : Int) = .ok x ∧ lt x pv = true) ∧
      (∀ k : Nat, s < k → k ≤ r → ∃ x, get_elem a2 (k : Int) = .ok x ∧ lt x pv = false) ∧
      (∀ k : Nat, k < l ∨ r < k → get_elem a2 (k : Int) = get_elem a (k : Int)) := by
  have hr' : r < a.nitems := hr
  have hall : SegAll (block a) 0 a.nitems (fun _ => True) := by
    intro k _ hk
    have := hv.2.2 k hk
    cases hg : (block a).getD k none with
    | none => rw [hg] at this; simp at this
    | some x => exact ⟨x, rfl, trivial⟩
  obtain ⟨b2, s, pv, heq, hs1, hs2, hre, hpv2, hpv, hlo, hhi⟩ :=
    partition_spec lt a l (r + 1) (by omega) (by omega) (by rw [hv.1]; exact hv.2.1) hall
  have hcast : ((r + 1 : Nat) : Int) - 1 = (r : Int) := by push_cast; omega
  rw [hcast] at heq
  have hmid : l + (r + 1 - 1 - l) / 2 = l + (r - l) / 2 := by
    rw [Nat.add_sub_cancel]
  rw [hmid] at hpv
  refine ⟨_, s, pv, heq, hs1, by omega, rfl, rfl, ?_, ?_, ?_, ?_, ?_⟩
  · rw [get_elem_lt a _ (by omega), hpv]
  · rw [get_elem_data a b2 s (by omega), hpv2]
  · intro k hk1 hk2
    obtain ⟨x, hx, hxlt⟩ := hlo k hk1 hk2
    exact ⟨x, by rw [get_elem_data a b2 k (by omega), hx], hxlt⟩
  · intro k hk1 hk2
    obtain ⟨x, hx, hxlt⟩ := hhi k (by omega) (by omega)
    exact ⟨x, by rw [get_elem_data a b2 k (by omega), hx], hxlt⟩
  · intro k hk
    exact get_elem_data_outside a b2 k (hre.2.1 k (by omega)).symm

theorem Array_Sort_Partition_spec_witness :
    Array_Valid (array_of [9, 5, 1, 3, 4, 2, 8]) ∧ (1 : Nat) < 5 ∧
    (5 : Nat) < Array_Len (array_of [9, 5, 1, 3, 4, 2, 8]) ∧
    Array_Sort_Partition lt_nat (array_of [9, 5, 1, 3, 4, 2, 8]) 1 5
      = ({ data := some [some 9, some 1, some 2, some 3, some 4, some 5, some 8], tsize := 8,
            nitems := 7, nslots := 7 }, .ok 3) ∧
    ∃ (a2 : Array Nat) (s : Nat) (pv : Nat),
      Array_Sort_Partition lt_nat (array_of [9, 5, 1, 3, 4, 2, 8]) ((1 : Nat) : Int)
        ((5 : Nat) : Int) = (a2, .ok s) ∧ 1 ≤ s ∧ s ≤ 5 ∧
      Array_Len a2 = Array_Len (array_of [9, 5, 1, 3, 4, 2, 8]) ∧
      a2.nslots = (array_of [9, 5, 1, 3, 4, 2, 8]).nslots ∧
      get_elem (array_of [9, 5, 1, 3, 4, 2, 8]) ((1 + (5 - 1) / 2 : Nat) : Int) = .ok pv ∧
      get_elem a2 (s : Int) = .ok pv ∧
      (∀ k : Nat, 1 ≤ k → k < s → ∃ x, get_elem a2 (k : Int) = .ok x ∧ lt_nat x pv = true) ∧
      (∀ k : Nat, s < k → k ≤ 5 → ∃ x, get_elem a2 (k : Int) = .ok x ∧ lt_nat x pv = false) ∧
      (∀ k : Nat, k < 1 ∨ 5 < k →
        get_elem a2 (k : Int) = get_elem (array_of [9, 5, 1, 3, 4, 2, 8]) (k : Int)) :=
  ⟨by decide, by decide, by decide, by decide,
    Array_Sort_Partition_spec lt_nat (array_of [9, 5, 1, 3, 4, 2, 8]) 1 5 (by decide) (by decide)
      (by decide)⟩

/-- C18: `Array_Sort` terminates, for any less-than relation whatever. On a
container whose length fits the signed index type the recursion returns
normally within the depth `length - 1`, with the same result for every larger
depth bound; and the partition step on a range `l < r` of a container returns
a split index `s` with `l ≤ s ≤ r`, so that the ranges `[l, s - 1]` and
`[s + 1, r]` of the two recursive calls are strictly smaller than `[l, r]`. -/
theorem Array_Sort_terminates (lt : α → α → Bool) (a : Array α) (hv : Array_Valid a)
    (hsz : a.nitems ≤ 2 ^ 63) :
    (∃ a2 : Array α, Array_Sort lt a = (a2, .ok ()) ∧
      ∀ f : Nat, Array_Len a ≤ f + 1 →
        Array_Sort_Part lt f a 0 (int64_of_size (size_sub (Array_Len a) 1)) = (a2, .ok ())) ∧
    (∀ l r : Nat, l < r → r < Array_Len a →
      ∃ (a1 : Array α) (s : Nat), Array_Sort_Partition lt a (l : Int) (r : Int) = (a1, .ok s) ∧
        l ≤ s ∧ s ≤ r ∧
        ((int64_of_size s - 1) - (l : Int) < (r : Int) - (l : Int)) ∧
        ((r : Int) - (int64_of_size s + 1) < (r : Int) - (l : Int))) := by
  have hall : SegAll (block a) 0 a.nitems (fun _ => True) := by
    intro k _ hk
    have := hv.2.2 k hk
    cases hg : (block a).getD k none with
    | none => rw [hg] at this; simp at this
    | some x => exact ⟨x, rfl, trivial⟩
  have hlen : a.nitems ≤ (block a).length := by rw [hv.1]; exact hv.2.1
  constructor
  · obtain ⟨a2, heq, -⟩ := Array_Sort_spec lt a hv hsz
    refine ⟨a2, heq, ?_⟩
    intro f hf
    have hf' : a.nitems ≤ f + 1 := hf
    unfold Array_Sort at heq
    simp only [Array_Len] at heq ⊢
    by_cases hle : a.nitems ≤ f
    · exact sort_part_fuel_le lt a _ _ a2 a.nitems heq f hle
    · obtain ⟨a3, heq3, -⟩ := sort_part_spec lt f a 0 a.nitems (by omega) (Nat.zero_le _)
        (le_refl _) hlen hsz hall
      rw [int64_of_size_sub_one _ hsz] at heq ⊢
      have h3 := sort_part_fuel_le lt a _ _ a3 f heq3 a.nitems (by omega)
      simp only [Nat.cast_zero] at h3 heq3
      rw [heq] at h3
      rw [heq3, (Prod.mk.inj h3).1]
  · intro l r hlr hr
    have hr' : r < a.nitems := hr
    obtain ⟨b2, s, pv, heq, hs1, hs2, -⟩ :=
      partition_spec lt a l (r + 1) (by omega) (by omega) hlen hall
    have hcast : ((r + 1 : Nat) : Int) - 1 = (r : Int) := by push_cast; omega
    rw [hcast] at heq
    have hs : int64_of_size s = (s : Int) := int64_of_size_lt s (by omega)
    refine ⟨_, s, heq, hs1, by omega, ?_, ?_⟩
    · rw [hs]; omega
    · rw [hs]; omega

theorem Array_Sort_terminates_witness :
    Array_Valid (array_of [3, 1, 2, 1]) ∧ (array_of [3, 1, 2, 1]).nitems ≤ 2 ^ 63 ∧
    Array_Sort_Part (fun _ _ => true) 3 (array_of [3, 1, 2, 1]) 0 3
      = Array_Sort (fun _ _ => true) (array_of [3, 1, 2, 1]) ∧
    (Array_Sort (fun _ _ => true) (array_of [3, 1, 2, 1])).2 = .ok () ∧
    (Array_Sort_Part (fun _ _ => false) 2 (array_of [3, 1, 2, 1]) 0 3).2 = .nofuel ∧
    ((∃ a2 : Array Nat, Array_Sort (fun _ _ => true) (array_of [3, 1, 2, 1]) = (a2, .ok ()) ∧
        ∀ f : Nat, Array_Len (array_of [3, 1, 2, 1]) ≤ f + 1 →
          Array_Sort_Part (fun _ _ => true) f (array_of [3, 1, 2, 1]) 0
            (int64_of_size (size_sub (Array_Len (array_of [3, 1, 2, 1])) 1)) = (a2, .ok ())) ∧
      (∀ l r : Nat, l < r → r < Array_Len (array_of [3, 1, 2, 1]) →
        ∃ (a1 : Array Nat) (s : Nat),
          Array_Sort_Partition (fun _ _ => true) (array_of [3, 1, 2, 1]) (l : Int) (r : Int)
            = (a1, .ok s) ∧
          l ≤ s ∧ s ≤ r ∧
          ((int64_of_size s - 1) - (l : Int) < (r : Int) - (l : Int)) ∧
          ((r : Int) - (int64_of_size s + 1) < (r : Int) - (l : Int)))) :=
  ⟨by decide, by decide, by decide, by decide, by decide,
    Array_Sort_terminates (fun _ _ => true) (array_of [3, 1, 2, 1]) (by decide) (by decide)⟩

/-- C15, as stated, fails: on the reachable container `[5, 3]`, of capacity 2,
`push` grows the capacity to 4 and the `pop` that directly follows shrinks it
to 2 again, so both calls reallocate. -/
theorem push_pop_both_reallocate :
    Reachable (array_of [5, 3]) ∧
    Array_Push true (array_of [5, 3]) 9
      = ({ data := some [some 5, some 3, some 9, none], tsize := 8, nitems := 3, nslots := 4 },
          .ok ()) ∧
    Array_Pop true (Array_Push true (array_of [5, 3]) 9).1
      = ({ data := some [some 5, some 3], tsize := 8, nitems := 2, nslots := 2 }, .ok ()) ∧
    (array_of [5, 3]).nslots < (Array_Push true (array_of [5, 3]) 9).1.nslots ∧
    ¬ ((Array_Pop true (Array_Push true (array_of [5, 3]) 9).1).1.nslots
        = (Array_Push true (array_of [5, 3]) 9).1.nslots) :=
  ⟨Reachable.construct 8 [5, 3] _ (by decide), by decide, by decide, by decide, by decide⟩

/-- C15, amended: on a reachable container, a `push` directly followed by a
`pop` (allocation requests granted) both return normally and leave the
capacity that was there before; the `pop` shrinks the capacity exactly when the
`push` grew it: it does not shrink after a `push` that did not grow, and it
does shrink after a `push` that grew. -/
theorem push_pop_capacity (a : Array α) (v : α) (h : Reachable a) :
    ∃ a1 a2 : Array α, Array_Push true a v = (a1, .ok ()) ∧ Array_Pop true a1 = (a2, .ok ()) ∧
      a2.nslots = a.nslots ∧
      (a1.nslots = a.nslots → a2.nslots = a1.nslots) ∧
      (a.nslots < a1.nslots → a2.nslots < a1.nslots) := by
  obtain ⟨hv, ht⟩ := Reachable_valid_tight a h
  obtain ⟨xs, hxs⟩ := Valid_Rep hv
  obtain ⟨a1, hrun1, hrep1, -, hs1⟩ := Array_Push_Rep a xs v hxs
  obtain ⟨a2, hrun2, hrep2, -, hs2⟩ := Array_Pop_Rep a1 _ hrep1 (by simp)
  have hn1 : a1.nitems = a.nitems + 1 := by rw [hrep1.1, hxs.1]; simp
  have hcap : a.nitems ≤ a.nslots := hv.2.1
  have ht' : a.nslots ≤ a.nitems + a.nitems / 2 := ht
  rw [hn1, Nat.add_sub_cancel] at hs2
  obtain ⟨h1, h2, h3⟩ := grow_then_shrink hcap ht' hs1 hs2
  exact ⟨a1, a2, hrun1, hrun2, h1, h2, h3⟩

theorem push_pop_capacity_witness :
    Reachable (Array_Push true (array_of [5, 3]) 9).1 ∧
    (Array_Push true (Array_Push true (array_of [5, 3]) 9).1 7).1.nslots = 4 ∧
    (Array_Pop true (Array_Push true (Array_Push true (array_of [5, 3]) 9).1 7).1).1.nslots = 4 ∧
    ∃ a1 a2 : Array Nat, Array_Push true (Array_Push true (array_of [5, 3]) 9).1 7 = (a1, .ok ()) ∧
      Array_Pop true a1 = (a2, .ok ()) ∧
      a2.nslots = (Array_Push true (array_of [5, 3]) 9).1.nslots ∧
      (a1.nslots = (Array_Push true (array_of [5, 3]) 9).1.nslots → a2.nslots = a1.nslots) ∧
      ((Array_Push true (array_of [5, 3]) 9).1.nslots < a1.nslots → a2.nslots < a1.nslots) :=
  ⟨Reachable.push (array_of [5, 3]) 9 _ (Reachable.construct 8 [5, 3] _ (by decide)) (by decide),
    by decide, by decide,
    push_pop_capacity (Array_Push true (array_of [5, 3]) 9).1 7
      (Reachable.push (array_of [5, 3]) 9 _ (Reachable.construct 8 [5, 3] _ (by decide))
        (by decide))⟩

/-- C19: every container reachable from a construction by operations that
return normally has a capacity of at most `length + length / 2`, the division
rounding down; and on such a container `push_at` at an index from `0` to the
length followed by `pop_at` at the same index restores the capacity as well as
the length and the elements. -/
theorem Reachable_capacity (a : Array α) (h : Reachable a) :
    a.nslots ≤ Array_Len a + Array_Len a / 2 ∧
    ∀ (v : α) (key : Int), 0 ≤ key → key ≤ (Array_Len a : Int) →
      ∃ a1 a2 : Array α, Array_Push_At true a v key = (a1, .ok ()) ∧
        Array_Pop_At true a1 key = (a2, .ok ()) ∧
        a2.nslots = a.nslots ∧ Array_Len a2 = Array_Len a ∧
        Array_toList a2 = Array_toList a := by
  obtain ⟨hv, ht⟩ := Reachable_valid_tight a h
  refine ⟨ht, ?_⟩
  intro v key h0 h1
  obtain ⟨xs, hxs⟩ := Valid_Rep hv
  obtain ⟨i, rfl⟩ := Int.eq_ofNat_of_zero_le h0
  have hi : i ≤ xs.length := by
    have : (i : Int) ≤ (a.nitems : Int) := h1
    rw [← hxs.1]; omega
  obtain ⟨a1, hrun1, hrep1, -, hs1⟩ := Array_Push_At_Rep a xs v i hxs hi
  have hlen : i < (xs.take i ++ v :: xs.drop i).length := by
    simp only [List.length_append, List.length_take, List.length_cons, List.length_drop]; omega
  obtain ⟨a2, hrun2, hrep2, -, hs2⟩ := Array_Pop_At_Rep a1 _ i hrep1 hlen
  have hA : (xs.take i).length = i := by simp [List.length_take, Nat.min_eq_left hi]
  have hback : (xs.take i ++ v :: xs.drop i).take i ++ (xs.take i ++ v :: xs.drop i).drop (i + 1)
      = xs := by
    have e : xs.take i ++ v :: xs.drop i = (xs.take i ++ [v]) ++ xs.drop i := by simp
    have hA1 : (xs.take i ++ [v]).length = i + 1 := by simp [hA]
    rw [List.take_left' hA, e, List.drop_left' hA1, List.take_append_drop]
  rw [hback] at hrep2
  have hn1 : a1.nitems = a.nitems + 1 := by
    rw [hrep1.1, hxs.1]
    simp only [List.length_append, List.length_take, List.length_cons, List.length_drop]
    omega
  have hcap : a.nitems ≤ a.nslots := hv.2.1
  have ht' : a.nslots ≤ a.nitems + a.nitems / 2 := ht
  rw [hn1, Nat.add_sub_cancel] at hs2
  refine ⟨a1, a2, hrun1, hrun2, (grow_then_shrink hcap ht' hs1 hs2).1, ?_, ?_⟩
  · show a2.nitems = a.nitems
    rw [hrep2.1, hxs.1]
  · rw [Rep_toList hrep2, Rep_toList hxs]

theorem Reachable_capacity_witness :
    Reachable (array_of [5, 3]) ∧
    (Array_Pop_At true (Array_Push_At true (array_of [5, 3]) 9 1).1 1)
      = (array_of [5, 3], .ok ()) ∧
    ((array_of [5, 3]).nslots ≤ Array_Len (array_of [5, 3]) + Array_Len (array_of [5, 3]) / 2 ∧
      ∀ (v : Nat) (key : Int), 0 ≤ key → key ≤ (Array_Len (array_of [5, 3]) : Int) →
        ∃ a1 a2 : Array Nat, Array_Push_At true (array_of [5, 3]) v key = (a1, .ok ()) ∧
          Array_Pop_At true a1 key = (a2, .ok ()) ∧
          a2.nslots = (array_of [5, 3]).nslots ∧ Array_Len a2 = Array_Len (array_of [5, 3]) ∧
          Array_toList a2 = Array_toList (array_of [5, 3])) :=
  ⟨Reachable.construct 8 [5, 3] _ (by decide), by decide,
    Reachable_capacity (array_of [5, 3]) (Reachable.construct 8 [5, 3] _ (by decide))⟩

end Cello
